import Mathlib

/-!
# Arithmetic expression evaluator (`src/evaluator.cpp`)

A shallow embedding of the `Evaluator` class: the parenthesis prescan
(`checkParenthesis`), the tokenizer (`tokenize`), the operator table
(`isOperator`, `getPrecedence`, `hasPrecedence`), the reduce step (`operate`,
`applyOperator`) and the shunting-yard driver (`calculate`).

* A `std::string` is a `List Char`, one `Char` for each `char` of the string;
  `s[0]` of an empty string is the terminating `'\0'` (`at0`).  A `Char` above
  127 stands for the bytes of its encoding: none of them is a digit, an
  operator, a parenthesis or a space, so the code treats them alike.
* A `std::stack<string>` is a `List Str` whose head is the top of the stack;
  a `std::queue<string>` is a `List Str` whose head is the front.
* The statement `throw n;` is `Except.error (Failure.thrown n)`.  The two
  exceptions `std::stof` can raise, and the read of `top()` on an empty stack
  (undefined behaviour in C++), are separate constructors of `Failure`, so
  that no statement below can confuse them with a thrown code.
* The `while` loops of `calculate` recurse on the operator stack, which every
  pass of `operate` shortens by one entry; `closeLoop_cons`, `precLoop_cons`
  and `drainLoop_cons` state each loop as a pass of `operate` after the other.
* The C++ numeric library (`std::stof`, the arithmetic of `float`, `pow`,
  `fmod`, `std::to_string`) is not code of this repository.  Every definition
  takes it as a parameter `N : Numeric`, and every general theorem holds for
  all `N`.
-/

namespace Evaluator

/-- A `std::string`. -/
abbrev Str := List Char

/-- The ways a call can end other than by returning. -/
inductive Failure where
  /-- The statement `throw code;` with an `int`. -/
  | thrown (code : Nat)
  /-- The exception `std::invalid_argument`, raised by `std::stof`. -/
  | invalid_argument
  /-- The exception `std::out_of_range`, raised by `std::stof`. -/
  | out_of_range
  /-- The call `top()` on an empty `std::stack` (undefined behaviour). -/
  | empty_top
  deriving DecidableEq, Repr

/-- The two exceptions of `std::stof`. -/
inductive StofError where
  | invalid_argument
  | out_of_range
  deriving DecidableEq, Repr

/-- Equality of outcomes is decidable, so that concrete runs can be checked
by evaluation. -/
instance instDecidableEqOutcome {ε α : Type} [DecidableEq ε] [DecidableEq α] :
    DecidableEq (Except ε α)
  | .ok a, .ok b => if h : a = b then isTrue (by rw [h]) else isFalse (by intro h2; cases h2; exact h rfl)
  | .error a, .error b =>
    if h : a = b then isTrue (by rw [h]) else isFalse (by intro h2; cases h2; exact h rfl)
  | .ok _, .error _ => isFalse (by intro h; cases h)
  | .error _, .ok _ => isFalse (by intro h; cases h)

/-- The `Failure` a `std::stof` exception surfaces as. -/
def StofError.toFailure : StofError → Failure
  | .invalid_argument => .invalid_argument
  | .out_of_range => .out_of_range

/-- The numeric library `applyOperator` is written against: the type `float`,
`std::stof`, the four arithmetic operators, `pow`, `fmod`, the test `b == 0` and
`std::to_string`. -/
structure Numeric where
  Flt : Type
  stof : Str → Except StofError Flt
  add : Flt → Flt → Flt
  sub : Flt → Flt → Flt
  mul : Flt → Flt → Flt
  div : Flt → Flt → Flt
  pow : Flt → Flt → Flt
  fmod : Flt → Flt → Flt
  isZero : Flt → Bool
  to_string : Flt → Str

/-- The operand and operator stacks `numStack` and `opStack` of the class. -/
structure Stacks where
  opStack : List Str
  numStack : List Str
  deriving DecidableEq, Repr

/-- The character `s[0]`; for an empty string this is the terminator. -/
def at0 (s : Str) : Char := s.headD (Char.ofNat 0)

/-- The C function `isdigit` in the "C" locale. -/
def isdigit (c : Char) : Bool := decide (48 ≤ c.toNat) && decide (c.toNat ≤ 57)

/-- The method `Evaluator::isOperator`: whether `c[0]` is one of `+ - * / ^ %`. -/
def isOperator (c : Str) : Bool :=
  let k := at0 c
  k == '+' || k == '-' || k == '*' || k == '/' || k == '^' || k == '%'

/-- The call `std::stof` as `applyOperator` makes it: an exception of `stof`
ends the evaluation. -/
def stofE (N : Numeric) (s : Str) : Except Failure N.Flt :=
  match N.stof s with
  | .ok v => .ok v
  | .error e => .error e.toFailure

/-- The method `Evaluator::applyOperator`: both operands are parsed first, then the switch
on `op[0]` computes the result, which is rendered by `to_string`. -/
def applyOperator (N : Numeric) (str_a str_b op : Str) : Except Failure Str := do
  let a ← stofE N str_a
  let b ← stofE N str_b
  let k := at0 op
  let res ←
    if k = '+' then pure (N.add a b)
    else if k = '-' then pure (N.sub a b)
    else if k = '*' then pure (N.mul a b)
    else if k = '/' then
      if N.isZero b then throw (Failure.thrown 3) else pure (N.div a b)
    else if k = '^' then pure (N.pow a b)
    else if k = '%' then
      if N.isZero b then throw (Failure.thrown 3) else pure (N.fmod a b)
    else throw (Failure.thrown 52)
  pure (N.to_string res)

/-- The body of `Evaluator::operate` once `op` has been read and popped from
`opStack`: pop `b`, pop `a`, push `applyOperator(a, b, op)`. -/
def operateWith (N : Numeric) (op : Str) (numStack : List Str) :
    Except Failure (List Str) :=
  match numStack with
  | [] => throw (Failure.thrown 21)
  | b :: rest =>
    match rest with
    | [] => throw (Failure.thrown 22)
    | a :: rest2 => do
      let res ← applyOperator N a b op
      pure (res :: rest2)

/-- The method `Evaluator::operate`; calling it on an empty operator stack
would read `opStack.top()` of an empty stack, which `calculate` never does. -/
def operate (N : Numeric) (s : Stacks) : Except Failure Stacks :=
  match s.opStack with
  | [] => throw Failure.empty_top
  | op :: ops => do
    let nums ← operateWith N op s.numStack
    pure ⟨ops, nums⟩

/-- The method `Evaluator::getPrecedence`. -/
def getPrecedence (op : Str) : Except Failure Nat :=
  let k := at0 op
  if k = '^' then pure 3
  else if k = '*' ∨ k = '/' ∨ k = '%' then pure 2
  else if k = '+' ∨ k = '-' then pure 1
  else if k = '(' ∨ k = ')' then pure 0
  else throw (Failure.thrown 53)

/-- The method `Evaluator::hasPrecedence`: `getPrecedence(op1) >= getPrecedence(op2)`. -/
def hasPrecedence (op1 op2 : Str) : Except Failure Bool := do
  let p1 ← getPrecedence op1
  let p2 ← getPrecedence op2
  pure (decide (p1 ≥ p2))

/-- The method `Evaluator::checkParenthesis`, the loop from the character list on, with
the `std::stack<char> checker` as a list. -/
def checkLoop (checker : List Char) : List Char → Except Failure Unit
  | [] => if checker.isEmpty then pure () else throw (Failure.thrown 6)
  | c :: rest =>
    if c = '(' then checkLoop (c :: checker) rest
    else if c = ')' then
      match checker with
      | [] => throw (Failure.thrown 6)
      | _ :: popped => checkLoop popped rest
    else checkLoop checker rest

/-- The method `Evaluator::checkParenthesis`. -/
def checkParenthesis (exp : Str) : Except Failure Unit := checkLoop [] exp

/-- What one pass of the `for` loop of `tokenize` pushes for an operator or
parenthesis `c` at index `i`, with `next = exp[i+1]`: the leading-sign `"0"`,
the pending number, `c` itself, and the `"0"` after an opening parenthesis
that is followed by a sign. -/
def emitted (i : Nat) (number : Str) (c next : Char) : List Str :=
  (if i = 0 ∧ (c = '+' ∨ c = '-') then [['0']] else []) ++
  (if number ≠ [] then [number] else []) ++
  [[c]] ++
  (if c = '(' ∧ (next = '+' ∨ next = '-') then [['0']] else [])

/-- The `for` loop of `Evaluator::tokenize` from index `i` on, where the list is
`exp[i..]` and `number` the pending operand; returns the tokens pushed from
this index on, the final flush of `number` included. -/
def scan (i : Nat) (number : Str) : List Char → Except Failure (List Str)
  | [] => pure (if number ≠ [] then [number] else [])
  | c :: rest =>
    if isOperator [c] ∨ c = '(' ∨ c = ')' then do
      let more ← scan (i + 1) [] rest
      pure (emitted i number c (at0 rest) ++ more)
    else if isdigit c ∨ c = '.' then scan (i + 1) (number ++ [c]) rest
    else if c ≠ ' ' then throw (Failure.thrown 51)
    else scan (i + 1) number rest

/-- The method `Evaluator::tokenize`: the prescan, then the scan. -/
def tokenize (exp : Str) : Except Failure (List Str) := do
  checkParenthesis exp
  scan 0 [] exp

/-- The test `token.length() > 1 || isdigit(token[0])` of `calculate`. -/
def isNumberToken (token : Str) : Bool :=
  decide (token.length > 1) || isdigit (at0 token)

/-- The loop `while (!opStack.empty() && opStack.top() != "(") operate();`. -/
def closeLoop (N : Numeric) : List Str → List Str → Except Failure Stacks
  | [], nums => pure ⟨[], nums⟩
  | top :: ops, nums =>
    if top ≠ ['('] then do
      let nums2 ← operateWith N top nums
      closeLoop N ops nums2
    else pure ⟨top :: ops, nums⟩

/-- The loop `while (!opStack.empty() && hasPrecedence(opStack.top(), token))
operate();`. -/
def precLoop (N : Numeric) (token : Str) : List Str → List Str → Except Failure Stacks
  | [], nums => pure ⟨[], nums⟩
  | top :: ops, nums => do
    if (← hasPrecedence top token) then
      let nums2 ← operateWith N top nums
      precLoop N token ops nums2
    else pure ⟨top :: ops, nums⟩

/-- The loop `while (!opStack.empty()) operate();`. -/
def drainLoop (N : Numeric) : List Str → List Str → Except Failure Stacks
  | [], nums => pure ⟨[], nums⟩
  | top :: ops, nums => do
    let nums2 ← operateWith N top nums
    drainLoop N ops nums2

/-- One pass of the token loop of `calculate` for the front token. -/
def stepToken (N : Numeric) (token : Str) (s : Stacks) : Except Failure Stacks :=
  if isNumberToken token then pure ⟨s.opStack, token :: s.numStack⟩
  else if token = ['('] then pure ⟨token :: s.opStack, s.numStack⟩
  else if token = [')'] then do
    let s2 ← closeLoop N s.opStack s.numStack
    match s2.opStack with
    | [] => throw (Failure.thrown 1)
    | _ :: ops => pure ⟨ops, s2.numStack⟩
  else do
    let s2 ← precLoop N token s.opStack s.numStack
    pure ⟨token :: s2.opStack, s2.numStack⟩

/-- The loop `while (!tokens.empty())` of `calculate`. -/
def tokenLoop (N : Numeric) : List Str → Stacks → Except Failure Stacks
  | [], s => pure s
  | token :: tokens, s => do
    let s2 ← stepToken N token s
    tokenLoop N tokens s2

/-- The method `Evaluator::calculate` up to the final `return`: the stacks as they stand
when `numStack.top()` is read. -/
def finalStacks (N : Numeric) (exp : Str) : Except Failure Stacks := do
  let tokens ← tokenize exp
  let s ← tokenLoop N tokens ⟨[], []⟩
  drainLoop N s.opStack s.numStack

/-- The method `Evaluator::calculate`: the top of the operand stack is
returned without a test that the stack holds an entry. -/
def calculate (N : Numeric) (exp : Str) : Except Failure Str := do
  let s ← finalStacks N exp
  match s.numStack with
  | [] => throw Failure.empty_top
  | top :: _ => pure top

/-! ## A concrete numeric layer

The general theorems below hold for every `N : Numeric`.  Concrete runs need one
particular layer.  `binary32` is the layer of section 4.2 of the specification
(IEEE-754 binary floating point, parsed from decimal text and rendered with six
fractional digits) at the width the source declares, `float`.  The source only
calls this layer (`std::stof`, the operators on `float`, `pow`, `fmod`,
`std::to_string`); its code is the C++ standard library.
-/

/-- Modelled from the spec: the value type of the numeric layer (the C++ type
`float`), whose code `src/` does not contain.  Section 4.2 fixes it as
IEEE-754 binary floating point; `finite neg m e` stands for
`(-1)^neg * m * 2^e` with `m < 2^24` and `-149 ≤ e ≤ 104`, and a zero keeps
its sign. -/
inductive F32 where
  | finite (neg : Bool) (m : Nat) (e : Int)
  | inf (neg : Bool)
  | nan
  deriving DecidableEq, Repr

namespace F32

/-- Modelled from the spec: the fraction `n / (d * 2^e)` as a pair of naturals
(helper of the IEEE-754 rounding the spec's numeric layer performs). -/
def scaled (n d : Nat) (e : Int) : Nat × Nat :=
  if 0 ≤ e then (n, d * 2 ^ e.toNat) else (n * 2 ^ (-e).toNat, d)

/-- Modelled from the spec: the position of the leading binary digit of `n`,
the floor of its base-2 logarithm (0 for `n = 0`); the first argument bounds
the number of halvings. -/
def log2Fuel : Nat → Nat → Nat
  | 0, _ => 0
  | fuel + 1, n => if n < 2 then 0 else log2Fuel fuel (n / 2) + 1

/-- Modelled from the spec: the floor of the base-2 logarithm of `n`. -/
def log2 (n : Nat) : Nat := log2Fuel n n

/-- Modelled from the spec: the binary exponent at which `n / d` (with `n`
nonzero) has a 24-bit significand, never below the subnormal exponent. -/
def expOf (n d : Nat) : Int :=
  let l : Int := (log2 n : Int) - (log2 d : Int)
  let e1 : Int := max (l - 23) (-149)
  let p := scaled n d e1
  if e1 = -149 ∨ 2 ^ 23 ≤ p.1 / p.2 then e1 else max (e1 - 1) (-149)

/-- Modelled from the spec: IEEE-754 round-to-nearest, ties-to-even, of the
rational `n / d` (with `d` nonzero) to binary32, with the "inexact" flag. -/
def roundNE (neg : Bool) (n d : Nat) : F32 × Bool :=
  if n = 0 then (finite neg 0 (-149), false)
  else
    let e := expOf n d
    let p := scaled n d e
    let q := p.1 / p.2
    let r := p.1 % p.2
    let up := decide (p.2 < 2 * r) || (decide (2 * r = p.2) && decide (q % 2 = 1))
    let q2 := if up then q + 1 else q
    let m := if q2 = 2 ^ 24 then 2 ^ 23 else q2
    let e2 := if q2 = 2 ^ 24 then e + 1 else e
    if 104 < e2 then (inf neg, true) else (finite neg m e2, decide (r ≠ 0))

/-- Modelled from the spec: the binary32 nearest to the nonzero dyadic number
`s * 2^e`. -/
def ofDyadic (s : Int) (e : Int) : F32 :=
  (roundNE (decide (s < 0)) (scaled s.natAbs 1 (-e)).1 (scaled s.natAbs 1 (-e)).2).1

/-- Modelled from the spec: a sign and a magnitude as an integer. -/
def withSign (neg : Bool) (m : Nat) : Int := if neg then -(m : Int) else (m : Int)

/-- Modelled from the spec: `a + b` on `float` (section 4.2, row `+`). -/
def add : F32 → F32 → F32
  | nan, _ => nan
  | _, nan => nan
  | inf s, inf t => if s = t then inf s else nan
  | inf s, finite _ _ _ => inf s
  | finite _ _ _, inf t => inf t
  | finite s1 m1 e1, finite s2 m2 e2 =>
    let e := min e1 e2
    let sum := withSign s1 m1 * 2 ^ (e1 - e).toNat + withSign s2 m2 * 2 ^ (e2 - e).toNat
    if sum = 0 then finite (s1 && s2) 0 (-149) else ofDyadic sum e

/-- Modelled from the spec: unary minus on `float`. -/
def negate : F32 → F32
  | nan => nan
  | inf s => inf (!s)
  | finite s m e => finite (!s) m e

/-- Modelled from the spec: `a - b` on `float` (section 4.2, row `-`). -/
def sub (a b : F32) : F32 := add a (negate b)

/-- Modelled from the spec: `a * b` on `float` (section 4.2, row `*`). -/
def mul : F32 → F32 → F32
  | nan, _ => nan
  | _, nan => nan
  | inf s, inf t => inf (xor s t)
  | inf s, finite t m _ => if m = 0 then nan else inf (xor s t)
  | finite s m _, inf t => if m = 0 then nan else inf (xor s t)
  | finite s1 m1 e1, finite s2 m2 e2 =>
    (roundNE (xor s1 s2) (scaled (m1 * m2) 1 (-(e1 + e2))).1 (scaled (m1 * m2) 1 (-(e1 + e2))).2).1

/-- Modelled from the spec: `a / b` on `float` (section 4.2, row `/`). -/
def div : F32 → F32 → F32
  | nan, _ => nan
  | _, nan => nan
  | inf _, inf _ => nan
  | inf s, finite t _ _ => inf (xor s t)
  | finite s _ _, inf t => finite (xor s t) 0 (-149)
  | finite s1 m1 e1, finite s2 m2 e2 =>
    if m2 = 0 then (if m1 = 0 then nan else inf (xor s1 s2))
    else (roundNE (xor s1 s2) (scaled m1 m2 (e2 - e1)).1 (scaled m1 m2 (e2 - e1)).2).1

/-- Modelled from the spec: `fmod(a, b)` (section 4.2, row `%`: the sign
follows `a` and the magnitude is below that of `b`); the result is exact. -/
def fmod : F32 → F32 → F32
  | nan, _ => nan
  | _, nan => nan
  | inf _, _ => nan
  | finite s m e, inf _ => finite s m e
  | finite s1 m1 e1, finite _ m2 e2 =>
    if m2 = 0 then nan
    else
      let e := min e1 e2
      let r := (m1 * 2 ^ (e1 - e).toNat) % (m2 * 2 ^ (e2 - e).toNat)
      if r = 0 then finite s1 0 (-149) else ofDyadic (withSign s1 r) e

/-- Modelled from the spec: the integer a `float` stands for, when it is one. -/
def toInt? : F32 → Option Int
  | finite s m e =>
    if 0 ≤ e then some (withSign s (m * 2 ^ e.toNat))
    else if m % 2 ^ (-e).toNat = 0 then some (withSign s (m / 2 ^ (-e).toNat))
    else none
  | _ => none

/-- Modelled from the spec: the `float` 1. -/
def one : F32 := finite false (2 ^ 23) (-23)

/-- Modelled from the spec: `x` raised to the integer `k`, correctly rounded. -/
def powInt (x : F32) (k : Int) : F32 :=
  if k = 0 then one
  else
    match x with
    | nan => nan
    | inf s =>
      if 0 < k then inf (s && decide (k % 2 = 1)) else finite (s && decide (k % 2 = 1)) 0 (-149)
    | finite s m e =>
      if m = 0 then
        (if 0 < k then finite (s && decide (k % 2 = 1)) 0 (-149) else inf (s && decide (k % 2 = 1)))
      else if 0 < k then
        (roundNE (s && decide (k % 2 = 1)) (scaled (m ^ k.natAbs) 1 (-(e * k.natAbs))).1
          (scaled (m ^ k.natAbs) 1 (-(e * k.natAbs))).2).1
      else
        (roundNE (s && decide (k % 2 = 1)) (scaled (m ^ k.natAbs) 1 (-(e * k.natAbs))).2
          (scaled (m ^ k.natAbs) 1 (-(e * k.natAbs))).1).1

/-- Modelled from the spec: `pow(a, b)` (section 4.2, row `^`: "standard float
power, NaN/Inf per platform").  The platform's `powf` is not specified to the
bit: it is modelled by the correctly rounded power for an integral exponent,
and a non-integral exponent is left unmodelled (the result is `nan`).  No
statement of this file depends on a power with a non-integral exponent. -/
def pow (x y : F32) : F32 :=
  if x = one then one
  else
    match toInt? y with
    | some k => powInt x k
    | none => nan

/-- Modelled from the spec: the comparison `b == 0` on `float` (section 4.2:
"`b == 0` → DivisionByZero"); both zeros compare equal to 0. -/
def isZero : F32 → Bool
  | finite _ m _ => decide (m = 0)
  | _ => false

/-- Modelled from the spec: the decimal digits of a natural number, most
significant first (helper of the decimal rendering). -/
def natDigits : Nat → Nat → Str → Str
  | 0, _, acc => acc
  | fuel + 1, n, acc =>
    if n / 10 = 0 then Char.ofNat (48 + n % 10) :: acc
    else natDigits fuel (n / 10) (Char.ofNat (48 + n % 10) :: acc)

/-- Modelled from the spec: a natural number in decimal. -/
def natStr (n : Nat) : Str := natDigits (n + 1) n []

/-- Modelled from the spec: `std::to_string(float)`, "the platform's default
fixed-point decimal rendering of a float (typically six fractional digits,
e.g. `4.000000`)" of section 4.2: the exact value rounded to six fractional
digits, ties to even. -/
def to_string : F32 → Str
  | nan => ['n', 'a', 'n']
  | inf s => (if s then ['-'] else []) ++ ['i', 'n', 'f']
  | finite s m e =>
    let p := scaled (m * 10 ^ 6) 1 (-e)
    let q := p.1 / p.2
    let r := p.1 % p.2
    let up := decide (p.2 < 2 * r) || (decide (2 * r = p.2) && decide (q % 2 = 1))
    let u := if up then q + 1 else q
    let frac := natStr (u % 10 ^ 6)
    (if s then ['-'] else []) ++ natStr (u / 10 ^ 6) ++ ['.'] ++
      List.replicate (6 - frac.length) '0' ++ frac

/-- Modelled from the spec: the C function `isspace` in the "C" locale. -/
def isspace (c : Char) : Bool :=
  decide (c = ' ') || (decide (9 ≤ c.toNat) && decide (c.toNat ≤ 13))

/-- Modelled from the spec: the number a string of decimal digits denotes. -/
def digitsVal (ds : Str) : Nat := ds.foldl (fun acc c => acc * 10 + (c.toNat - 48)) 0

/-- Modelled from the spec: an ASCII letter in lower case. -/
def lower (c : Char) : Char :=
  if 65 ≤ c.toNat ∧ c.toNat ≤ 90 then Char.ofNat (c.toNat + 32) else c

/-- Modelled from the spec: `std::stof` after leading white space and the sign.
The longest prefix that reads as `inf`, `nan`, or decimal digits with at most
one decimal point is converted and the rest of the string ignored; with no
digit at all the call raises `std::invalid_argument`; a value that rounds
beyond the largest `float`, or a nonzero value that underflows inexactly,
raises `std::out_of_range`.  Exponent and hexadecimal forms are left out: the
strings that reach `stof` in this program are tokens made of digits and
periods and strings produced by `to_string`. -/
def stofBody (neg : Bool) (s : Str) : Except StofError F32 :=
  if (s.take 3).map lower = ['i', 'n', 'f'] then .ok (inf neg)
  else if (s.take 3).map lower = ['n', 'a', 'n'] then .ok nan
  else
    let ip := s.takeWhile isdigit
    let fp :=
      match s.dropWhile isdigit with
      | '.' :: t => t.takeWhile isdigit
      | _ => []
    if ip = [] ∧ fp = [] then .error .invalid_argument
    else
      match roundNE neg (digitsVal (ip ++ fp)) (10 ^ fp.length) with
      | (finite sg m e, inexact) =>
        if m < 2 ^ 23 ∧ inexact = true then .error .out_of_range else .ok (finite sg m e)
      | _ => .error .out_of_range

/-- Modelled from the spec: `std::stof`, the "numeric parsing" of section 4.1
(see `stofBody`). -/
def stof (s : Str) : Except StofError F32 :=
  match s.dropWhile isspace with
  | '-' :: t => stofBody true t
  | '+' :: t => stofBody false t
  | t => stofBody false t

end F32

/-- Modelled from the spec: the numeric layer of section 4.2, IEEE-754 binary
floating point at the width of `float`, with the decimal parsing of
`std::stof` and the six-digit rendering of `std::to_string`; `src/` calls this
library and does not contain it. -/
def binary32 : Numeric where
  Flt := F32
  stof := F32.stof
  add := F32.add
  sub := F32.sub
  mul := F32.mul
  div := F32.div
  pow := F32.pow
  fmod := F32.fmod
  isZero := F32.isZero
  to_string := F32.to_string

/-! ## The vocabulary of the specification

Definitions that follow the words of the specification (the depth counter of
the prescan, number literals, the expression tree with its precedence levels
and its reference evaluation), to be compared with the code above.
-/

/-- The depth counter of the prescan as the specification words it (section
4.1, step 1), after the characters of `s`: one up for each `(`, one down for
each `)`. -/
def depth (s : List Char) : Int := (s.count '(' : Int) - (s.count ')' : Int)

/-- The failure condition of the prescan as the specification words it: "the
counter goes negative or is nonzero at end of input". -/
def unbalanced (exp : Str) : Bool :=
  (List.range (exp.length + 1)).any (fun k => decide (depth (exp.take k) < 0)) ||
    decide (depth exp ≠ 0)

/-- The counter, started at `d`, goes negative inside `s` or ends nonzero. -/
def failsFrom (d : Int) (s : List Char) : Prop :=
  (∃ k, k ≤ s.length ∧ d + depth (s.take k) < 0) ∨ d + depth s ≠ 0

/-- A number literal of the specification, `[0-9]+(\.[0-9]+)?`. -/
def isLiteral (s : Str) : Bool :=
  match s.dropWhile isdigit with
  | [] => !(s.takeWhile isdigit).isEmpty
  | c :: fp => !(s.takeWhile isdigit).isEmpty && c == '.' && !fp.isEmpty && fp.all isdigit

/-- The failures the evaluation of a token sequence can end in: the thrown
codes 1, 3, 21, 22, 52, 53 and the two exceptions of `std::stof`. -/
def EvalFailure (e : Failure) : Prop :=
  e = .thrown 1 ∨ e = .thrown 3 ∨ e = .thrown 21 ∨ e = .thrown 22 ∨ e = .thrown 52 ∨
    e = .thrown 53 ∨ e = .invalid_argument ∨ e = .out_of_range

/-- The precedence rank of a lexeme (section 3, "Precedence"), read off
`getPrecedence`. -/
def precOf (t : Str) : Nat :=
  match getPrecedence t with
  | .ok p => p
  | .error _ => 0

/-- An expression tree: a number literal, a parenthesised group, a unary sign
in front of a term, or a binary application. -/
inductive Expr where
  | num (lit : Str)
  | group (e : Expr)
  | unary (sign : Char) (x : Expr)
  | bin (l : Expr) (op : Char) (r : Expr)
  deriving DecidableEq, Repr

namespace Expr

/-- The expression string of a tree, written without white space. -/
def render : Expr → Str
  | num lit => lit
  | group e => '(' :: (render e ++ [')'])
  | unary s x => s :: render x
  | bin l op r => render l ++ op :: render r

/-- The precedence level of the root of a tree: the rank of its operator; a
unary sign ranks as the binary `+ -`, an atom ranks above every operator. -/
def level : Expr → Nat
  | num _ => 4
  | group _ => 4
  | unary _ _ => 1
  | bin _ op _ => precOf [op]

/-- Well-formed trees: the trees the grammar builds with precedence
`^` (3) > `* / %` (2) > `+ -` (1) and left associativity.  The left operand of
an operator ranks at least as high as the operator, the right operand strictly
higher, and a unary sign stands only where `lead` allows it (at the very start
or directly after an opening parenthesis), in front of a term of rank 2 or
more. -/
def wf (lead : Bool) : Expr → Bool
  | num lit => isLiteral lit
  | group e => wf true e
  | unary s x => lead && (s == '+' || s == '-') && wf false x && decide (2 ≤ level x)
  | bin l op r =>
    isOperator [op] && wf lead l && decide (precOf [op] ≤ level l) && wf false r &&
      decide (precOf [op] < level r)

/-- The reference evaluation of a tree: every binary node is computed by
`applyOperator(a, b, op)` on the values of its operands, left operand first,
and a unary sign `s` before `x` by `applyOperator("0", x, s)`. -/
def eval (N : Numeric) : Expr → Except Failure Str
  | num lit => pure lit
  | group e => eval N e
  | unary s x => do
    let v ← eval N x
    applyOperator N ['0'] v [s]
  | bin l op r => do
    let a ← eval N l
    let b ← eval N r
    applyOperator N a b [op]

/-- Whether the string of a tree starts with a unary sign. -/
def startsSigned : Expr → Bool
  | num _ => false
  | group _ => false
  | unary _ _ => true
  | bin l _ _ => startsSigned l

/-- The tokens of a tree apart from the `"0"` injected in front of a sign
that starts it. -/
def body : Expr → List Str
  | num lit => [lit]
  | group e => ['('] :: ((if startsSigned e then [['0']] else []) ++ body e ++ [[')']])
  | unary s x => [s] :: body x
  | bin l op r => body l ++ [op] :: body r

/-- The token sequence of a tree, with the `"0"` injected in front of every
unary sign. -/
def toks (e : Expr) : List Str := (if startsSigned e then [['0']] else []) ++ body e

/-- The relation `Wrap s e e2`: the tree `e2` is the tree `e` with one occurrence
of its sub-expression `s` (any node, the root included) put in parentheses. -/
inductive Wrap (s : Expr) : Expr → Expr → Prop where
  | here : Wrap s s (group s)
  | inGroup {e e2 : Expr} : Wrap s e e2 → Wrap s (group e) (group e2)
  | inUnary {sg : Char} {x x2 : Expr} : Wrap s x x2 → Wrap s (unary sg x) (unary sg x2)
  | inLeft {l l2 : Expr} {op : Char} {r : Expr} :
    Wrap s l l2 → Wrap s (bin l op r) (bin l2 op r)
  | inRight {l : Expr} {op : Char} {r r2 : Expr} :
    Wrap s r r2 → Wrap s (bin l op r) (bin l op r2)

end Expr

/-- A character of a number: a decimal digit or the period. -/
def NumChar (c : Char) : Prop := isdigit c = true ∨ c = '.'

/-- A character `tokenize` emits as a token of its own: an operator or a
parenthesis. -/
def OpParen (c : Char) : Prop := isOperator [c] = true ∨ c = '(' ∨ c = ')'

/-- What follows a complete operand in an expression string: the end of the
string, an operator or a parenthesis. -/
def Delim (rest : Str) : Prop := rest = [] ∨ ∃ c rest2, rest = c :: rest2 ∧ OpParen c

/-- An operator token on the operator stack: one of the six operators as a
one-character string. -/
def isOpToken (t : Str) : Bool :=
  match t with
  | [c] => isOperator [c]
  | _ => false

/-- The reductions a delimiter of rank `q` triggers: while the top of the
operator stack is an operator of rank `q` or more, reduce. -/
def flush (N : Numeric) (q : Nat) : List Str → List Str → Except Failure Stacks
  | [], nums => pure ⟨[], nums⟩
  | top :: ops, nums =>
    if isOpToken top ∧ q ≤ precOf top then do
      let nums2 ← operateWith N top nums
      flush N q ops nums2
    else pure ⟨top :: ops, nums⟩

/-- Every entry of an operator stack is an operator or an opening parenthesis. -/
def OpsOK (ops : List Str) : Prop := ∀ t ∈ ops, isOpToken t = true ∨ t = ['(']

/-- The top of the operator stack is not an operator of rank `p` or more. -/
def Below (p : Nat) (ops : List Str) : Prop :=
  ∀ t rest, ops = t :: rest → ¬ (isOpToken t = true ∧ p ≤ precOf t)

/-- Operators pending on top of the operator stack, all of rank `p` or more. -/
def Pending (p : Nat) (pend : List Str) : Prop :=
  ∀ t ∈ pend, isOpToken t = true ∧ p ≤ precOf t

/-- A token as the tokenizer emits them: a non-empty run of digits and
periods, or a single operator or parenthesis. -/
def TokOK (t : Str) : Prop := (t ≠ [] ∧ ∀ c ∈ t, NumChar c) ∨ ∃ c, t = [c] ∧ OpParen c

/-- An entry of the operand stack: a number token of the input (a non-empty
run of digits and periods, which the tokenizer does not validate) or a string
rendered by `to_string`. -/
def NumVal (N : Numeric) (v : Str) : Prop :=
  (v ≠ [] ∧ ∀ c ∈ v, NumChar c) ∨ ∃ x : N.Flt, v = N.to_string x

/-- The stacks of `calculate` after the first `k` tokens of the input have
been consumed by the token loop (all of them when `k` is the number of
tokens or more). -/
def stacksAfter (N : Numeric) (exp : Str) (k : Nat) : Except Failure Stacks := do
  let tokens ← tokenize exp
  tokenLoop N (tokens.take k) ⟨[], []⟩

/-- The precedence order of an operator stack (top first): of two neighbouring
entries that are not separated by an opening parenthesis, the upper one ranks
strictly higher; that is, between two opening parentheses the ranks increase
strictly from bottom to top. -/
def Ranked : List Str → Prop
  | [] => True
  | [_] => True
  | t :: u :: rest => (t = ['('] ∨ u = ['('] ∨ precOf u < precOf t) ∧ Ranked (u :: rest)

/-- The entries of an operator stack above its nearest opening parenthesis:
the operators pending on the current parenthesis level. -/
def pendingLevel (ops : List Str) : List Str := ops.takeWhile (fun t => decide (t ≠ ['(']))

/-- The parentheses among a sequence of tokens, in order. -/
def tokParens (tokens : List Str) : List Char :=
  tokens.filterMap fun t =>
    if t = ['('] then some '(' else if t = [')'] then some ')' else none

/-- The parentheses among the characters of a string, in order. -/
def parens (s : Str) : List Char := s.filter fun c => decide (c = '(' ∨ c = ')')

/-- The opening parentheses that lie on an operator stack, as the checker
stack of the prescan holds them. -/
def opens (ops : List Str) : List Char := List.replicate (ops.count ['(']) '('

/-- A number token: a token that is not a single operator or parenthesis. -/
def isNumberLexeme (t : Str) : Bool :=
  match t with
  | [c] => !(isOperator [c] || c == '(' || c == ')')
  | _ => true

/-- An expression string with every space character removed. -/
def stripSpaces (e : Str) : Str := e.filter fun c => decide (c ≠ ' ')

/-- No opening parenthesis of the string is immediately followed by a space. -/
def noOpenSpace : Str → Bool
  | [] => true
  | c :: rest => !(c == '(' && at0 rest == ' ') && noOpenSpace rest

/-- A run of digits and periods with at least two periods, such as `1.2.3`. -/
def isMultiPoint (r : Str) : Bool :=
  r.all (fun c => isdigit c || c == '.') && decide (2 ≤ r.count '.')

/-- The number a string of decimal digits denotes. -/
def digitsValue (ds : Str) : Nat := ds.foldl (fun acc c => acc * 10 + (c.toNat - 48)) 0

/-- The value of an unsigned decimal string (digits, optionally a period and
more digits) as a numerator and its number of fractional digits. -/
def unsignedDecimal (s : Str) : Option (Nat × Nat) :=
  match s.dropWhile isdigit with
  | [] => if (s.takeWhile isdigit).isEmpty then none else some (digitsValue s, 0)
  | c :: fp =>
    if !(s.takeWhile isdigit).isEmpty && c == '.' && !fp.isEmpty && fp.all isdigit then
      some (digitsValue (s.takeWhile isdigit ++ fp), fp.length)
    else none

/-- The value of a decimal string with an optional sign, as a numerator and
its number of fractional digits. -/
def decimalValue (s : Str) : Option (Int × Nat) :=
  match s with
  | '-' :: t => (unsignedDecimal t).map fun p => (-(p.1 : Int), p.2)
  | '+' :: t => (unsignedDecimal t).map fun p => ((p.1 : Int), p.2)
  | t => (unsignedDecimal t).map fun p => ((p.1 : Int), p.2)

/-- Numeric equality of two decimal strings: both denote a number, and the
same one. -/
def numEq (s t : Str) : Bool :=
  match decimalValue s, decimalValue t with
  | some (a, j), some (b, k) => decide (a * 10 ^ k = b * 10 ^ j)
  | _, _ => false

/-- A numeric layer whose `std::stof` raises on every string: under it, any
call of `applyOperator` ends in that exception, so an outcome that is the same
under this layer shows that `applyOperator` is not called. -/
def refusing : Numeric where
  Flt := Unit
  stof := fun _ => .error .invalid_argument
  add := fun _ _ => ()
  sub := fun _ _ => ()
  mul := fun _ _ => ()
  div := fun _ _ => ()
  pow := fun _ _ => ()
  fmod := fun _ _ => ()
  isZero := fun _ => false
  to_string := fun _ => []

/-! ## Theorems -/

@[simp] theorem ok_bind {α β : Type} (a : α) (f : α → Except Failure β) :
    (Except.ok a >>= f) = f a := rfl

@[simp] theorem error_bind {α β : Type} (e : Failure) (f : α → Except Failure β) :
    ((Except.error e : Except Failure α) >>= f) = Except.error e := rfl

@[simp] theorem pure_eq_ok {α : Type} (a : α) : (pure a : Except Failure α) = Except.ok a := rfl

@[simp] theorem throw_eq_error {α : Type} (e : Failure) :
    (throw e : Except Failure α) = Except.error e := rfl

open Expr

theorem stofE_error (N : Numeric) (s : Str) (e : Failure) (h : stofE N s = .error e) :
    e = .invalid_argument ∨ e = .out_of_range := by
  unfold stofE at h
  cases hs : N.stof s with
  | ok v => rw [hs] at h; cases h
  | error x =>
    rw [hs] at h
    cases x <;> simp [StofError.toFailure] at h <;> simp [← h]

theorem applyOperator_error (N : Numeric) (a b op : Str) (e : Failure)
    (h : applyOperator N a b op = .error e) :
    e = .thrown 3 ∨ e = .thrown 52 ∨ e = .invalid_argument ∨ e = .out_of_range := by
  unfold applyOperator at h
  cases ha : stofE N a with
  | error x =>
    rw [ha] at h
    simp at h
    rcases stofE_error N a x ha with h1 | h1 <;> simp [← h, h1]
  | ok va =>
    cases hb : stofE N b with
    | error x =>
      rw [ha, hb] at h
      simp at h
      rcases stofE_error N b x hb with h1 | h1 <;> simp [← h, h1]
    | ok vb =>
      rw [ha, hb] at h
      simp at h
      split_ifs at h <;> simp_all

theorem operateWith_error (N : Numeric) (op : Str) (nums : List Str) (e : Failure)
    (h : operateWith N op nums = .error e) : EvalFailure e := by
  unfold operateWith at h
  match nums, h with
  | [], h => simp at h; simp [EvalFailure, ← h]
  | [_], h => simp at h; simp [EvalFailure, ← h]
  | b :: a :: rest, h =>
    simp at h
    cases hr : applyOperator N a b op with
    | ok v => rw [hr] at h; simp at h
    | error x =>
      rw [hr] at h
      simp at h
      subst h
      rcases applyOperator_error N a b op x hr with h1 | h1 | h1 | h1 <;> simp [EvalFailure, h1]

theorem closeLoop_error (N : Numeric) (ops nums : List Str) (e : Failure)
    (h : closeLoop N ops nums = .error e) : EvalFailure e := by
  induction ops generalizing nums with
  | nil => simp [closeLoop] at h
  | cons top ops ih =>
    unfold closeLoop at h
    split_ifs at h with h1
    · cases hr : operateWith N top nums with
      | ok v => rw [hr] at h; exact ih v h
      | error x =>
        rw [hr] at h
        simp at h
        subst h
        exact operateWith_error N top nums x hr
    · simp at h

theorem getPrecedence_error (op : Str) (e : Failure) (h : getPrecedence op = .error e) :
    e = .thrown 53 := by
  unfold getPrecedence at h
  simp only at h
  split_ifs at h <;> simp_all

theorem hasPrecedence_error (a b : Str) (e : Failure) (h : hasPrecedence a b = .error e) :
    e = .thrown 53 := by
  unfold hasPrecedence at h
  cases h1 : getPrecedence a with
  | error x => rw [h1] at h; simp at h; subst h; exact getPrecedence_error a x h1
  | ok p =>
    cases h2 : getPrecedence b with
    | error x => rw [h1, h2] at h; simp at h; subst h; exact getPrecedence_error b x h2
    | ok q => rw [h1, h2] at h; simp at h

theorem precLoop_error (N : Numeric) (token : Str) (ops nums : List Str) (e : Failure)
    (h : precLoop N token ops nums = .error e) : EvalFailure e := by
  induction ops generalizing nums with
  | nil => simp [precLoop] at h
  | cons top ops ih =>
    unfold precLoop at h
    cases hp : hasPrecedence top token with
    | error x =>
      rw [hp] at h
      simp at h
      subst h
      simp [EvalFailure, hasPrecedence_error top token x hp]
    | ok b =>
      rw [hp] at h
      simp at h
      cases b with
      | false => simp at h
      | true =>
        simp at h
        cases hr : operateWith N top nums with
        | ok v => rw [hr] at h; exact ih v h
        | error x =>
          rw [hr] at h
          simp at h
          subst h
          exact operateWith_error N top nums x hr

theorem drainLoop_error (N : Numeric) (ops nums : List Str) (e : Failure)
    (h : drainLoop N ops nums = .error e) : EvalFailure e := by
  induction ops generalizing nums with
  | nil => simp [drainLoop] at h
  | cons top ops ih =>
    unfold drainLoop at h
    cases hr : operateWith N top nums with
    | ok v => rw [hr] at h; exact ih v h
    | error x =>
      rw [hr] at h
      simp at h
      subst h
      exact operateWith_error N top nums x hr

theorem stepToken_error (N : Numeric) (token : Str) (s : Stacks) (e : Failure)
    (h : stepToken N token s = .error e) : EvalFailure e := by
  unfold stepToken at h
  split_ifs at h with h1 h2 h3
  · simp at h
  · simp at h
  · cases hr : closeLoop N s.opStack s.numStack with
    | error x => rw [hr] at h; simp at h; subst h; exact closeLoop_error N _ _ x hr
    | ok s2 =>
      rw [hr] at h
      simp at h
      split at h
      · simp at h; simp [EvalFailure, ← h]
      · simp at h
  · cases hr : precLoop N token s.opStack s.numStack with
    | error x => rw [hr] at h; simp at h; subst h; exact precLoop_error N _ _ _ x hr
    | ok s2 => rw [hr] at h; simp at h

theorem tokenLoop_error (N : Numeric) (tokens : List Str) (s : Stacks) (e : Failure)
    (h : tokenLoop N tokens s = .error e) : EvalFailure e := by
  induction tokens generalizing s with
  | nil => simp [tokenLoop] at h
  | cons t ts ih =>
    unfold tokenLoop at h
    cases hr : stepToken N t s with
    | error x => rw [hr] at h; simp at h; subst h; exact stepToken_error N t s x hr
    | ok s2 => rw [hr] at h; exact ih s2 h

theorem scan_error (i : Nat) (number exp : Str) (e : Failure)
    (h : scan i number exp = .error e) : e = .thrown 51 := by
  induction exp generalizing i number with
  | nil => simp [scan] at h
  | cons c rest ih =>
    unfold scan at h
    split_ifs at h with h1 h2 h3
    · cases hr : scan (i + 1) [] rest with
      | error x => rw [hr] at h; simp at h; subst h; exact ih _ _ hr
      | ok v => rw [hr] at h; simp at h
    · exact ih _ _ h
    · simp at h; exact h.symm
    · exact ih _ _ h

theorem checkLoop_error (checker exp : List Char) (e : Failure)
    (h : checkLoop checker exp = .error e) : e = .thrown 6 := by
  induction exp generalizing checker with
  | nil => unfold checkLoop at h; split_ifs at h <;> simp_all
  | cons c rest ih =>
    unfold checkLoop at h
    split_ifs at h with h1 h2
    · exact ih _ h
    · split at h
      · simp at h; exact h.symm
      · exact ih _ h
    · exact ih _ h

theorem depth_nil : depth [] = 0 := by simp [depth]

theorem depth_cons (c : Char) (s : List Char) :
    depth (c :: s) = (if c = '(' then 1 else if c = ')' then -1 else 0) + depth s := by
  unfold depth
  by_cases h1 : c = '('
  · subst h1; simp [List.count_cons]; ring
  · by_cases h2 : c = ')'
    · subst h2; simp [List.count_cons]; ring
    · have h1' : ¬ ('(' = c) := fun h => h1 h.symm
      have h2' : ¬ (')' = c) := fun h => h2 h.symm
      simp [List.count_cons, h1, h2, h1', h2']

theorem failsFrom_nil (d : Int) (hd : 0 ≤ d) : failsFrom d [] ↔ d ≠ 0 := by
  unfold failsFrom
  simp [depth_nil]
  intro h; omega

theorem failsFrom_cons (d : Int) (hd : 0 ≤ d) (c : Char) (s : List Char) :
    failsFrom d (c :: s) ↔
      d + (if c = '(' then 1 else if c = ')' then -1 else 0) < 0 ∨
      failsFrom (d + (if c = '(' then 1 else if c = ')' then -1 else 0)) s := by
  unfold failsFrom
  constructor
  · rintro (⟨k, hk, hlt⟩ | hne)
    · cases k with
      | zero => simp [depth_nil] at hlt; omega
      | succ k =>
        simp only [List.take_succ_cons, depth_cons] at hlt
        right; left
        refine ⟨k, by simpa using hk, by omega⟩
    · right; right
      rw [depth_cons] at hne
      omega
  · rintro (h | ⟨k, hk, hlt⟩ | hne)
    · left
      refine ⟨1, by simp, ?_⟩
      simp only [List.take_succ_cons, List.take_zero, depth_cons, depth_nil]
      omega
    · left
      refine ⟨k + 1, by simpa using hk, ?_⟩
      simp only [List.take_succ_cons, depth_cons]
      omega
    · right
      rw [depth_cons]
      omega

theorem checkLoop_iff (checker exp : List Char) :
    checkLoop checker exp = .error (.thrown 6) ↔ failsFrom (checker.length : Int) exp := by
  induction exp generalizing checker with
  | nil =>
    rw [failsFrom_nil _ (by omega)]
    unfold checkLoop
    cases checker with
    | nil => simp
    | cons x xs => simp; omega
  | cons c rest ih =>
    rw [failsFrom_cons _ (by omega)]
    unfold checkLoop
    by_cases h1 : c = '('
    · simp only [h1, if_true]
      rw [ih]
      simp only [List.length_cons, Nat.cast_add, Nat.cast_one]
      constructor
      · intro h; right; exact h
      · rintro (h | h)
        · omega
        · exact h
    · by_cases h2 : c = ')'
      · subst h2
        have hne : ¬ (')' = '(') := by decide
        simp only [hne, if_true, if_false]
        cases checker with
        | nil => simp
        | cons x popped =>
          simp only []
          rw [ih]
          simp only [List.length_cons, Nat.cast_add, Nat.cast_one]
          have : ((popped.length : Int) + 1 + -1) = popped.length := by omega
          rw [this]
          constructor
          · intro h; right; exact h
          · rintro (h | h)
            · omega
            · exact h
      · simp only [h1, h2, if_false]
        rw [ih]
        simp

theorem unbalanced_iff (exp : Str) : unbalanced exp = true ↔ failsFrom 0 exp := by
  unfold unbalanced failsFrom
  simp [List.any_eq_true, Nat.lt_succ_iff]

theorem checkParenthesis_iff (exp : Str) :
    checkParenthesis exp = .error (.thrown 6) ↔ unbalanced exp = true := by
  rw [unbalanced_iff]
  unfold checkParenthesis
  simpa using checkLoop_iff [] exp

theorem tokenize_of_check_error (exp : Str) (e : Failure)
    (h : checkParenthesis exp = .error e) : tokenize exp = .error e := by
  unfold tokenize
  rw [h]
  rfl

theorem tokenize_of_check_ok (exp : Str) (h : checkParenthesis exp = .ok ()) :
    tokenize exp = scan 0 [] exp := by
  unfold tokenize
  rw [h]
  rfl

theorem checkParenthesis_cases (exp : Str) :
    checkParenthesis exp = .ok () ∨ checkParenthesis exp = .error (.thrown 6) := by
  cases h : checkParenthesis exp with
  | ok u => left; rfl
  | error e =>
    right
    unfold checkParenthesis at h
    rw [checkLoop_error [] exp e h]

theorem tokenize_error (exp : Str) (e : Failure) (h : tokenize exp = .error e) :
    (e = .thrown 6 ∧ checkParenthesis exp = .error (.thrown 6)) ∨
      (e = .thrown 51 ∧ checkParenthesis exp = .ok ()) := by
  rcases checkParenthesis_cases exp with hc | hc
  · right
    rw [tokenize_of_check_ok exp hc] at h
    exact ⟨scan_error 0 [] exp e h, hc⟩
  · left
    rw [tokenize_of_check_error exp _ hc] at h
    cases h
    exact ⟨rfl, hc⟩

theorem finalStacks_error (N : Numeric) (exp : Str) (e : Failure)
    (h : finalStacks N exp = .error e) :
    (e = .thrown 6 ∧ checkParenthesis exp = .error (.thrown 6)) ∨
      (e = .thrown 51 ∧ checkParenthesis exp = .ok ()) ∨ EvalFailure e := by
  unfold finalStacks at h
  cases ht : tokenize exp with
  | error x =>
    rw [ht] at h
    simp at h
    subst h
    rcases tokenize_error exp x ht with h1 | h1
    · left; exact h1
    · right; left; exact h1
  | ok tokens =>
    rw [ht] at h
    simp at h
    right; right
    cases hl : tokenLoop N tokens ⟨[], []⟩ with
    | error x => rw [hl] at h; simp at h; subst h; exact tokenLoop_error N _ _ x hl
    | ok s => rw [hl] at h; simp at h; exact drainLoop_error N _ _ e h

theorem calculate_error (N : Numeric) (exp : Str) (e : Failure)
    (h : calculate N exp = .error e) :
    (e = .thrown 6 ∧ checkParenthesis exp = .error (.thrown 6)) ∨
      (e = .thrown 51 ∧ checkParenthesis exp = .ok ()) ∨ EvalFailure e ∨ e = .empty_top := by
  unfold calculate at h
  cases hf : finalStacks N exp with
  | error x =>
    rw [hf] at h
    simp at h
    subst h
    rcases finalStacks_error N exp x hf with h1 | h1 | h1
    · left; exact h1
    · right; left; exact h1
    · right; right; left; exact h1
  | ok s =>
    rw [hf] at h
    simp at h
    split at h
    · simp at h; right; right; right; exact h.symm
    · simp at h

theorem calculate_of_check_error (N : Numeric) (exp : Str) (e : Failure)
    (h : checkParenthesis exp = .error e) : calculate N exp = .error e := by
  unfold calculate finalStacks
  rw [tokenize_of_check_error exp e h]
  rfl

/-- C2: `calculate` fails with thrown code 6 exactly when the depth counter of
the specification goes negative somewhere or ends nonzero; the prescan
`checkParenthesis` is what raises it, and `tokenize` then produces no token,
whatever else is wrong with the string. -/
theorem calculate_unbalanced_iff (N : Numeric) (exp : Str) :
    (calculate N exp = .error (.thrown 6) ↔ unbalanced exp = true) ∧
    (checkParenthesis exp = .error (.thrown 6) ↔ unbalanced exp = true) ∧
    (unbalanced exp = true → tokenize exp = .error (.thrown 6)) := by
  refine ⟨?_, checkParenthesis_iff exp, ?_⟩
  · rw [← checkParenthesis_iff]
    constructor
    · intro h
      rcases calculate_error N exp _ h with h1 | h1 | h1 | h1
      · exact h1.2
      · exact absurd h1.1 (by decide)
      · unfold EvalFailure at h1
        rcases h1 with h1 | h1 | h1 | h1 | h1 | h1 | h1 | h1 <;> exact absurd h1 (by decide)
      · exact absurd h1 (by decide)
    · intro h
      exact calculate_of_check_error N exp _ h
  · intro h
    exact tokenize_of_check_error exp _ ((checkParenthesis_iff exp).mpr h)

theorem isOperator_iff (c : Char) :
    isOperator [c] = true ↔ c = '+' ∨ c = '-' ∨ c = '*' ∨ c = '/' ∨ c = '^' ∨ c = '%' := by
  simp [isOperator, at0, or_assoc]

theorem numChar_not_opParen (c : Char) (h : NumChar c) : ¬ OpParen c := by
  unfold NumChar at h
  unfold OpParen
  rw [isOperator_iff]
  rintro ((h1 | h1 | h1 | h1 | h1 | h1) | h1 | h1) <;> subst h1 <;> revert h <;> decide

theorem scan_numChar (i : Nat) (number : Str) (c : Char) (rest : Str) (h : NumChar c) :
    scan i number (c :: rest) = scan (i + 1) (number ++ [c]) rest := by
  have h2 := numChar_not_opParen c h
  unfold OpParen at h2
  unfold NumChar at h
  rw [scan]
  simp only [h2, if_false, h, if_true]

theorem scan_space (i : Nat) (number : Str) (rest : Str) :
    scan i number (' ' :: rest) = scan (i + 1) number rest := by
  rw [scan]
  simp [isOperator, at0, isdigit]

theorem scan_opParen (i : Nat) (number : Str) (c : Char) (rest : Str) (h : OpParen c) :
    scan i number (c :: rest) =
      (scan (i + 1) [] rest >>= fun more => pure (emitted i number c (at0 rest) ++ more)) := by
  unfold OpParen at h
  rw [scan]
  simp only [h, if_true]

theorem scan_digits (i : Nat) (number lit rest : Str) (h : ∀ c ∈ lit, NumChar c) :
    scan i number (lit ++ rest) = scan (i + lit.length) (number ++ lit) rest := by
  induction lit generalizing i number with
  | nil => simp
  | cons c cs ih =>
    rw [List.cons_append, scan_numChar i number c _ (h c (by simp))]
    rw [ih _ _ (fun d hd => h d (by simp [hd]))]
    simp [Nat.add_assoc, Nat.add_comm 1]

theorem scan_spaces (i : Nat) (number rest : Str) (n : Nat) :
    scan i number (List.replicate n ' ' ++ rest) = scan (i + n) number rest := by
  induction n generalizing i with
  | zero => simp
  | succ n ih =>
    rw [List.replicate_succ, List.cons_append, scan_space, ih]
    simp [Nat.add_assoc, Nat.add_comm 1]


theorem scan_pending (j : Nat) (number rest : Str) (hj : j ≠ 0) (hn : number ≠ [])
    (hd : Delim rest) :
    scan j number rest = (scan j [] rest >>= fun more => pure (number :: more)) := by
  rcases hd with hd | ⟨c, rest2, hd, hc⟩
  · subst hd
    simp [scan, hn]
  · subst hd
    rw [scan_opParen j number c rest2 hc, scan_opParen j [] c rest2 hc]
    cases scan (j + 1) [] rest2 with
    | error e => rfl
    | ok more =>
      simp [emitted, hj, hn]

theorem isLiteral_spec (s : Str) (h : isLiteral s = true) :
    s ≠ [] ∧ isdigit (at0 s) = true ∧ ∀ c ∈ s, NumChar c := by
  unfold isLiteral at h
  have hsplit := List.takeWhile_append_dropWhile isdigit s
  have htw : ∀ c ∈ s.takeWhile isdigit, isdigit c = true := fun c hc => List.mem_takeWhile_imp hc
  have hhead : s.takeWhile isdigit ≠ [] → s ≠ [] ∧ isdigit (at0 s) = true := by
    intro hne
    cases s with
    | nil => simp at hne
    | cons a t =>
      refine ⟨by simp, ?_⟩
      by_cases ha : isdigit a = true
      · simpa [at0] using ha
      · simp [List.takeWhile_cons, ha] at hne
  split at h
  next heq =>
    simp at h
    have hne : s.takeWhile isdigit ≠ [] := by simpa using h
    refine ⟨(hhead hne).1, (hhead hne).2, ?_⟩
    intro c hc
    rw [← hsplit, heq] at hc
    simp at hc
    left; exact htw c hc
  next c fp heq =>
    simp at h
    obtain ⟨⟨⟨h1, h2⟩, h3⟩, h4⟩ := h
    have hne : s.takeWhile isdigit ≠ [] := by simpa using h1
    refine ⟨(hhead hne).1, (hhead hne).2, ?_⟩
    intro d hd
    rw [← hsplit, heq] at hd
    simp at hd
    rcases hd with hd | hd | hd
    · left; exact htw d hd
    · right; rw [hd, h2]
    · left; exact h4 d hd

theorem isNumberToken_literal (s : Str) (h : isLiteral s = true) : isNumberToken s = true := by
  have := (isLiteral_spec s h).2.1
  simp [isNumberToken, this]

theorem emitted_pos (j : Nat) (hj : j ≠ 0) (number : Str) (c next : Char) :
    emitted j number c next = emitted 1 number c next := by
  simp [emitted, hj]

theorem scan_pos (j : Nat) (hj : j ≠ 0) (number s : Str) :
    scan j number s = scan 1 number s := by
  induction s generalizing j number with
  | nil => simp [scan]
  | cons c rest ih =>
    rw [scan, scan.eq_2 1]
    rw [ih (j + 1) (by omega), ih (1 + 1) (by omega), emitted_pos j hj]
    rw [ih (j + 1) (by omega), ih (1 + 1) (by omega)]
    rw [ih (j + 1) (by omega), ih (1 + 1) (by omega)]

theorem scan_digits_pos (i : Nat) (number lit rest : Str) (h : ∀ c ∈ lit, NumChar c)
    (hne : lit ≠ []) : scan i number (lit ++ rest) = scan 1 (number ++ lit) rest := by
  rw [scan_digits i number lit rest h]
  apply scan_pos
  have : 0 < lit.length := List.length_pos.mpr hne
  omega

theorem scan_opParen_pos (i : Nat) (number : Str) (c : Char) (rest : Str) (h : OpParen c) :
    scan i number (c :: rest) =
      (scan 1 [] rest >>= fun more => pure (emitted i number c (at0 rest) ++ more)) := by
  rw [scan_opParen i number c rest h, scan_pos (i + 1) (by omega)]

theorem wf_mono (e : Expr) (h : wf false e = true) : wf true e = true := by
  induction e with
  | num lit => simpa [wf] using h
  | group e _ => simpa [wf] using h
  | unary s x _ => simp [wf] at h
  | bin l op r ihl _ =>
    simp only [wf, Bool.and_eq_true] at h ⊢
    exact ⟨⟨⟨⟨h.1.1.1.1, ihl h.1.1.1.2⟩, h.1.1.2⟩, h.1.2⟩, h.2⟩

theorem startsSigned_of_wf_false (e : Expr) (h : wf false e = true) : startsSigned e = false := by
  induction e with
  | num lit => rfl
  | group e _ => rfl
  | unary s x _ => simp [wf] at h
  | bin l op r ihl _ =>
    simp only [wf, Bool.and_eq_true] at h
    simpa [startsSigned] using ihl h.1.1.1.2

theorem toks_of_wf_false (e : Expr) (h : wf false e = true) : toks e = body e := by
  simp [toks, startsSigned_of_wf_false e h]

theorem render_head (e : Expr) (lead : Bool) (h : wf lead e = true) :
    ∃ c t, render e = c :: t ∧ ((c = '+' ∨ c = '-') ↔ startsSigned e = true) := by
  induction e generalizing lead with
  | num lit =>
    simp only [wf] at h
    obtain ⟨hne, hd, _⟩ := isLiteral_spec lit h
    cases lit with
    | nil => exact absurd rfl hne
    | cons c t =>
      refine ⟨c, t, rfl, ?_⟩
      simp only [at0, List.headD_cons] at hd
      simp only [startsSigned]
      constructor
      · rintro (h1 | h1) <;> subst h1 <;> revert hd <;> decide
      · intro h1; cases h1
  | group e _ =>
    refine ⟨'(', render e ++ [')'], rfl, ?_⟩
    simp [startsSigned]
  | unary s x _ =>
    refine ⟨s, render x, rfl, ?_⟩
    simp only [wf, Bool.and_eq_true, Bool.or_eq_true, beq_iff_eq] at h
    simp [startsSigned, h.1.1.2]
  | bin l op r ihl _ =>
    simp only [wf, Bool.and_eq_true] at h
    obtain ⟨c, t, hr, hc⟩ := ihl lead h.1.1.1.2
    refine ⟨c, t ++ op :: render r, ?_, ?_⟩
    · simp [render, hr]
    · simpa [startsSigned] using hc

theorem delim_cons (c : Char) (rest : Str) (h : OpParen c) : Delim (c :: rest) :=
  Or.inr ⟨c, rest, rfl, h⟩

theorem opParen_of_isOperator (c : Char) (h : isOperator [c] = true) : OpParen c := Or.inl h

theorem opParen_open : OpParen '(' := Or.inr (Or.inl rfl)

theorem opParen_close : OpParen ')' := Or.inr (Or.inr rfl)

theorem isOperator_not_paren (c : Char) (h : isOperator [c] = true) : c ≠ '(' ∧ c ≠ ')' := by
  rw [isOperator_iff] at h
  rcases h with h | h | h | h | h | h <;> subst h <;> decide

/-- The tokenizer on the string of a well-formed tree, followed by a delimiter:
the tokens of the tree, then the tokens of what follows. -/
theorem scan_render (e : Expr) : ∀ (lead : Bool) (i : Nat) (rest : Str),
    wf lead e = true → Delim rest →
    scan i [] (render e ++ rest) =
      (scan 1 [] rest >>= fun more => pure ((if i = 0 then toks e else body e) ++ more)) := by
  induction e with
  | num lit =>
    intro lead i rest h hd
    simp only [wf] at h
    obtain ⟨hne, _, hall⟩ := isLiteral_spec lit h
    simp only [render]
    rw [scan_digits_pos i [] lit rest hall hne, List.nil_append,
      scan_pending 1 lit rest (by decide) hne hd]
    simp [toks, startsSigned, body]
  | group e ih =>
    intro lead i rest h hd
    simp only [wf] at h
    obtain ⟨c, t, hr, hc⟩ := render_head e true h
    have h1 : render (group e) ++ rest = '(' :: (render e ++ ')' :: rest) := by
      simp [render]
    rw [h1, scan_opParen_pos i [] '(' _ opParen_open,
      ih true 1 (')' :: rest) h (delim_cons _ _ opParen_close),
      scan_opParen_pos 1 [] ')' rest opParen_close]
    have h2 : at0 (render e ++ ')' :: rest) = c := by simp [hr, at0]
    rw [h2]
    cases scan 1 [] rest with
    | error x => rfl
    | ok more =>
      by_cases hs : startsSigned e = true
      · have hc2 : c = '+' ∨ c = '-' := hc.mpr hs
        simp [emitted, toks, startsSigned, body, hs, hc2]
      · have hc2 : ¬ (c = '+' ∨ c = '-') := fun hh => hs (hc.mp hh)
        simp [emitted, toks, startsSigned, body, hs, hc2]
  | unary s x ih =>
    intro lead i rest h hd
    simp only [wf, Bool.and_eq_true, Bool.or_eq_true, beq_iff_eq, decide_eq_true_eq] at h
    obtain ⟨⟨⟨_, hs⟩, hx⟩, _⟩ := h
    have hop : OpParen s := by
      left; rw [isOperator_iff]; rcases hs with hs | hs <;> simp [hs]
    have hne : s ≠ '(' := by rcases hs with hs | hs <;> subst hs <;> decide
    have h1 : render (unary s x) ++ rest = s :: (render x ++ rest) := by simp [render]
    rw [h1, scan_opParen_pos i [] s _ hop, ih false 1 rest hx hd]
    cases scan 1 [] rest with
    | error x => rfl
    | ok more =>
      by_cases hi : i = 0
      · simp [emitted, toks, startsSigned, body, hi, hs, hne]
      · simp [emitted, toks, startsSigned, body, hi, hs, hne]
  | bin l op r ihl ihr =>
    intro lead i rest h hd
    simp only [wf, Bool.and_eq_true, decide_eq_true_eq] at h
    obtain ⟨⟨⟨⟨hop, hl⟩, _⟩, hr⟩, _⟩ := h
    have hne := (isOperator_not_paren op hop).1
    have h1 : render (bin l op r) ++ rest = render l ++ op :: (render r ++ rest) := by
      simp [render]
    rw [h1, ihl lead i _ hl (delim_cons _ _ (opParen_of_isOperator op hop)),
      scan_opParen_pos 1 [] op _ (opParen_of_isOperator op hop), ihr false 1 rest hr hd]
    cases scan 1 [] rest with
    | error x => rfl
    | ok more =>
      by_cases hi : i = 0
      · simp [emitted, toks, startsSigned, body, hi, hne]
      · simp [emitted, toks, startsSigned, body, hi, hne]

theorem delim_nil : Delim [] := Or.inl rfl

theorem scan_render_all (e : Expr) (h : wf true e = true) :
    scan 0 [] (render e) = .ok (toks e) := by
  have := scan_render e true 0 [] h delim_nil
  simpa [scan] using this

theorem checkLoop_other (checker : List Char) (c : Char) (rest : List Char)
    (h1 : c ≠ '(') (h2 : c ≠ ')') : checkLoop checker (c :: rest) = checkLoop checker rest := by
  simp [checkLoop, h1, h2]

theorem checkLoop_open (checker rest : List Char) :
    checkLoop checker ('(' :: rest) = checkLoop ('(' :: checker) rest := by
  simp [checkLoop]

theorem checkLoop_close (x : Char) (checker rest : List Char) :
    checkLoop (x :: checker) (')' :: rest) = checkLoop checker rest := by
  simp [checkLoop]

theorem numChar_not_paren (c : Char) (h : NumChar c) : c ≠ '(' ∧ c ≠ ')' := by
  have := numChar_not_opParen c h
  unfold OpParen at this
  push_neg at this
  exact this.2

theorem checkLoop_digits (checker lit rest : List Char) (h : ∀ c ∈ lit, NumChar c) :
    checkLoop checker (lit ++ rest) = checkLoop checker rest := by
  induction lit with
  | nil => rfl
  | cons c cs ih =>
    have hc := numChar_not_paren c (h c (by simp))
    rw [List.cons_append, checkLoop_other checker c _ hc.1 hc.2]
    exact ih (fun d hd => h d (by simp [hd]))

/-- The prescan passes over the string of a well-formed tree without changing
the checker. -/
theorem checkLoop_render (e : Expr) : ∀ (lead : Bool) (checker rest : List Char),
    wf lead e = true → checkLoop checker (render e ++ rest) = checkLoop checker rest := by
  induction e with
  | num lit =>
    intro lead checker rest h
    simp only [wf] at h
    exact checkLoop_digits checker lit rest (isLiteral_spec lit h).2.2
  | group e ih =>
    intro lead checker rest h
    simp only [wf] at h
    have h1 : render (group e) ++ rest = '(' :: (render e ++ ')' :: rest) := by
      simp [render]
    rw [h1, checkLoop_open, ih true _ _ h, checkLoop_close]
  | unary s x ih =>
    intro lead checker rest h
    simp only [wf, Bool.and_eq_true, Bool.or_eq_true, beq_iff_eq, decide_eq_true_eq] at h
    obtain ⟨⟨⟨_, hs⟩, hx⟩, _⟩ := h
    have hne : s ≠ '(' ∧ s ≠ ')' := by rcases hs with hs | hs <;> subst hs <;> decide
    have h1 : render (unary s x) ++ rest = s :: (render x ++ rest) := by simp [render]
    rw [h1, checkLoop_other checker s _ hne.1 hne.2]
    exact ih false _ _ hx
  | bin l op r ihl ihr =>
    intro lead checker rest h
    simp only [wf, Bool.and_eq_true, decide_eq_true_eq] at h
    obtain ⟨⟨⟨⟨hop, hl⟩, _⟩, hr⟩, _⟩ := h
    have hne := isOperator_not_paren op hop
    have h1 : render (bin l op r) ++ rest = render l ++ op :: (render r ++ rest) := by
      simp [render]
    rw [h1, ihl lead _ _ hl, checkLoop_other checker op _ hne.1 hne.2]
    exact ihr false _ _ hr

theorem checkParenthesis_render (e : Expr) (lead : Bool) (h : wf lead e = true) :
    checkParenthesis (render e) = .ok () := by
  have := checkLoop_render e lead [] [] h
  simpa [checkParenthesis, checkLoop] using this

/-- The tokenizer turns the string of a well-formed tree into its tokens. -/
theorem tokenize_render (e : Expr) (h : wf true e = true) :
    tokenize (render e) = .ok (toks e) := by
  rw [tokenize_of_check_ok _ (checkParenthesis_render e true h)]
  exact scan_render_all e h

theorem getPrecedence_op (c : Char) (h : isOperator [c] = true) :
    getPrecedence [c] = .ok (precOf [c]) ∧ 1 ≤ precOf [c] ∧ precOf [c] ≤ 3 := by
  rw [isOperator_iff] at h
  rcases h with h | h | h | h | h | h <;> subst h <;> decide

theorem getPrecedence_open : getPrecedence ['('] = .ok 0 := by decide

theorem precOf_open : precOf ['('] = 0 := by decide

theorem isOpToken_iff (t : Str) : isOpToken t = true ↔ ∃ c, t = [c] ∧ isOperator [c] = true := by
  constructor
  · intro h
    match t, h with
    | [c], h => exact ⟨c, rfl, by simpa [isOpToken] using h⟩
  · rintro ⟨c, rfl, h⟩
    simpa [isOpToken] using h

theorem isOpToken_open : isOpToken ['('] = false := by decide

theorem isNumberToken_op (c : Char) (h : isOperator [c] = true) : isNumberToken [c] = false := by
  rw [isOperator_iff] at h
  rcases h with h | h | h | h | h | h <;> subst h <;> decide

theorem hasPrecedence_op (t : Str) (c : Char) (ht : isOpToken t = true ∨ t = ['('])
    (hc : isOperator [c] = true) :
    hasPrecedence t [c] = .ok (decide (isOpToken t = true ∧ precOf [c] ≤ precOf t)) := by
  have h2 := getPrecedence_op c hc
  rcases ht with ht | ht
  · obtain ⟨d, rfl, hd⟩ := (isOpToken_iff t).mp ht
    have h1 := getPrecedence_op d hd
    unfold hasPrecedence
    rw [h1.1, h2.1]
    simp [ht]
  · subst ht
    unfold hasPrecedence
    rw [getPrecedence_open, h2.1]
    have : ¬ (precOf [c] ≤ 0) := by omega
    simp [isOpToken_open, precOf_open, this]

theorem opsOK_cons (t : Str) (ops : List Str) (h : OpsOK (t :: ops)) :
    (isOpToken t = true ∨ t = ['(']) ∧ OpsOK ops :=
  ⟨h t (by simp), fun u hu => h u (by simp [hu])⟩

theorem precLoop_eq_flush (N : Numeric) (c : Char) (hc : isOperator [c] = true)
    (ops : List Str) : ∀ nums, OpsOK ops →
    precLoop N [c] ops nums = flush N (precOf [c]) ops nums := by
  induction ops with
  | nil => intro nums _; rfl
  | cons t ops ih =>
    intro nums hok
    obtain ⟨ht, hok2⟩ := opsOK_cons t ops hok
    rw [precLoop, flush, hasPrecedence_op t c ht hc]
    by_cases hcond : isOpToken t = true ∧ precOf [c] ≤ precOf t
    · simp only [hcond, and_self, decide_True, ok_bind, if_true]
      cases operateWith N t nums with
      | error x => rfl
      | ok v => exact ih v hok2
    · simp only [hcond, decide_False, ok_bind, if_false]
      rfl

theorem closeLoop_eq_flush (N : Numeric) (ops : List Str) : ∀ nums, OpsOK ops →
    closeLoop N ops nums = flush N 1 ops nums := by
  induction ops with
  | nil => intro nums _; rfl
  | cons t ops ih =>
    intro nums hok
    obtain ⟨ht, hok2⟩ := opsOK_cons t ops hok
    rw [closeLoop, flush]
    rcases ht with ht | ht
    · obtain ⟨d, rfl, hd⟩ := (isOpToken_iff t).mp ht
      have h1 := getPrecedence_op d hd
      have hne : [d] ≠ ['('] := by
        have := (isOperator_not_paren d hd).1
        simpa using this
      simp only [ne_eq, hne, not_false_eq_true, if_true, ht, h1.2.1, and_self]
      cases operateWith N [d] nums with
      | error x => rfl
      | ok v => exact ih v hok2
    · subst ht
      simp [isOpToken_open]

theorem drainLoop_eq_flush (N : Numeric) (ops : List Str) : ∀ nums, Pending 1 ops →
    drainLoop N ops nums = flush N 1 ops nums := by
  induction ops with
  | nil => intro nums _; rfl
  | cons t ops ih =>
    intro nums hp
    have ht := hp t (by simp)
    rw [drainLoop, flush]
    simp only [ht, and_self, if_true]
    cases operateWith N t nums with
    | error x => rfl
    | ok v => exact ih v (fun u hu => hp u (by simp [hu]))

theorem flush_below (N : Numeric) (q : Nat) (ops nums : List Str) (h : Below q ops) :
    flush N q ops nums = .ok ⟨ops, nums⟩ := by
  cases ops with
  | nil => rfl
  | cons t rest =>
    rw [flush]
    simp [h t rest rfl]

theorem flush_op (N : Numeric) (q : Nat) (t : Str) (ops nums : List Str)
    (h1 : isOpToken t = true) (h2 : q ≤ precOf t) :
    flush N q (t :: ops) nums = (operateWith N t nums >>= fun v => flush N q ops v) := by
  rw [flush]
  simp [h1, h2]

theorem flush_pending_shape (N : Numeric) (q : Nat) (pend rest : List Str)
    (hp : Pending q pend) (hb : Below q rest) : ∀ nums s,
    flush N q (pend ++ rest) nums = .ok s → s.opStack = rest := by
  induction pend with
  | nil =>
    intro nums s h
    rw [List.nil_append, flush_below N q rest nums hb] at h
    cases h
    rfl
  | cons t pend ih =>
    intro nums s h
    have ht := hp t (by simp)
    rw [List.cons_append, flush_op N q t _ nums ht.1 ht.2] at h
    cases ho : operateWith N t nums with
    | error x => rw [ho] at h; cases h
    | ok v =>
      rw [ho] at h
      exact ih (fun u hu => hp u (by simp [hu])) v s h

theorem below_mono (p q : Nat) (ops : List Str) (hpq : p ≤ q) (h : Below p ops) : Below q ops := by
  intro t rest ht hc
  exact h t rest ht ⟨hc.1, le_trans hpq hc.2⟩

theorem below_open (p : Nat) (ops : List Str) : Below p (['('] :: ops) := by
  intro t rest ht hc
  cases ht
  simp [isOpToken_open] at hc

theorem below_op (p : Nat) (c : Char) (ops : List Str) (h : precOf [c] < p) :
    Below p ([c] :: ops) := by
  intro t rest ht hc
  cases ht
  omega

theorem tokenLoop_append (N : Numeric) (ts us : List Str) : ∀ s,
    tokenLoop N (ts ++ us) s = (tokenLoop N ts s >>= fun s1 => tokenLoop N us s1) := by
  induction ts with
  | nil => intro s; rfl
  | cons t ts ih =>
    intro s
    rw [List.cons_append, tokenLoop, tokenLoop]
    cases stepToken N t s with
    | error x => rfl
    | ok s1 => exact ih s1

theorem tokenLoop_cons (N : Numeric) (t : Str) (ts : List Str) (s : Stacks) :
    tokenLoop N (t :: ts) s = (stepToken N t s >>= fun s1 => tokenLoop N ts s1) := by
  rw [tokenLoop]

theorem stepToken_number (N : Numeric) (t : Str) (s : Stacks) (h : isNumberToken t = true) :
    stepToken N t s = .ok ⟨s.opStack, t :: s.numStack⟩ := by
  simp [stepToken, h]

theorem stepToken_open (N : Numeric) (s : Stacks) :
    stepToken N ['('] s = .ok ⟨['('] :: s.opStack, s.numStack⟩ := by
  simp [stepToken, isNumberToken, at0, isdigit]

theorem stepToken_close (N : Numeric) (s : Stacks) :
    stepToken N [')'] s = (closeLoop N s.opStack s.numStack >>= fun s2 =>
      match s2.opStack with
      | [] => .error (.thrown 1)
      | _ :: ops => .ok ⟨ops, s2.numStack⟩) := by
  simp [stepToken, isNumberToken, at0, isdigit]

theorem stepToken_op (N : Numeric) (c : Char) (hc : isOperator [c] = true) (s : Stacks) :
    stepToken N [c] s = (precLoop N [c] s.opStack s.numStack >>= fun s2 =>
      .ok ⟨[c] :: s2.opStack, s2.numStack⟩) := by
  have h1 := isNumberToken_op c hc
  have h2 := isOperator_not_paren c hc
  simp [stepToken, h1, h2]

theorem toks_group (e : Expr) : toks (group e) = ['('] :: (toks e ++ [[')']]) := by
  simp [toks, startsSigned, body]

theorem toks_unary (s : Char) (x : Expr) : toks (unary s x) = ['0'] :: [s] :: body x := by
  simp [toks, startsSigned, body]

theorem toks_bin (l : Expr) (op : Char) (r : Expr) :
    toks (bin l op r) = toks l ++ [op] :: body r := by
  simp [toks, startsSigned, body]

theorem level_pos (e : Expr) (lead : Bool) (h : wf lead e = true) : 1 ≤ level e := by
  cases e with
  | num lit => simp [level]
  | group e => simp [level]
  | unary s x => simp [level]
  | bin l op r =>
    simp only [wf, Bool.and_eq_true] at h
    exact (getPrecedence_op op h.1.1.1.1).2.1

theorem bind_eq_ok {α β : Type} (m : Except Failure α) (f : α → Except Failure β) (b : β)
    (h : (m >>= f) = .ok b) : ∃ a, m = .ok a ∧ f a = .ok b := by
  cases m with
  | error x => cases h
  | ok a => exact ⟨a, rfl, h⟩

theorem opsOK_append (pend ops : List Str) (p : Nat) (hp : Pending p pend) (ho : OpsOK ops) :
    OpsOK (pend ++ ops) := by
  intro t ht
  rcases List.mem_append.mp ht with h | h
  · exact Or.inl (hp t h).1
  · exact ho t h

theorem opsOK_open (ops : List Str) (ho : OpsOK ops) : OpsOK (['('] :: ops) := by
  intro t ht
  rcases List.mem_cons.mp ht with h | h
  · exact Or.inr h
  · exact ho t h

theorem opsOK_op (c : Char) (hc : isOperator [c] = true) (ops : List Str) (ho : OpsOK ops) :
    OpsOK ([c] :: ops) := by
  intro t ht
  rcases List.mem_cons.mp ht with h | h
  · left; rw [h]; simpa [isOpToken] using hc
  · exact ho t h

theorem pending_mono (p q : Nat) (pend : List Str) (hqp : q ≤ p) (h : Pending p pend) :
    Pending q pend := fun t ht => ⟨(h t ht).1, le_trans hqp (h t ht).2⟩

theorem isNumberToken_zero : isNumberToken ['0'] = true := by decide

theorem isOperator_sign (s : Char) (h : s = '+' ∨ s = '-') :
    isOperator [s] = true ∧ precOf [s] = 1 := by
  rcases h with h | h <;> subst h <;> decide

/-- The operator stack after the tokens of a well-formed tree: the stack of
before, with the pending operators of the tree on top. -/
theorem tokenLoop_shape (N : Numeric) (e : Expr) : ∀ (lead : Bool) (ops nums : List Str)
    (s : Stacks), wf lead e = true → OpsOK ops → Below (level e) ops →
    tokenLoop N (toks e) ⟨ops, nums⟩ = .ok s →
    ∃ pend, s.opStack = pend ++ ops ∧ Pending (level e) pend := by
  induction e with
  | num lit =>
    intro lead ops nums s h _ _ hrun
    simp only [wf] at h
    have : toks (num lit) = [lit] := by simp [toks, startsSigned, body]
    rw [this, tokenLoop_cons, stepToken_number N lit _ (isNumberToken_literal lit h)] at hrun
    simp only [ok_bind, tokenLoop, pure_eq_ok, Except.ok.injEq] at hrun
    subst hrun
    exact ⟨[], rfl, fun t ht => by simp at ht⟩
  | group e ih =>
    intro lead ops nums s h hok _ hrun
    simp only [wf] at h
    rw [toks_group, tokenLoop_cons, stepToken_open, ok_bind, tokenLoop_append] at hrun
    obtain ⟨s1, h1, h2⟩ := bind_eq_ok _ _ _ hrun
    obtain ⟨pend, hs1, hp⟩ := ih true (['('] :: ops) nums s1 h (opsOK_open ops hok)
      (below_open _ _) h1
    rw [tokenLoop_cons, stepToken_close] at h2
    obtain ⟨s2, h3, h4⟩ := bind_eq_ok _ _ _ h2
    obtain ⟨s3, h5, h6⟩ := bind_eq_ok _ _ _ h3
    have hok1 : OpsOK s1.opStack := by
      rw [hs1]; exact opsOK_append _ _ _ hp (opsOK_open ops hok)
    rw [closeLoop_eq_flush N _ _ hok1, hs1] at h5
    have hshape := flush_pending_shape N 1 pend (['('] :: ops)
      (pending_mono _ _ _ (level_pos e true h) hp) (below_open _ _) _ _ h5
    rw [hshape] at h6
    simp only [Except.ok.injEq] at h6
    subst h6
    simp only [tokenLoop, pure_eq_ok, Except.ok.injEq] at h4
    subst h4
    exact ⟨[], rfl, fun t ht => by simp at ht⟩
  | unary sg x ih =>
    intro lead ops nums s h hok hb hrun
    simp only [wf, Bool.and_eq_true, Bool.or_eq_true, beq_iff_eq, decide_eq_true_eq] at h
    obtain ⟨⟨⟨_, hs⟩, hx⟩, hlev⟩ := h
    obtain ⟨hop, hprec⟩ := isOperator_sign sg hs
    rw [toks_unary, tokenLoop_cons, stepToken_number N _ _ isNumberToken_zero, ok_bind,
      tokenLoop_cons, stepToken_op N sg hop] at hrun
    simp only [level, ← hprec] at hb
    simp only [precLoop_eq_flush N sg hop ops _ hok, flush_below N _ ops _ hb, ok_bind] at hrun
    rw [← toks_of_wf_false x hx] at hrun
    obtain ⟨pend, hs1, hp⟩ := ih false ([sg] :: ops) _ s hx (opsOK_op sg hop ops hok)
      (below_op _ sg ops (by omega)) hrun
    refine ⟨pend ++ [[sg]], by simp [hs1], ?_⟩
    intro t ht
    rcases List.mem_append.mp ht with h1 | h1
    · exact ⟨(hp t h1).1, by simp only [level]; have := (hp t h1).2; omega⟩
    · simp only [List.mem_singleton] at h1
      subst h1
      exact ⟨by simpa [isOpToken] using hop, by simp [level, hprec]⟩
  | bin l op r ihl ihr =>
    intro lead ops nums s h hok hb hrun
    simp only [wf, Bool.and_eq_true, decide_eq_true_eq] at h
    obtain ⟨⟨⟨⟨hop, hl⟩, hll⟩, hr⟩, hlr⟩ := h
    simp only [level] at hb
    rw [toks_bin, tokenLoop_append] at hrun
    obtain ⟨s1, h1, h2⟩ := bind_eq_ok _ _ _ hrun
    obtain ⟨pend1, hs1, hp1⟩ := ihl lead ops nums s1 hl hok (below_mono _ _ _ hll hb) h1
    rw [tokenLoop_cons, stepToken_op N op hop] at h2
    obtain ⟨s2, h3, h4⟩ := bind_eq_ok _ _ _ h2
    obtain ⟨s3, h5, h6⟩ := bind_eq_ok _ _ _ h3
    have hok1 : OpsOK s1.opStack := by
      rw [hs1]; exact opsOK_append _ _ _ hp1 hok
    rw [precLoop_eq_flush N op hop _ _ hok1, hs1] at h5
    have hshape := flush_pending_shape N _ pend1 ops (pending_mono _ _ _ hll hp1) hb _ _ h5
    simp only [Except.ok.injEq] at h6
    subst h6
    rw [hshape, ← toks_of_wf_false r hr] at h4
    obtain ⟨pend2, hs2, hp2⟩ := ihr false ([op] :: ops) _ s hr (opsOK_op op hop ops hok)
      (below_op _ op ops hlr) h4
    refine ⟨pend2 ++ [[op]], by simp [hs2], ?_⟩
    intro t ht
    rcases List.mem_append.mp ht with h7 | h7
    · exact ⟨(hp2 t h7).1, by simp only [level]; have := (hp2 t h7).2; omega⟩
    · simp only [List.mem_singleton] at h7
      subst h7
      exact ⟨by simpa [isOpToken] using hop, by simp [level]⟩

theorem operateWith_two (N : Numeric) (op b a : Str) (nums : List Str) :
    operateWith N op (b :: a :: nums) =
      (applyOperator N a b op >>= fun res => .ok (res :: nums)) := rfl

/-- What is known after the tokens of a sub-expression, in the form the
induction uses: the run either failed as the reference evaluation fails, or
it stands with operators pending whose reduction behaves as the reference
evaluation says. -/
theorem run_cases (N : Numeric) (q : Nat) (ops nums : List Str)
    (m : Except Failure Stacks) (ev : Except Failure Str)
    (hb : Below q ops)
    (h : (m >>= fun s => flush N q s.opStack s.numStack) =
      (ev >>= fun v => flush N q ops (v :: nums))) :
    (∃ x, ev = .error x ∧
      (m = .error x ∨ ∃ s1, m = .ok s1 ∧ flush N q s1.opStack s1.numStack = .error x)) ∨
    (∃ v s1, ev = .ok v ∧ m = .ok s1 ∧
      flush N q s1.opStack s1.numStack = .ok ⟨ops, v :: nums⟩) := by
  cases ev with
  | error x =>
    left
    refine ⟨x, rfl, ?_⟩
    cases m with
    | error y => left; simpa using h
    | ok s1 => right; exact ⟨s1, rfl, by simpa using h⟩
  | ok v =>
    right
    simp only [ok_bind, flush_below N q ops _ hb] at h
    cases m with
    | error y => cases h
    | ok s1 => exact ⟨v, s1, rfl, rfl, by simpa using h⟩

/-- The shunting-yard loop on the tokens of a well-formed tree, followed by
the reductions of a delimiter of rank `q` at most the level of the tree,
computes the reference evaluation of the tree and leaves its value on the
operand stack. -/
theorem tokenLoop_eval (N : Numeric) (e : Expr) : ∀ (lead : Bool) (q : Nat)
    (ops nums : List Str), wf lead e = true → q ≤ level e → OpsOK ops → Below (level e) ops →
    (tokenLoop N (toks e) ⟨ops, nums⟩ >>= fun s => flush N q s.opStack s.numStack) =
      (eval N e >>= fun v => flush N q ops (v :: nums)) := by
  induction e with
  | num lit =>
    intro lead q ops nums h _ _ _
    simp only [wf] at h
    have : toks (num lit) = [lit] := by simp [toks, startsSigned, body]
    rw [this, tokenLoop_cons, stepToken_number N lit _ (isNumberToken_literal lit h)]
    simp [tokenLoop, eval]
  | group e ih =>
    intro lead q ops nums h _ hok _
    simp only [wf] at h
    have hih := ih true 1 (['('] :: ops) nums h (level_pos e true h) (opsOK_open ops hok)
      (below_open _ _)
    rw [toks_group, tokenLoop_cons, stepToken_open, ok_bind, tokenLoop_append]
    simp only [eval]
    rcases run_cases N 1 _ _ _ _ (below_open _ _) hih with
      ⟨x, hev, hm | ⟨s1, hm, hfl⟩⟩ | ⟨v, s1, hev, hm, hfl⟩
    · rw [hev, hm]; rfl
    · obtain ⟨pend, hs1, hp⟩ := tokenLoop_shape N e true (['('] :: ops) nums s1 h
        (opsOK_open ops hok) (below_open _ _) hm
      have hok1 : OpsOK s1.opStack := by
        rw [hs1]; exact opsOK_append _ _ _ hp (opsOK_open ops hok)
      rw [hev, hm, ok_bind, tokenLoop_cons, stepToken_close, closeLoop_eq_flush N _ _ hok1, hfl]
      rfl
    · obtain ⟨pend, hs1, hp⟩ := tokenLoop_shape N e true (['('] :: ops) nums s1 h
        (opsOK_open ops hok) (below_open _ _) hm
      have hok1 : OpsOK s1.opStack := by
        rw [hs1]; exact opsOK_append _ _ _ hp (opsOK_open ops hok)
      rw [hev, hm, ok_bind, tokenLoop_cons, stepToken_close, closeLoop_eq_flush N _ _ hok1, hfl]
      simp [tokenLoop]
  | unary sg x ih =>
    intro lead q ops nums h hq hok hb
    simp only [wf, Bool.and_eq_true, Bool.or_eq_true, beq_iff_eq, decide_eq_true_eq] at h
    obtain ⟨⟨⟨_, hs⟩, hx⟩, hlev⟩ := h
    obtain ⟨hop, hprec⟩ := isOperator_sign sg hs
    simp only [level] at hq hb
    have hb1 : Below (precOf [sg]) ops := by rw [hprec]; exact hb
    have hih := ih false q ([sg] :: ops) (['0'] :: nums) hx (by omega)
      (opsOK_op sg hop ops hok) (below_op _ sg ops (by omega))
    rw [toks_unary, tokenLoop_cons, stepToken_number N _ _ isNumberToken_zero, ok_bind,
      tokenLoop_cons, stepToken_op N sg hop]
    simp only [precLoop_eq_flush N sg hop ops _ hok, flush_below N _ ops _ hb1, ok_bind]
    rw [← toks_of_wf_false x hx, hih]
    simp only [eval]
    cases eval N x with
    | error y => rfl
    | ok v =>
      simp only [ok_bind]
      rw [flush_op N q [sg] ops _ (by simpa [isOpToken] using hop) (by omega), operateWith_two]
      cases applyOperator N ['0'] v [sg] with
      | error y => rfl
      | ok w => rfl
  | bin l op r ihl ihr =>
    intro lead q ops nums h hq hok hb
    simp only [wf, Bool.and_eq_true, decide_eq_true_eq] at h
    obtain ⟨⟨⟨⟨hop, hl⟩, hll⟩, hr⟩, hlr⟩ := h
    simp only [level] at hq hb
    have hihl := ihl lead (precOf [op]) ops nums hl hll hok (below_mono _ _ _ hll hb)
    rw [toks_bin, tokenLoop_append]
    simp only [eval]
    have key : ∀ a, (tokenLoop N (toks r) ⟨[op] :: ops, a :: nums⟩ >>=
        fun s => flush N q s.opStack s.numStack) =
        (eval N r >>= fun b => applyOperator N a b [op] >>= fun v => flush N q ops (v :: nums)) := by
      intro a
      rw [ihr false q ([op] :: ops) (a :: nums) hr (by omega) (opsOK_op op hop ops hok)
        (below_op _ op ops hlr)]
      cases eval N r with
      | error y => rfl
      | ok b =>
        simp only [ok_bind]
        rw [flush_op N q [op] ops _ (by simpa [isOpToken] using hop) hq, operateWith_two]
        cases applyOperator N a b [op] with
        | error y => rfl
        | ok w => rfl
    rcases run_cases N _ _ _ _ _ hb hihl with
      ⟨x, hev, hm | ⟨s1, hm, hfl⟩⟩ | ⟨v, s1, hev, hm, hfl⟩
    · rw [hev, hm]; rfl
    · obtain ⟨pend, hs1, hp⟩ := tokenLoop_shape N l lead ops nums s1 hl hok
        (below_mono _ _ _ hll hb) hm
      have hok1 : OpsOK s1.opStack := by
        rw [hs1]; exact opsOK_append _ _ _ hp hok
      rw [hev, hm, ok_bind, tokenLoop_cons, stepToken_op N op hop,
        precLoop_eq_flush N op hop _ _ hok1, hfl]
      rfl
    · obtain ⟨pend, hs1, hp⟩ := tokenLoop_shape N l lead ops nums s1 hl hok
        (below_mono _ _ _ hll hb) hm
      have hok1 : OpsOK s1.opStack := by
        rw [hs1]; exact opsOK_append _ _ _ hp hok
      rw [hev, hm, ok_bind, tokenLoop_cons, stepToken_op N op hop,
        precLoop_eq_flush N op hop _ _ hok1, hfl]
      simp only [ok_bind]
      rw [← toks_of_wf_false r hr, key v]
      cases eval N r with
      | error y => rfl
      | ok b => rfl

theorem below_nil (p : Nat) : Below p [] := by
  intro t rest h
  cases h

theorem opsOK_nil : OpsOK [] := by
  intro t ht
  cases ht

/-- The token loop and the final drain on the tokens of a well-formed tree,
started on an empty operator stack: the value of the tree is pushed on the
operand stack, or the run fails as the reference evaluation fails. -/
theorem drain_toks (N : Numeric) (e : Expr) (lead : Bool) (nums : List Str)
    (h : wf lead e = true) :
    (tokenLoop N (toks e) ⟨[], nums⟩ >>= fun s => drainLoop N s.opStack s.numStack) =
      (eval N e >>= fun v => .ok ⟨[], v :: nums⟩) := by
  have heq := tokenLoop_eval N e lead 1 [] nums h (level_pos e lead h) opsOK_nil (below_nil _)
  rcases run_cases N 1 _ _ _ _ (below_nil _) heq with
    ⟨x, hev, hm | ⟨s1, hm, hfl⟩⟩ | ⟨v, s1, hev, hm, hfl⟩
  · rw [hev, hm]; rfl
  · obtain ⟨pend, hs1, hp⟩ := tokenLoop_shape N e lead [] nums s1 h opsOK_nil (below_nil _) hm
    have hp1 : Pending 1 s1.opStack := by
      rw [hs1, List.append_nil]; exact pending_mono _ _ _ (level_pos e lead h) hp
    rw [hev, hm, ok_bind, drainLoop_eq_flush N _ _ hp1, hfl]
    rfl
  · obtain ⟨pend, hs1, hp⟩ := tokenLoop_shape N e lead [] nums s1 h opsOK_nil (below_nil _) hm
    have hp1 : Pending 1 s1.opStack := by
      rw [hs1, List.append_nil]; exact pending_mono _ _ _ (level_pos e lead h) hp
    rw [hev, hm, ok_bind, drainLoop_eq_flush N _ _ hp1, hfl]
    rfl

/-- A string that tokenizes to the tokens of a well-formed tree evaluates as
the tree does, and leaves exactly its value on the operand stack. -/
theorem calculate_of_tokens (N : Numeric) (exp : Str) (e : Expr)
    (ht : tokenize exp = .ok (toks e)) (h : wf true e = true) :
    finalStacks N exp = (eval N e >>= fun v => pure ⟨[], [v]⟩) ∧
      calculate N exp = eval N e := by
  have hf : finalStacks N exp = (eval N e >>= fun v => pure ⟨[], [v]⟩) := by
    unfold finalStacks
    rw [ht]
    exact drain_toks N e true [] h
  refine ⟨hf, ?_⟩
  unfold calculate
  rw [hf]
  cases eval N e with
  | error x => rfl
  | ok v => rfl

/-- On the string of a well-formed tree `calculate` returns the reference
evaluation of the tree (shared form, for use in other proofs). -/
theorem calculate_tree (N : Numeric) (e : Expr) (h : wf true e = true) :
    finalStacks N (render e) = (eval N e >>= fun v => pure ⟨[], [v]⟩) ∧
      calculate N (render e) = eval N e :=
  calculate_of_tokens N (render e) e (tokenize_render e h) h

/-- C1: on the string of a well-formed expression tree (precedence `^` over
`* / %` over `+ -`, left associative, unary sign at the start or directly
after an opening parenthesis), `calculate` returns exactly the reference
evaluation of the tree, failing exactly as that evaluation fails, and on
success the operand stack holds the result and nothing else. -/
theorem calculate_render (N : Numeric) (e : Expr) (h : wf true e = true) :
    finalStacks N (render e) = (eval N e >>= fun v => pure ⟨[], [v]⟩) ∧
      calculate N (render e) = eval N e :=
  calculate_of_tokens N (render e) e (tokenize_render e h) h

theorem precOf_le_three (t : Str) : precOf t ≤ 3 := by
  unfold precOf getPrecedence
  simp only
  split_ifs <;> simp

theorem level_le_four (e : Expr) : level e ≤ 4 := by
  cases e with
  | num lit => simp [level]
  | group e => simp [level]
  | unary s x => simp [level]
  | bin l op r =>
    have := precOf_le_three [op]
    simp only [level]
    omega

theorem wrap_level (s e e2 : Expr) (hw : Wrap s e e2) : level e ≤ level e2 := by
  cases hw with
  | here => exact level_le_four _
  | inGroup _ => simp [level]
  | inUnary _ => simp [level]
  | inLeft _ => simp [level]
  | inRight _ => simp [level]

theorem wf_true_of (e : Expr) (lead : Bool) (h : wf lead e = true) : wf true e = true := by
  cases lead with
  | true => exact h
  | false => exact wf_mono e h

theorem wrap_wf (s e e2 : Expr) (hw : Wrap s e e2) :
    ∀ lead, wf lead e = true → wf lead e2 = true := by
  induction hw with
  | here =>
    intro lead h
    simp only [wf]
    exact wf_true_of _ lead h
  | inGroup _ ih =>
    intro lead h
    simp only [wf] at h ⊢
    exact ih true h
  | @inUnary sg x x2 hx ih =>
    intro lead h
    simp only [wf, Bool.and_eq_true, decide_eq_true_eq] at h ⊢
    have := wrap_level s x x2 hx
    exact ⟨⟨h.1.1, ih false h.1.2⟩, by omega⟩
  | @inLeft l l2 op r hl ih =>
    intro lead h
    simp only [wf, Bool.and_eq_true, decide_eq_true_eq] at h ⊢
    have := wrap_level s l l2 hl
    exact ⟨⟨⟨⟨h.1.1.1.1, ih lead h.1.1.1.2⟩, by omega⟩, h.1.2⟩, h.2⟩
  | @inRight l op r r2 hr ih =>
    intro lead h
    simp only [wf, Bool.and_eq_true, decide_eq_true_eq] at h ⊢
    have := wrap_level s r r2 hr
    exact ⟨⟨⟨⟨h.1.1.1.1, h.1.1.1.2⟩, h.1.1.2⟩, ih false h.1.2⟩, by omega⟩

theorem wrap_eval (N : Numeric) (s e e2 : Expr) (hw : Wrap s e e2) : eval N e2 = eval N e := by
  induction hw with
  | here => simp [eval]
  | inGroup _ ih => simpa [eval] using ih
  | inUnary _ ih => simp [eval, ih]
  | inLeft _ ih => simp [eval, ih]
  | inRight _ ih => simp [eval, ih]

theorem wrap_render (s e e2 : Expr) (hw : Wrap s e e2) :
    ∃ pre post, render e = pre ++ render s ++ post ∧
      render e2 = pre ++ '(' :: (render s ++ ')' :: post) := by
  induction hw with
  | here => exact ⟨[], [], by simp, by simp [render]⟩
  | inGroup _ ih =>
    obtain ⟨pre, post, h1, h2⟩ := ih
    exact ⟨'(' :: pre, post ++ [')'], by simp [render, h1], by simp [render, h2]⟩
  | @inUnary sg x x2 _ ih =>
    obtain ⟨pre, post, h1, h2⟩ := ih
    exact ⟨sg :: pre, post, by simp [render, h1], by simp [render, h2]⟩
  | @inLeft l l2 op r _ ih =>
    obtain ⟨pre, post, h1, h2⟩ := ih
    exact ⟨pre, post ++ op :: render r, by simp [render, h1], by simp [render, h2]⟩
  | @inRight l op r r2 _ ih =>
    obtain ⟨pre, post, h1, h2⟩ := ih
    exact ⟨render l ++ op :: pre, post, by simp [render, h1], by simp [render, h2]⟩

/-- C8: putting a complete sub-expression `s` of a well-formed expression `e`
in parentheses (a number literal, a group, a binary application of the parse
tree, or `e` itself) changes neither the outcome of `calculate` nor the final
stacks; on strings, the step replaces one occurrence of `s` by `"(" s ")"`. -/
theorem calculate_wrap (N : Numeric) (s e e2 : Expr) (h : wf true e = true)
    (hw : Wrap s e e2) :
    calculate N (render e2) = calculate N (render e) ∧
      finalStacks N (render e2) = finalStacks N (render e) ∧
      ∃ pre post, render e = pre ++ render s ++ post ∧
        render e2 = pre ++ '(' :: (render s ++ ')' :: post) := by
  have h2 := wrap_wf s e e2 hw true h
  have c1 := calculate_of_tokens N (render e) e (tokenize_render e h) h
  have c2 := calculate_of_tokens N (render e2) e2 (tokenize_render e2 h2) h2
  refine ⟨?_, ?_, wrap_render s e e2 hw⟩
  · rw [c1.2, c2.2, wrap_eval N s e e2 hw]
  · rw [c1.1, c2.1, wrap_eval N s e e2 hw]

theorem checkLoop_literal (checker a rest : List Char) (ha : isLiteral a = true) :
    checkLoop checker (a ++ rest) = checkLoop checker rest :=
  checkLoop_digits checker a rest (isLiteral_spec a ha).2.2

theorem scan_literal (i : Nat) (number a rest : Str) (ha : isLiteral a = true) :
    scan i number (a ++ rest) = scan 1 (number ++ a) rest :=
  scan_digits_pos i number a rest (isLiteral_spec a ha).2.2 (isLiteral_spec a ha).1

theorem tokenize_juxtaposed (a : Str) (e : Expr) (ha : isLiteral a = true)
    (he : wf true e = true) :
    tokenize (a ++ '(' :: (render e ++ [')'])) = .ok (a :: toks (group e)) := by
  have hg : wf true (group e) = true := by simpa [wf] using he
  have hr : '(' :: (render e ++ [')']) = render (group e) := rfl
  rw [hr]
  have hc : checkParenthesis (a ++ render (group e)) = .ok () := by
    unfold checkParenthesis
    rw [checkLoop_literal [] a _ ha]
    exact checkParenthesis_render (group e) true hg
  have hd : Delim (render (group e)) := delim_cons '(' (render e ++ [')']) opParen_open
  rw [tokenize_of_check_ok _ hc, scan_literal 0 [] a _ ha, List.nil_append,
    scan_pending 1 a _ (by decide) (isLiteral_spec a ha).1 hd]
  have := scan_render (group e) true 1 [] hg delim_nil
  rw [List.append_nil] at this
  rw [this]
  simp [scan, toks, startsSigned]

/-- C10, as the code has it: on a number literal `a` directly followed by a
parenthesised well-formed expression `(e)`, `calculate` reports no error.  It
returns the value of `e` (or fails as the evaluation of `e` fails), and the
literal `a` is left on the operand stack under the result; `calculate`
returns the top of the operand stack whatever lies below it. -/
theorem calculate_juxtaposed (N : Numeric) (a : Str) (e : Expr) (ha : isLiteral a = true)
    (he : wf true e = true) :
    finalStacks N (a ++ '(' :: (render e ++ [')'])) = (eval N e >>= fun v => pure ⟨[], [v, a]⟩) ∧
      calculate N (a ++ '(' :: (render e ++ [')'])) = eval N e := by
  have hg : wf true (group e) = true := by simpa [wf] using he
  have hf : finalStacks N (a ++ '(' :: (render e ++ [')'])) =
      (eval N e >>= fun v => pure ⟨[], [v, a]⟩) := by
    unfold finalStacks
    rw [tokenize_juxtaposed a e ha he, ok_bind, tokenLoop_cons,
      stepToken_number N a _ (isNumberToken_literal a ha), ok_bind]
    exact drain_toks N (group e) true [a] hg
  refine ⟨hf, ?_⟩
  unfold calculate
  rw [hf]
  cases eval N e with
  | error x => rfl
  | ok v => rfl

theorem checkLoop_space (checker rest : List Char) :
    checkLoop checker (' ' :: rest) = checkLoop checker rest :=
  checkLoop_other checker ' ' rest (by decide) (by decide)

theorem checkLoop_op (checker : List Char) (op : Char) (rest : List Char)
    (h : isOperator [op] = true) : checkLoop checker (op :: rest) = checkLoop checker rest :=
  checkLoop_other checker op rest (isOperator_not_paren op h).1 (isOperator_not_paren op h).2

theorem checkLoop_end : checkLoop [] [] = .ok () := rfl

theorem scan_space_one (i : Nat) (number rest : Str) :
    scan i number (' ' :: rest) = scan 1 number rest := by
  rw [scan_space, scan_pos (i + 1) (by omega)]

theorem scan_op_one (j : Nat) (hj : j ≠ 0) (number : Str) (op : Char) (rest : Str)
    (h : isOperator [op] = true) :
    scan j number (op :: rest) =
      (scan 1 [] rest >>= fun more =>
        pure ((if number ≠ [] then [number] else []) ++ [op] :: more)) := by
  rw [scan_opParen_pos j number op rest (opParen_of_isOperator op h)]
  have hne := (isOperator_not_paren op h).1
  cases scan 1 [] rest with
  | error x => rfl
  | ok more => simp [emitted, hj, hne]

theorem scan_open_one (i : Nat) (number rest : Str) :
    scan i number ('(' :: rest) =
      (scan 1 [] rest >>= fun more =>
        pure ((if number ≠ [] then [number] else []) ++ ['('] ::
          ((if at0 rest = '+' ∨ at0 rest = '-' then [['0']] else []) ++ more))) := by
  rw [scan_opParen_pos i number '(' rest opParen_open]
  cases scan 1 [] rest with
  | error x => rfl
  | ok more => simp [emitted]

theorem scan_close_one (i : Nat) (number rest : Str) :
    scan i number (')' :: rest) =
      (scan 1 [] rest >>= fun more =>
        pure ((if number ≠ [] then [number] else []) ++ [')'] :: more)) := by
  rw [scan_opParen_pos i number ')' rest opParen_close]
  cases scan 1 [] rest with
  | error x => rfl
  | ok more => simp [emitted]

theorem scan_end (i : Nat) (number : Str) :
    scan i number [] = .ok (if number ≠ [] then [number] else []) := by
  simp [scan]

theorem at0_literal (a rest : Str) (ha : isLiteral a = true) :
    ¬ (at0 (a ++ rest) = '+' ∨ at0 (a ++ rest) = '-') := by
  obtain ⟨hne, hd, _⟩ := isLiteral_spec a ha
  cases a with
  | nil => exact absurd rfl hne
  | cons c t =>
    simp only [at0, List.cons_append, List.headD_cons] at hd ⊢
    rintro (h | h) <;> rw [h] at hd <;> revert hd <;> decide

/-- The tokens of `a op b` written with single spaces, then of what follows. -/
theorem scan_binary (i : Nat) (a b : Str) (op : Char) (rest : Str) (ha : isLiteral a = true)
    (hop : isOperator [op] = true) :
    scan i [] (a ++ ' ' :: op :: ' ' :: (b ++ rest)) =
      (scan 1 [] (b ++ rest) >>= fun more => pure (a :: [op] :: more)) := by
  rw [scan_literal i [] a _ ha, List.nil_append, scan_space_one,
    scan_op_one 1 (by decide) a op _ hop, scan_space_one]
  have hne := (isLiteral_spec a ha).1
  cases scan 1 [] (b ++ rest) with
  | error x => rfl
  | ok more => simp [hne]

theorem checkLoop_binary (checker : List Char) (a : Str) (op : Char) (rest : Str)
    (ha : isLiteral a = true) (hop : isOperator [op] = true) :
    checkLoop checker (a ++ ' ' :: op :: ' ' :: rest) = checkLoop checker rest := by
  rw [checkLoop_literal checker a _ ha, checkLoop_space, checkLoop_op _ _ _ hop, checkLoop_space]

theorem scan_last (i : Nat) (c : Str) (hc : isLiteral c = true) :
    scan i [] c = .ok [c] := by
  have := scan_literal i [] c [] hc
  rw [List.append_nil] at this
  rw [this, scan_end]
  simp [(isLiteral_spec c hc).1]

/-- The string `a op1 b op2 c` tokenizes to its five tokens. -/
theorem tokenize_chain (a b c : Str) (op1 op2 : Char) (ha : isLiteral a = true)
    (hb : isLiteral b = true) (hc : isLiteral c = true) (h1 : isOperator [op1] = true)
    (h2 : isOperator [op2] = true) :
    tokenize (a ++ [' ', op1, ' '] ++ b ++ [' ', op2, ' '] ++ c) =
      .ok [a, [op1], b, [op2], c] := by
  have hs : a ++ [' ', op1, ' '] ++ b ++ [' ', op2, ' '] ++ c =
      a ++ ' ' :: op1 :: ' ' :: (b ++ ' ' :: op2 :: ' ' :: (c ++ [])) := by simp
  rw [hs]
  have hcheck : checkParenthesis (a ++ ' ' :: op1 :: ' ' :: (b ++ ' ' :: op2 :: ' ' :: (c ++ [])))
      = .ok () := by
    unfold checkParenthesis
    rw [checkLoop_binary _ a op1 _ ha h1, checkLoop_binary _ b op2 _ hb h2,
      checkLoop_literal _ c _ hc]
    rfl
  rw [tokenize_of_check_ok _ hcheck, scan_binary 0 a b op1 _ ha h1,
    scan_binary 1 b c op2 _ hb h2, List.append_nil, scan_last 1 c hc]
  rfl

/-- The string `(a op1 b) op2 c` tokenizes to its seven tokens. -/
theorem tokenize_grouped_left (a b c : Str) (op1 op2 : Char) (ha : isLiteral a = true)
    (hb : isLiteral b = true) (hc : isLiteral c = true) (h1 : isOperator [op1] = true)
    (h2 : isOperator [op2] = true) :
    tokenize ('(' :: a ++ [' ', op1, ' '] ++ b ++ [')', ' ', op2, ' '] ++ c) =
      .ok [['('], a, [op1], b, [')'], [op2], c] := by
  have hs : '(' :: a ++ [' ', op1, ' '] ++ b ++ [')', ' ', op2, ' '] ++ c =
      '(' :: (a ++ ' ' :: op1 :: ' ' :: (b ++ ')' :: ' ' :: op2 :: ' ' :: (c ++ []))) := by simp
  rw [hs]
  have hcheck : checkParenthesis
      ('(' :: (a ++ ' ' :: op1 :: ' ' :: (b ++ ')' :: ' ' :: op2 :: ' ' :: (c ++ [])))) = .ok () := by
    unfold checkParenthesis
    rw [checkLoop_open, checkLoop_binary _ a op1 _ ha h1, checkLoop_literal _ b _ hb,
      checkLoop_close, checkLoop_space, checkLoop_op _ _ _ h2, checkLoop_space,
      checkLoop_literal _ c _ hc]
    rfl
  rw [tokenize_of_check_ok _ hcheck, scan_open_one, scan_binary 1 a b op1 _ ha h1,
    scan_literal 1 [] b _ hb, List.nil_append, scan_close_one, scan_space_one,
    scan_op_one 1 (by decide) [] op2 _ h2, scan_space_one, List.append_nil, scan_last 1 c hc]
  have hne := (isLiteral_spec b hb).1
  have hsign := at0_literal a (' ' :: op1 :: ' ' :: (b ++ ')' :: ' ' :: op2 :: ' ' :: c)) ha
  simp [hne, hsign]

/-- The string `a op1 (b op2 c)` tokenizes to its seven tokens. -/
theorem tokenize_grouped_right (a b c : Str) (op1 op2 : Char) (ha : isLiteral a = true)
    (hb : isLiteral b = true) (hc : isLiteral c = true) (h1 : isOperator [op1] = true)
    (h2 : isOperator [op2] = true) :
    tokenize (a ++ [' ', op1, ' ', '('] ++ b ++ [' ', op2, ' '] ++ c ++ [')']) =
      .ok [a, [op1], ['('], b, [op2], c, [')']] := by
  have hs : a ++ [' ', op1, ' ', '('] ++ b ++ [' ', op2, ' '] ++ c ++ [')'] =
      a ++ ' ' :: op1 :: ' ' :: ([] ++ '(' :: (b ++ ' ' :: op2 :: ' ' :: (c ++ [')']))) := by simp
  rw [hs]
  have hcheck : checkParenthesis
      (a ++ ' ' :: op1 :: ' ' :: ([] ++ '(' :: (b ++ ' ' :: op2 :: ' ' :: (c ++ [')'])))) = .ok () := by
    unfold checkParenthesis
    rw [checkLoop_binary _ a op1 _ ha h1, List.nil_append, checkLoop_open,
      checkLoop_binary _ b op2 _ hb h2, checkLoop_literal _ c _ hc, checkLoop_close]
    rfl
  rw [tokenize_of_check_ok _ hcheck, scan_binary 0 a [] op1 _ ha h1, List.nil_append,
    scan_open_one, scan_binary 1 b c op2 _ hb h2, scan_literal 1 [] c _ hc, List.nil_append,
    scan_close_one, scan_end]
  have hne := (isLiteral_spec c hc).1
  have hsign := at0_literal b (' ' :: op2 :: ' ' :: (c ++ [')'])) hb
  simp [hne, hsign]

theorem precOf_lt_four (op : Char) : precOf [op] < 4 := by
  have := precOf_le_three [op]
  omega

/-- C6: for number literals `a`, `b`, `c` and any of the six operators `op`
(the power operator included), `calculate("a op b op c")` and
`calculate("(a op b) op c")` have the same outcome, namely
`applyOperator(applyOperator(a, b, op), c, op)`. -/
theorem calculate_left_assoc (N : Numeric) (a b c : Str) (op : Char)
    (ha : isLiteral a = true) (hb : isLiteral b = true) (hc : isLiteral c = true)
    (hop : isOperator [op] = true) :
    calculate N (a ++ [' ', op, ' '] ++ b ++ [' ', op, ' '] ++ c) =
        (applyOperator N a b [op] >>= fun r => applyOperator N r c [op]) ∧
      calculate N ('(' :: a ++ [' ', op, ' '] ++ b ++ [')', ' ', op, ' '] ++ c) =
        (applyOperator N a b [op] >>= fun r => applyOperator N r c [op]) := by
  have h4 := precOf_lt_four op
  have h6 : precOf [op] ≤ 4 := by omega
  constructor
  · have hw : wf true (bin (bin (num a) op (num b)) op (num c)) = true := by
      simp [wf, level, ha, hb, hc, hop, h4, h6]
    have ht := tokenize_chain a b c op op ha hb hc hop hop
    have := (calculate_of_tokens N _ (bin (bin (num a) op (num b)) op (num c))
      (by rw [ht]; simp [toks, startsSigned, body]) hw).2
    rw [this]
    simp [eval]
  · have hw : wf true (bin (group (bin (num a) op (num b))) op (num c)) = true := by
      simp [wf, level, ha, hb, hc, hop, h4, h6]
    have ht := tokenize_grouped_left a b c op op ha hb hc hop hop
    have := (calculate_of_tokens N _ (bin (group (bin (num a) op (num b))) op (num c))
      (by rw [ht]; simp [toks, startsSigned, body]) hw).2
    rw [this]
    simp [eval]

/-- The outcome of `a op1 b op2 c` when `op1` binds at least as tightly as
`op2`, and of `(a op1 b) op2 c` for any two operators: the left operator is
applied first. -/
theorem calculate_left_first (N : Numeric) (a b c : Str) (op1 op2 : Char)
    (ha : isLiteral a = true) (hb : isLiteral b = true) (hc : isLiteral c = true)
    (h1 : isOperator [op1] = true) (h2 : isOperator [op2] = true) :
    (precOf [op2] ≤ precOf [op1] →
      calculate N (a ++ [' ', op1, ' '] ++ b ++ [' ', op2, ' '] ++ c) =
        (applyOperator N a b [op1] >>= fun r => applyOperator N r c [op2])) ∧
      calculate N ('(' :: a ++ [' ', op1, ' '] ++ b ++ [')', ' ', op2, ' '] ++ c) =
        (applyOperator N a b [op1] >>= fun r => applyOperator N r c [op2]) := by
  have h4 := precOf_lt_four op1
  have h5 := precOf_lt_four op2
  have h6 : precOf [op1] ≤ 4 := by omega
  have h7 : precOf [op2] ≤ 4 := by omega
  constructor
  · intro hle
    have hw : wf true (bin (bin (num a) op1 (num b)) op2 (num c)) = true := by
      simp [wf, level, ha, hb, hc, h1, h2, h4, h5, h6, h7, hle]
    have ht := tokenize_chain a b c op1 op2 ha hb hc h1 h2
    have := (calculate_of_tokens N _ (bin (bin (num a) op1 (num b)) op2 (num c))
      (by rw [ht]; simp [toks, startsSigned, body]) hw).2
    rw [this]
    simp [eval]
  · have hw : wf true (bin (group (bin (num a) op1 (num b))) op2 (num c)) = true := by
      simp [wf, level, ha, hb, hc, h1, h2, h4, h5, h6, h7]
    have ht := tokenize_grouped_left a b c op1 op2 ha hb hc h1 h2
    have := (calculate_of_tokens N _ (bin (group (bin (num a) op1 (num b))) op2 (num c))
      (by rw [ht]; simp [toks, startsSigned, body]) hw).2
    rw [this]
    simp [eval]

/-- The outcome of `a op1 b op2 c` when `op2` binds more tightly than `op1`,
and of `a op1 (b op2 c)` for any two operators: the right operator is applied
first. -/
theorem calculate_right_first (N : Numeric) (a b c : Str) (op1 op2 : Char)
    (ha : isLiteral a = true) (hb : isLiteral b = true) (hc : isLiteral c = true)
    (h1 : isOperator [op1] = true) (h2 : isOperator [op2] = true) :
    (precOf [op1] < precOf [op2] →
      calculate N (a ++ [' ', op1, ' '] ++ b ++ [' ', op2, ' '] ++ c) =
        (applyOperator N b c [op2] >>= fun r => applyOperator N a r [op1])) ∧
      calculate N (a ++ [' ', op1, ' ', '('] ++ b ++ [' ', op2, ' '] ++ c ++ [')']) =
        (applyOperator N b c [op2] >>= fun r => applyOperator N a r [op1]) := by
  have h4 := precOf_lt_four op1
  have h5 := precOf_lt_four op2
  have h6 : precOf [op1] ≤ 4 := by omega
  have h7 : precOf [op2] ≤ 4 := by omega
  constructor
  · intro hlt
    have hw : wf true (bin (num a) op1 (bin (num b) op2 (num c))) = true := by
      simp [wf, level, ha, hb, hc, h1, h2, h4, h5, h6, h7, hlt]
    have ht := tokenize_chain a b c op1 op2 ha hb hc h1 h2
    have := (calculate_of_tokens N _ (bin (num a) op1 (bin (num b) op2 (num c)))
      (by rw [ht]; simp [toks, startsSigned, body]) hw).2
    rw [this]
    simp [eval]
  · have hw : wf true (bin (num a) op1 (group (bin (num b) op2 (num c)))) = true := by
      simp [wf, level, ha, hb, hc, h1, h2, h4, h5, h6, h7]
    have ht := tokenize_grouped_right a b c op1 op2 ha hb hc h1 h2
    have := (calculate_of_tokens N _ (bin (num a) op1 (group (bin (num b) op2 (num c))))
      (by rw [ht]; simp [toks, startsSigned, body]) hw).2
    rw [this]
    simp [eval]

/-- C7: for number literals `a`, `b`, `c`, `calculate("a + b * c")` has the
outcome of `calculate("a + (b * c)")`, `calculate("a * b ^ c")` that of
`calculate("a * (b ^ c)")`, and `calculate("a - b + c")` that of
`calculate("(a - b) + c")`. -/
theorem calculate_precedence (N : Numeric) (a b c : Str)
    (ha : isLiteral a = true) (hb : isLiteral b = true) (hc : isLiteral c = true) :
    calculate N (a ++ [' ', '+', ' '] ++ b ++ [' ', '*', ' '] ++ c) =
        calculate N (a ++ [' ', '+', ' ', '('] ++ b ++ [' ', '*', ' '] ++ c ++ [')']) ∧
      calculate N (a ++ [' ', '*', ' '] ++ b ++ [' ', '^', ' '] ++ c) =
        calculate N (a ++ [' ', '*', ' ', '('] ++ b ++ [' ', '^', ' '] ++ c ++ [')']) ∧
      calculate N (a ++ [' ', '-', ' '] ++ b ++ [' ', '+', ' '] ++ c) =
        calculate N ('(' :: a ++ [' ', '-', ' '] ++ b ++ [')', ' ', '+', ' '] ++ c) := by
  have r1 := calculate_right_first N a b c '+' '*' ha hb hc (by decide) (by decide)
  have r2 := calculate_right_first N a b c '*' '^' ha hb hc (by decide) (by decide)
  have r3 := calculate_left_first N a b c '-' '+' ha hb hc (by decide) (by decide)
  refine ⟨?_, ?_, ?_⟩
  · rw [r1.1 (by decide), r1.2]
  · rw [r2.1 (by decide), r2.2]
  · rw [r3.1 (by decide), r3.2]

/-- The string `a op b` tokenizes to its three tokens. -/
theorem tokenize_binary (a b : Str) (op : Char) (ha : isLiteral a = true)
    (hb : isLiteral b = true) (hop : isOperator [op] = true) :
    tokenize (a ++ [' ', op, ' '] ++ b) = .ok [a, [op], b] := by
  have hs : a ++ [' ', op, ' '] ++ b = a ++ ' ' :: op :: ' ' :: (b ++ []) := by simp
  rw [hs]
  have hcheck : checkParenthesis (a ++ ' ' :: op :: ' ' :: (b ++ [])) = .ok () := by
    unfold checkParenthesis
    rw [checkLoop_binary _ a op _ ha hop, checkLoop_literal _ b _ hb]
    rfl
  rw [tokenize_of_check_ok _ hcheck, scan_binary 0 a b op _ ha hop, List.append_nil,
    scan_last 1 b hb]
  rfl

theorem calculate_binary (N : Numeric) (a b : Str) (op : Char) (ha : isLiteral a = true)
    (hb : isLiteral b = true) (hop : isOperator [op] = true) :
    calculate N (a ++ [' ', op, ' '] ++ b) = applyOperator N a b [op] := by
  have hw : wf true (bin (num a) op (num b)) = true := by
    have h4 := precOf_lt_four op
    have h6 : precOf [op] ≤ 4 := by omega
    simp [wf, level, ha, hb, hop, h4, h6]
  have ht := tokenize_binary a b op ha hb hop
  have := (calculate_of_tokens N _ (bin (num a) op (num b))
    (by rw [ht]; simp [toks, startsSigned, body]) hw).2
  rw [this]
  simp [eval]

/-- C5, as the code has it: when the numeric layer reads `"0"` as a zero,
`calculate("x / 0")` and `calculate("x % 0")` fail with thrown code 3 for
every number literal `x` that `std::stof` converts; for a literal `std::stof`
rejects (one beyond the range of `float`), the exception of `std::stof`
escapes instead, since `x` is parsed before the divisor is tested. -/
theorem calculate_div_zero (N : Numeric) (x : Str) (z : N.Flt) (hx : isLiteral x = true)
    (h0 : N.stof ['0'] = .ok z) (hz : N.isZero z = true) :
    calculate N (x ++ [' ', '/', ' '] ++ ['0']) =
        (match N.stof x with
          | .ok _ => .error (.thrown 3)
          | .error e => .error e.toFailure) ∧
      calculate N (x ++ [' ', '%', ' '] ++ ['0']) =
        (match N.stof x with
          | .ok _ => .error (.thrown 3)
          | .error e => .error e.toFailure) := by
  have hl : isLiteral ['0'] = true := by decide
  rw [calculate_binary N x ['0'] '/' hx hl (by decide),
    calculate_binary N x ['0'] '%' hx hl (by decide)]
  unfold applyOperator stofE
  rw [h0]
  cases N.stof x with
  | error e => exact ⟨rfl, rfl⟩
  | ok v => simp [at0, hz]

theorem numChar_zero : NumChar '0' := Or.inl (by decide)

theorem tokOK_zero : TokOK ['0'] := by
  left
  refine ⟨by simp, ?_⟩
  intro c hc
  simp only [List.mem_singleton] at hc
  rw [hc]
  exact numChar_zero

theorem emitted_tokOK (i : Nat) (number : Str) (c next : Char) (hn : ∀ d ∈ number, NumChar d)
    (hc : OpParen c) : ∀ t ∈ emitted i number c next, TokOK t := by
  intro t ht
  unfold emitted at ht
  simp only [List.mem_append, List.mem_singleton] at ht
  rcases ht with ((ht | ht) | ht) | ht
  · split_ifs at ht
    · simp only [List.mem_singleton] at ht; rw [ht]; exact tokOK_zero
    · simp at ht
  · split_ifs at ht with h1
    · simp only [List.mem_singleton] at ht
      rw [ht]
      exact Or.inl ⟨h1, hn⟩
    · simp at ht
  · rw [ht]; exact Or.inr ⟨c, rfl, hc⟩
  · split_ifs at ht
    · simp only [List.mem_singleton] at ht; rw [ht]; exact tokOK_zero
    · simp at ht

/-- Every token the tokenizer emits is a run of digits and periods or a single
operator or parenthesis. -/
theorem scan_tokOK (s : Str) : ∀ (i : Nat) (number : Str) (tokens : List Str),
    (∀ d ∈ number, NumChar d) → scan i number s = .ok tokens → ∀ t ∈ tokens, TokOK t := by
  induction s with
  | nil =>
    intro i number tokens hn h t ht
    simp only [scan, pure_eq_ok, Except.ok.injEq] at h
    subst h
    split_ifs at ht with h1
    · simp only [List.mem_singleton] at ht
      rw [ht]
      exact Or.inl ⟨h1, hn⟩
    · simp at ht
  | cons c rest ih =>
    intro i number tokens hn h t ht
    by_cases hop : OpParen c
    · rw [scan_opParen i number c rest hop] at h
      obtain ⟨more, h1, h2⟩ := bind_eq_ok _ _ _ h
      simp only [pure_eq_ok, Except.ok.injEq] at h2
      subst h2
      rcases List.mem_append.mp ht with h3 | h3
      · exact emitted_tokOK i number c _ hn hop t h3
      · exact ih (i + 1) [] more (by simp) h1 t h3
    · by_cases hnum : NumChar c
      · rw [scan_numChar i number c rest hnum] at h
        refine ih (i + 1) (number ++ [c]) tokens ?_ h t ht
        intro d hd
        rcases List.mem_append.mp hd with h4 | h4
        · exact hn d h4
        · simp only [List.mem_singleton] at h4; rw [h4]; exact hnum
      · unfold OpParen at hop
        unfold NumChar at hnum
        rw [scan] at h
        simp only [hop, hnum, if_false] at h
        by_cases h5 : c = ' '
        · simp only [h5, ne_eq, not_true_eq_false, if_false] at h
          exact ih (i + 1) number tokens hn h t ht
        · simp [h5] at h

theorem tokenize_tokOK (exp : Str) (tokens : List Str) (h : tokenize exp = .ok tokens) :
    ∀ t ∈ tokens, TokOK t := by
  rcases checkParenthesis_cases exp with hc | hc
  · rw [tokenize_of_check_ok exp hc] at h
    exact scan_tokOK exp 0 [] tokens (by simp) h
  · rw [tokenize_of_check_error exp _ hc] at h
    cases h

theorem numberToken_run (t : Str) (ht : TokOK t) (hn : isNumberToken t = true) :
    t ≠ [] ∧ ∀ c ∈ t, NumChar c := by
  rcases ht with ht | ⟨c, rfl, hc⟩
  · exact ht
  · exfalso
    have : isdigit c = true := by simpa [isNumberToken, at0] using hn
    exact numChar_not_opParen c (Or.inl this) hc

theorem applyOperator_ok (N : Numeric) (a b op v : Str) (h : applyOperator N a b op = .ok v) :
    ∃ x : N.Flt, v = N.to_string x := by
  unfold applyOperator at h
  obtain ⟨va, _, h1⟩ := bind_eq_ok _ _ _ h
  obtain ⟨vb, _, h2⟩ := bind_eq_ok _ _ _ h1
  simp only [] at h2
  split_ifs at h2 <;> simp at h2 <;> exact ⟨_, h2.symm⟩

theorem operateWith_numVal (N : Numeric) (op : Str) (nums nums2 : List Str)
    (hn : ∀ v ∈ nums, NumVal N v) (h : operateWith N op nums = .ok nums2) :
    ∀ v ∈ nums2, NumVal N v := by
  match nums, hn, h with
  | [], _, h => simp [operateWith] at h
  | [_], _, h => simp [operateWith] at h
  | b :: a :: rest, hn, h =>
    rw [operateWith_two] at h
    obtain ⟨res, h1, h2⟩ := bind_eq_ok _ _ _ h
    simp only [Except.ok.injEq] at h2
    subst h2
    intro v hv
    rcases List.mem_cons.mp hv with h3 | h3
    · rw [h3]; exact Or.inr (applyOperator_ok N a b op res h1)
    · exact hn v (by simp [h3])

theorem closeLoop_numVal (N : Numeric) (ops : List Str) : ∀ (nums : List Str) (s : Stacks),
    (∀ v ∈ nums, NumVal N v) → closeLoop N ops nums = .ok s → ∀ v ∈ s.numStack, NumVal N v := by
  induction ops with
  | nil =>
    intro nums s hn h
    simp only [closeLoop, pure_eq_ok, Except.ok.injEq] at h
    subst h
    exact hn
  | cons top ops ih =>
    intro nums s hn h
    rw [closeLoop] at h
    split_ifs at h with h1
    · obtain ⟨nums2, h2, h3⟩ := bind_eq_ok _ _ _ h
      exact ih nums2 s (operateWith_numVal N top nums nums2 hn h2) h3
    · simp only [pure_eq_ok, Except.ok.injEq] at h
      subst h
      exact hn

theorem precLoop_numVal (N : Numeric) (token : Str) (ops : List Str) :
    ∀ (nums : List Str) (s : Stacks), (∀ v ∈ nums, NumVal N v) →
    precLoop N token ops nums = .ok s → ∀ v ∈ s.numStack, NumVal N v := by
  induction ops with
  | nil =>
    intro nums s hn h
    simp only [precLoop, pure_eq_ok, Except.ok.injEq] at h
    subst h
    exact hn
  | cons top ops ih =>
    intro nums s hn h
    rw [precLoop] at h
    obtain ⟨b, _, h2⟩ := bind_eq_ok _ _ _ h
    cases b with
    | true =>
      simp only [if_true] at h2
      obtain ⟨nums2, h3, h4⟩ := bind_eq_ok _ _ _ h2
      exact ih nums2 s (operateWith_numVal N top nums nums2 hn h3) h4
    | false =>
      simp only [Bool.false_eq_true, if_false, pure_eq_ok, Except.ok.injEq] at h2
      subst h2
      exact hn

theorem drainLoop_numVal (N : Numeric) (ops : List Str) : ∀ (nums : List Str) (s : Stacks),
    (∀ v ∈ nums, NumVal N v) → drainLoop N ops nums = .ok s → ∀ v ∈ s.numStack, NumVal N v := by
  induction ops with
  | nil =>
    intro nums s hn h
    simp only [drainLoop, pure_eq_ok, Except.ok.injEq] at h
    subst h
    exact hn
  | cons top ops ih =>
    intro nums s hn h
    rw [drainLoop] at h
    obtain ⟨nums2, h2, h3⟩ := bind_eq_ok _ _ _ h
    exact ih nums2 s (operateWith_numVal N top nums nums2 hn h2) h3

theorem stepToken_numVal (N : Numeric) (t : Str) (s s2 : Stacks) (ht : TokOK t)
    (hn : ∀ v ∈ s.numStack, NumVal N v) (h : stepToken N t s = .ok s2) :
    ∀ v ∈ s2.numStack, NumVal N v := by
  unfold stepToken at h
  split_ifs at h with h1 h2 h3
  · simp only [pure_eq_ok, Except.ok.injEq] at h
    subst h
    intro v hv
    rcases List.mem_cons.mp hv with h4 | h4
    · rw [h4]; exact Or.inl (numberToken_run t ht h1)
    · exact hn v h4
  · simp only [pure_eq_ok, Except.ok.injEq] at h
    subst h
    exact hn
  · obtain ⟨s3, h4, h5⟩ := bind_eq_ok _ _ _ h
    have := closeLoop_numVal N _ _ s3 hn h4
    split at h5
    · simp at h5
    · simp only [pure_eq_ok, Except.ok.injEq] at h5
      subst h5
      exact this
  · obtain ⟨s3, h4, h5⟩ := bind_eq_ok _ _ _ h
    have := precLoop_numVal N t _ _ s3 hn h4
    simp only [pure_eq_ok, Except.ok.injEq] at h5
    subst h5
    exact this

theorem tokenLoop_numVal (N : Numeric) (tokens : List Str) : ∀ (s s2 : Stacks),
    (∀ t ∈ tokens, TokOK t) → (∀ v ∈ s.numStack, NumVal N v) →
    tokenLoop N tokens s = .ok s2 → ∀ v ∈ s2.numStack, NumVal N v := by
  induction tokens with
  | nil =>
    intro s s2 _ hn h
    simp only [tokenLoop, pure_eq_ok, Except.ok.injEq] at h
    subst h
    exact hn
  | cons t ts ih =>
    intro s s2 ht hn h
    rw [tokenLoop_cons] at h
    obtain ⟨s1, h1, h2⟩ := bind_eq_ok _ _ _ h
    exact ih s1 s2 (fun u hu => ht u (by simp [hu]))
      (stepToken_numVal N t s s1 (ht t (by simp)) hn h1) h2

theorem calculate_ok_numVal (N : Numeric) (exp v : Str) (h : calculate N exp = .ok v) :
    NumVal N v := by
  unfold calculate at h
  obtain ⟨s, h1, h2⟩ := bind_eq_ok _ _ _ h
  unfold finalStacks at h1
  obtain ⟨tokens, h3, h4⟩ := bind_eq_ok _ _ _ h1
  obtain ⟨s1, h5, h6⟩ := bind_eq_ok _ _ _ h4
  have hs1 := tokenLoop_numVal N tokens ⟨[], []⟩ s1 (tokenize_tokOK exp tokens h3)
    (by simp) h5
  have hs := drainLoop_numVal N _ _ s hs1 h6
  split at h2
  · simp at h2
  · next top rest heq =>
    simp only [pure_eq_ok, Except.ok.injEq] at h2
    subst h2
    exact hs top (by simp [heq])

/-- C4, as the code has it: whenever the final read of `numStack.top()` is not
on an empty stack, `calculate` either fails with one of the thrown codes 6, 51,
1, 3, 21, 22, 52, 53 or with an exception of `std::stof`
(`std::invalid_argument`, `std::out_of_range`), or returns the top entry of the
operand stack, which is a number token of the input (a run of digits and
periods) or a string rendered by `to_string`. -/
theorem calculate_outcomes (N : Numeric) (exp : Str) :
    (∀ e, calculate N exp = .error e → e ≠ .empty_top →
      e = .thrown 6 ∨ e = .thrown 51 ∨ EvalFailure e) ∧
    (∀ v, calculate N exp = .ok v → NumVal N v) := by
  constructor
  · intro e h hne
    rcases calculate_error N exp e h with h1 | h1 | h1 | h1
    · exact Or.inl h1.1
    · exact Or.inr (Or.inl h1.1)
    · exact Or.inr (Or.inr h1)
    · exact absurd h1 hne
  · intro v h
    exact calculate_ok_numVal N exp v h

/-- The characters `tokenize` accepts: digits, the period, the operators, the
parentheses and the space character. -/
theorem scan_fails_iff (s : Str) : ∀ (i : Nat) (number : Str),
    scan i number s = .error (.thrown 51) ↔ ∃ c ∈ s, ¬ (NumChar c ∨ OpParen c ∨ c = ' ') := by
  induction s with
  | nil => intro i number; simp [scan]
  | cons c rest ih =>
    intro i number
    by_cases hop : OpParen c
    · rw [scan_opParen i number c rest hop]
      have := ih (i + 1) []
      cases hsc : scan (i + 1) [] rest with
      | error x =>
        rw [hsc] at this
        have hx := scan_error _ _ _ _ hsc
        subst hx
        simp only [error_bind, true_iff] at this ⊢
        obtain ⟨d, hd, hnot⟩ := this
        exact ⟨d, by simp [hd], hnot⟩
      | ok more =>
        rw [hsc] at this
        have hrest : ¬ ∃ d ∈ rest, ¬ (NumChar d ∨ OpParen d ∨ d = ' ') := by
          intro h
          have := this.mpr h
          cases this
        simp only [ok_bind, pure_eq_ok]
        constructor
        · intro h; cases h
        · rintro ⟨d, hd, hnot⟩
          rcases List.mem_cons.mp hd with h | h
          · subst h; exact absurd (Or.inr (Or.inl hop)) hnot
          · exact absurd ⟨d, h, hnot⟩ hrest
    · by_cases hnum : NumChar c
      · rw [scan_numChar i number c rest hnum, ih]
        simp only [List.mem_cons, exists_eq_or_imp]
        constructor
        · intro h; exact Or.inr h
        · rintro (h | h)
          · exact absurd (Or.inl hnum) h
          · exact h
      · by_cases hsp : c = ' '
        · subst hsp
          rw [scan_space, ih]
          simp only [List.mem_cons, exists_eq_or_imp]
          constructor
          · intro h; exact Or.inr h
          · rintro (h | h)
            · exact absurd (Or.inr (Or.inr trivial)) h
            · exact h
        · have : scan i number (c :: rest) = .error (.thrown 51) := by
            unfold OpParen at hop
            unfold NumChar at hnum
            rw [scan]
            simp [hop, hnum, hsp]
          rw [this]
          simp only [true_iff]
          refine ⟨c, by simp, ?_⟩
          rintro (h | h | h)
          · exact hnum h
          · exact hop h
          · exact hsp h

/-- What the tokenizer does with invalid characters: on a string with balanced
parentheses it fails with thrown code 51 exactly when some character is not a
decimal digit, a period, one of the six operators, a parenthesis or the space
character; every other white-space character is rejected. -/
theorem tokenize_invalid_iff (exp : Str) (hb : unbalanced exp = false) :
    tokenize exp = .error (.thrown 51) ↔ ∃ c ∈ exp, ¬ (NumChar c ∨ OpParen c ∨ c = ' ') := by
  have hc : checkParenthesis exp = .ok () := by
    rcases checkParenthesis_cases exp with h | h
    · exact h
    · rw [(checkParenthesis_iff exp).mp h] at hb
      cases hb
  rw [tokenize_of_check_ok exp hc]
  exact scan_fails_iff exp 0 []

/-- C9, the code at a failing input: a tab is a white-space character, every
character of `"3\t+ 4"` is a digit, white space or an operator and the
parentheses are balanced, yet `tokenize` fails with thrown code 51 on it, and
so does `calculate`; with a space in place of the tab it succeeds. -/
theorem tokenize_tab :
    tokenize ['3', '\t', '+', ' ', '4'] = .error (.thrown 51) ∧
      calculate binary32 ['3', '\t', '+', ' ', '4'] = .error (.thrown 51) ∧
      unbalanced ['3', '\t', '+', ' ', '4'] = false ∧
      (∀ c ∈ ['3', '\t', '+', ' ', '4'],
        isdigit c = true ∨ F32.isspace c = true ∨ isOperator [c] = true) ∧
      tokenize ['3', ' ', '+', ' ', '4'] = .ok [['3'], ['+'], ['4']] := by
  decide

set_option maxRecDepth 100000 in
/-- C3, the code at failing inputs: a space in front of a leading sign, or
between an opening parenthesis and a sign, changes the outcome.  With the space
the sign gets no `"0"` operand and the reduce step fails with thrown code 22;
without it the sign is applied to `"0"`. -/
theorem calculate_space_before_sign (N : Numeric) :
    calculate N [' ', '-', '3'] = .error (.thrown 22) ∧
      calculate N ['-', '3'] = applyOperator N ['0'] ['3'] ['-'] ∧
      calculate N ['(', ' ', '-', '3', ')'] = .error (.thrown 22) ∧
      calculate N ['(', '-', '3', ')'] = applyOperator N ['0'] ['3'] ['-'] ∧
      calculate binary32 ['-', '3'] = .ok ['-', '3', '.', '0', '0', '0', '0', '0', '0'] := by
  refine ⟨rfl, ?_, rfl, ?_, ?_⟩
  · have h := (calculate_tree N (unary '-' (num ['3'])) (by decide)).2
    simpa [render, eval] using h
  · have h := (calculate_tree N (group (unary '-' (num ['3']))) (by decide)).2
    simpa [render, eval] using h
  · decide

set_option maxRecDepth 100000 in
/-- C1 at a concrete input: the tree of `3.5*(-2+0.5)` is well formed, and
`calculate` returns its value `-5.250000`, alone on the operand stack. -/
theorem calculate_render_witness :
    calculate binary32 "3.5*(-2+0.5)".toList = .ok "-5.250000".toList ∧
      finalStacks binary32 "3.5*(-2+0.5)".toList = .ok ⟨[], ["-5.250000".toList]⟩ :=
  have h := calculate_render binary32
    (bin (num "3.5".toList) '*'
      (group (bin (unary '-' (num "2".toList)) '+' (num "0.5".toList)))) (by decide)
  ⟨h.2.trans (by decide), h.1.trans (by decide)⟩

set_option maxRecDepth 100000 in
/-- C4 (amended) at concrete inputs: `5 / 0` fails with thrown code 3, one of
the listed failures, and `3+4` returns a string rendered by `to_string`. -/
theorem calculate_outcomes_witness :
    calculate binary32 "5 / 0".toList = .error (.thrown 3) ∧
      (Failure.thrown 3 = .thrown 6 ∨ Failure.thrown 3 = .thrown 51 ∨
        EvalFailure (.thrown 3)) ∧
      NumVal binary32 "7.000000".toList :=
  ⟨by decide,
    (calculate_outcomes binary32 "5 / 0".toList).1 (.thrown 3) (by decide) (by decide),
    (calculate_outcomes binary32 "3+4".toList).2 "7.000000".toList (by decide)⟩

set_option maxRecDepth 100000 in
/-- C4 refuted as stated: an exception of `std::stof` escapes `calculate` (a
failure outside the taxonomy) for an operand without digits and for an operand
beyond the range of `float`, and `calculate("..")` returns the string `..`,
which is no number. -/
theorem calculate_unclassified :
    calculate binary32 "..+1".toList = .error .invalid_argument ∧
      calculate binary32 "1000000000000000000000000000000000000000+1".toList =
        .error .out_of_range ∧
      calculate binary32 "..".toList = .ok "..".toList := by
  decide

/-- The slip next to C4: on the empty string, and on any string without a
number token such as `()`, the final `numStack.top()` reads an empty stack. -/
theorem calculate_empty_stack (N : Numeric) :
    calculate N [] = .error .empty_top ∧ calculate N ['(', ')'] = .error .empty_top :=
  ⟨rfl, rfl⟩

set_option maxRecDepth 100000 in
/-- C5 (amended) at a concrete input: `5 / 0` and `5 % 0` fail with thrown
code 3. -/
theorem calculate_div_zero_witness :
    calculate binary32 "5 / 0".toList = .error (.thrown 3) ∧
      calculate binary32 "5 % 0".toList = .error (.thrown 3) :=
  have h := calculate_div_zero binary32 "5".toList (F32.finite false 0 (-149))
    (by decide) (by rfl) (by rfl)
  ⟨h.1.trans (by decide), h.2.trans (by decide)⟩

set_option maxRecDepth 100000 in
/-- C5 refuted as stated: for the number literal `x` made of a 1 and 39 zeros,
beyond the range of `float`, `calculate("x / 0")` and `calculate("x % 0")` do
not fail with thrown code 3: `std::stof` raises `std::out_of_range` when `x` is
parsed, before the divisor is looked at. -/
theorem calculate_div_zero_out_of_range :
    isLiteral "1000000000000000000000000000000000000000".toList = true ∧
      calculate binary32 "1000000000000000000000000000000000000000 / 0".toList =
        .error .out_of_range ∧
      calculate binary32 "1000000000000000000000000000000000000000 % 0".toList =
        .error .out_of_range := by
  decide

set_option maxRecDepth 100000 in
/-- C6 at a concrete input: `2 ^ 3 ^ 2` and `(2 ^ 3) ^ 2` both give
`64.000000`. -/
theorem calculate_left_assoc_witness :
    calculate binary32 "2 ^ 3 ^ 2".toList = .ok "64.000000".toList ∧
      calculate binary32 "(2 ^ 3) ^ 2".toList = .ok "64.000000".toList :=
  have h := calculate_left_assoc binary32 "2".toList "3".toList "2".toList '^'
    (by decide) (by decide) (by decide) (by decide)
  ⟨h.1.trans (by decide), h.2.trans (by decide)⟩

set_option maxRecDepth 100000 in
/-- C7 at a concrete input: with `a = 3`, `b = 4`, `c = 2` the three pairs of
strings agree, and `3 + 4 * 2` is `11.000000`. -/
theorem calculate_precedence_witness :
    (calculate binary32 "3 + 4 * 2".toList = calculate binary32 "3 + (4 * 2)".toList ∧
      calculate binary32 "3 * 4 ^ 2".toList = calculate binary32 "3 * (4 ^ 2)".toList ∧
      calculate binary32 "3 - 4 + 2".toList = calculate binary32 "(3 - 4) + 2".toList) ∧
      calculate binary32 "3 + 4 * 2".toList = .ok "11.000000".toList :=
  ⟨calculate_precedence binary32 "3".toList "4".toList "2".toList
    (by decide) (by decide) (by decide), by decide⟩

set_option maxRecDepth 100000 in
/-- C8 at a concrete input: putting the sub-expression `4*2` of `3+4*2` in
parentheses gives `3+(4*2)`, with the same outcome. -/
theorem calculate_wrap_witness :
    calculate binary32 "3+(4*2)".toList = calculate binary32 "3+4*2".toList ∧
      calculate binary32 "3+(4*2)".toList = .ok "11.000000".toList :=
  ⟨(calculate_wrap binary32 (bin (num "4".toList) '*' (num "2".toList))
      (bin (num "3".toList) '+' (bin (num "4".toList) '*' (num "2".toList)))
      (bin (num "3".toList) '+' (group (bin (num "4".toList) '*' (num "2".toList))))
      (by decide) (Wrap.inRight Wrap.here)).1, by decide⟩

set_option maxRecDepth 100000 in
/-- C10 refuted as stated: `calculate("2(3+1)")` reports no error; it returns
`4.000000`, with two entries left on the operand stack. -/
theorem calculate_implicit_product :
    calculate binary32 "2(3+1)".toList = .ok "4.000000".toList ∧
      finalStacks binary32 "2(3+1)".toList =
        .ok ⟨[], ["4.000000".toList, "2".toList]⟩ := by
  decide

set_option maxRecDepth 100000 in
/-- C10 (amended) at a concrete input: `calculate("5(-2)")` returns the value
`-2.000000` of the group and leaves `5` under it. -/
theorem calculate_juxtaposed_witness :
    calculate binary32 "5(-2)".toList = .ok "-2.000000".toList ∧
      finalStacks binary32 "5(-2)".toList = .ok ⟨[], ["-2.000000".toList, "5".toList]⟩ :=
  have h := calculate_juxtaposed binary32 "5".toList (unary '-' (num "2".toList))
    (by decide) (by decide)
  ⟨h.2.trans (by decide), h.1.trans (by decide)⟩

/-- The reduce step `operate` on a non-empty operator stack pops the operator
and runs the body `operateWith` on the operand stack. -/
theorem operate_cons (N : Numeric) (op : Str) (ops nums : List Str) :
    operate N ⟨op :: ops, nums⟩ = (operateWith N op nums >>= fun v => .ok ⟨ops, v⟩) := rfl

/-- The loop of the closing parenthesis, one pass at a time: while the top is
not `(`, call `operate`. -/
theorem closeLoop_cons (N : Numeric) (top : Str) (ops nums : List Str) :
    closeLoop N (top :: ops) nums =
      if top ≠ ['('] then
        operate N ⟨top :: ops, nums⟩ >>= fun s => closeLoop N s.opStack s.numStack
      else .ok ⟨top :: ops, nums⟩ := by
  rw [closeLoop, operate_cons]
  cases operateWith N top nums with
  | error x => rfl
  | ok v => rfl

/-- The loop of an operator token, one pass at a time: while the top has
precedence over the token, call `operate`. -/
theorem precLoop_cons (N : Numeric) (token top : Str) (ops nums : List Str) :
    precLoop N token (top :: ops) nums =
      (hasPrecedence top token >>= fun b =>
        if b = true then
          operate N ⟨top :: ops, nums⟩ >>= fun s => precLoop N token s.opStack s.numStack
        else .ok ⟨top :: ops, nums⟩) := by
  rw [precLoop, operate_cons]
  cases hasPrecedence top token with
  | error x => rfl
  | ok b =>
    cases operateWith N top nums with
    | error x => rfl
    | ok v => rfl

/-- The final loop, one pass at a time: while the operator stack is not empty,
call `operate`. -/
theorem drainLoop_cons (N : Numeric) (top : Str) (ops nums : List Str) :
    drainLoop N (top :: ops) nums =
      (operate N ⟨top :: ops, nums⟩ >>= fun s => drainLoop N s.opStack s.numStack) := by
  rw [drainLoop, operate_cons]
  cases operateWith N top nums with
  | error x => rfl
  | ok v => rfl

theorem isLiteral_examples :
    isLiteral "0".toList = true ∧ isLiteral "12".toList = true ∧
      isLiteral "3.25".toList = true ∧ isLiteral "".toList = false ∧
      isLiteral "3.".toList = false ∧ isLiteral ".5".toList = false ∧
      isLiteral "1.2.3".toList = false ∧ isLiteral "-3".toList = false := by
  decide

set_option maxRecDepth 100000 in
/-- C2 at concrete inputs: an unmatched parenthesis is reported with thrown
code 6 whatever else is wrong with the string (an invalid character, a
division by zero), in either direction and at any position. -/
theorem calculate_unbalanced_witness :
    calculate binary32 "(1 + 2".toList = .error (.thrown 6) ∧
      calculate binary32 "5 / 0 & (".toList = .error (.thrown 6) ∧
      calculate binary32 ")1 + 2(".toList = .error (.thrown 6) ∧
      calculate binary32 "3 & 4".toList = .error (.thrown 51) :=
  ⟨(calculate_unbalanced_iff binary32 "(1 + 2".toList).1.mpr (by decide),
    (calculate_unbalanced_iff binary32 "5 / 0 & (".toList).1.mpr (by decide),
    (calculate_unbalanced_iff binary32 ")1 + 2(".toList).1.mpr (by decide), by decide⟩

/-- C14: a reduce step on a non-empty operator stack pops the top operator
`op`; with no operand it fails with thrown code 21, with exactly one operand
with thrown code 22; otherwise it pops `b` (the top) and `a` (the next) and
pushes `applyOperator(a, b, op)`, `a` being the left operand, so that both
stacks end one entry shorter with their lower entries unchanged (a failure of
`applyOperator` is the failure of the step). -/
theorem operate_spec (N : Numeric) (op : Str) (ops : List Str) :
    operate N ⟨op :: ops, []⟩ = .error (.thrown 21) ∧
    (∀ x, operate N ⟨op :: ops, [x]⟩ = .error (.thrown 22)) ∧
    (∀ b a rest, operate N ⟨op :: ops, b :: a :: rest⟩ =
      (applyOperator N a b op >>= fun res => .ok ⟨ops, res :: rest⟩)) ∧
    (∀ nums s, operate N ⟨op :: ops, nums⟩ = .ok s →
      s.opStack = ops ∧ ∃ b a rest res, nums = b :: a :: rest ∧
        applyOperator N a b op = .ok res ∧ s.numStack = res :: rest ∧
        s.numStack.length + 1 = nums.length) := by
  refine ⟨rfl, fun _ => rfl, ?_, ?_⟩
  · intro b a rest
    rw [operate_cons, operateWith_two]
    cases applyOperator N a b op with
    | error e => rfl
    | ok res => rfl
  · intro nums s h
    match nums, h with
    | [], h => cases h
    | [_], h => cases h
    | b :: a :: rest, h =>
      rw [operate_cons, operateWith_two] at h
      cases hr : applyOperator N a b op with
      | error e => rw [hr] at h; cases h
      | ok res =>
        rw [hr] at h
        simp only [ok_bind, Except.ok.injEq] at h
        subst h
        exact ⟨rfl, b, a, rest, res, rfl, hr, rfl, by simp⟩

/-- Under a numeric layer that refuses every string, a call of `applyOperator`
ends in the exception of `std::stof`. -/
theorem applyOperator_refusing (a b op : Str) :
    applyOperator refusing a b op = .error .invalid_argument := rfl

theorem hasPrecedence_sign (op s : Char) (hop : isOperator [op] = true)
    (hs : s = '+' ∨ s = '-') : hasPrecedence [op] [s] = .ok true := by
  obtain ⟨h1, h2⟩ := isOperator_sign s hs
  rw [hasPrecedence_op [op] s (Or.inl (by simpa [isOpToken] using hop)) h1, h2]
  have := (getPrecedence_op op hop).2.1
  simp [isOpToken, hop, this]

/-- The tokens of `a op s b`, a sign directly after a binary operator, with
any number of spaces between them. -/
theorem tokenize_sign_after_op (a b : Str) (op s : Char) (n1 n2 n3 : Nat)
    (ha : isLiteral a = true) (hb : isLiteral b = true) (hop : isOperator [op] = true)
    (hs : s = '+' ∨ s = '-') :
    tokenize (a ++ List.replicate n1 ' ' ++ [op] ++ List.replicate n2 ' ' ++ [s] ++
      List.replicate n3 ' ' ++ b) = .ok [a, [op], [s], b] := by
  have hsop := (isOperator_sign s hs).1
  have hne := (isLiteral_spec a ha).1
  have hstr : a ++ List.replicate n1 ' ' ++ [op] ++ List.replicate n2 ' ' ++ [s] ++
      List.replicate n3 ' ' ++ b =
      a ++ (List.replicate n1 ' ' ++ op :: (List.replicate n2 ' ' ++
        s :: (List.replicate n3 ' ' ++ b))) := by simp
  rw [hstr]
  have hspaces : ∀ (checker : List Char) (n : Nat) (rest : Str),
      checkLoop checker (List.replicate n ' ' ++ rest) = checkLoop checker rest := by
    intro checker n rest
    induction n with
    | zero => rfl
    | succ n ih => rw [List.replicate_succ, List.cons_append, checkLoop_space, ih]
  have hcheck : checkParenthesis (a ++ (List.replicate n1 ' ' ++ op :: (List.replicate n2 ' ' ++
      s :: (List.replicate n3 ' ' ++ b)))) = .ok () := by
    unfold checkParenthesis
    rw [checkLoop_literal _ a _ ha, hspaces, checkLoop_op _ _ _ hop, hspaces,
      checkLoop_op _ _ _ hsop, hspaces]
    have := checkLoop_literal [] b [] hb
    rw [List.append_nil] at this
    rw [this]
    rfl
  rw [tokenize_of_check_ok _ hcheck, scan_literal 0 [] a _ ha, List.nil_append, scan_spaces,
    scan_op_one _ (by omega) a op _ hop, scan_spaces, scan_op_one _ (by omega) [] s _ hsop,
    scan_spaces, scan_pos _ (by omega), scan_last 1 b hb]
  simp [hne]

/-- C11: a sign directly after a binary operator is not treated as unary.  For
number literals `a`, `b`, any of the six operators `op` and a sign `s`, the
string `a op s b` (with any number of spaces between its tokens, as in `3*-2`,
`3 * -2`, `2 ^ -1`) makes `calculate` fail with thrown code 22 under every
numeric layer, also under one whose `std::stof` refuses every string: the
reduce step finds one operand and `applyOperator` is not called. -/
theorem calculate_sign_after_op (N : Numeric) (a b : Str) (op s : Char) (n1 n2 n3 : Nat)
    (ha : isLiteral a = true) (hb : isLiteral b = true) (hop : isOperator [op] = true)
    (hs : s = '+' ∨ s = '-') :
    calculate N (a ++ List.replicate n1 ' ' ++ [op] ++ List.replicate n2 ' ' ++ [s] ++
        List.replicate n3 ' ' ++ b) = .error (.thrown 22) ∧
      calculate refusing (a ++ List.replicate n1 ' ' ++ [op] ++ List.replicate n2 ' ' ++ [s] ++
        List.replicate n3 ' ' ++ b) = .error (.thrown 22) ∧
      tokenLoop N [a, [op]] ⟨[], []⟩ = .ok ⟨[[op]], [a]⟩ ∧
      stepToken N [s] ⟨[[op]], [a]⟩ = .error (.thrown 22) ∧
      operate N ⟨[[op]], [a]⟩ = .error (.thrown 22) := by
  have hsop := (isOperator_sign s hs).1
  have hnum := isNumberToken_literal a ha
  have hstep : ∀ M : Numeric, stepToken M [s] ⟨[[op]], [a]⟩ = .error (.thrown 22) := by
    intro M
    rw [stepToken_op M s hsop, precLoop, hasPrecedence_sign op s hop hs]
    rfl
  have hpre : ∀ M : Numeric, tokenLoop M [a, [op]] ⟨[], []⟩ = .ok ⟨[[op]], [a]⟩ := by
    intro M
    rw [tokenLoop_cons, stepToken_number M a _ hnum, ok_bind, tokenLoop_cons,
      stepToken_op M op hop]
    rfl
  have hcalc : ∀ M : Numeric, calculate M (a ++ List.replicate n1 ' ' ++ [op] ++
      List.replicate n2 ' ' ++ [s] ++ List.replicate n3 ' ' ++ b) = .error (.thrown 22) := by
    intro M
    unfold calculate finalStacks
    rw [tokenize_sign_after_op a b op s n1 n2 n3 ha hb hop hs, ok_bind]
    have : tokenLoop M [a, [op], [s], b] ⟨[], []⟩ = .error (.thrown 22) := by
      have h2 := tokenLoop_append M [a, [op]] [[s], b] ⟨[], []⟩
      simp only [List.cons_append, List.nil_append] at h2
      rw [h2, hpre M, ok_bind, tokenLoop_cons, hstep M]
      rfl
    rw [this]
    rfl
  exact ⟨hcalc N, hcalc refusing, hpre N, hstep N, rfl⟩

/-- The loop of a closing parenthesis only pops: what it leaves of the
operator stack is a lower part of it, and the new top, if any, is `(`. -/
theorem closeLoop_suffix (N : Numeric) (ops : List Str) : ∀ (nums : List Str) (s : Stacks),
    closeLoop N ops nums = .ok s →
    s.opStack <:+ ops ∧ ∀ top rest, s.opStack = top :: rest → top = ['('] := by
  induction ops with
  | nil =>
    intro nums s h
    simp only [closeLoop, pure_eq_ok, Except.ok.injEq] at h
    subst h
    exact ⟨List.suffix_refl _, fun top rest h => by cases h⟩
  | cons t ops ih =>
    intro nums s h
    rw [closeLoop] at h
    split_ifs at h with h1
    · obtain ⟨nums2, _, h3⟩ := bind_eq_ok _ _ _ h
      obtain ⟨h4, h5⟩ := ih nums2 s h3
      exact ⟨h4.trans (List.suffix_cons t ops), h5⟩
    · simp only [pure_eq_ok, Except.ok.injEq] at h
      subst h
      refine ⟨List.suffix_refl _, ?_⟩
      intro top rest heq
      simp only [List.cons.injEq] at heq
      rw [← heq.1]
      exact not_not.mp h1

/-- The loop of an operator token only pops: what it leaves of the operator
stack is a lower part of it, and the new top, if any, has no precedence over
the token. -/
theorem precLoop_suffix (N : Numeric) (token : Str) (ops : List Str) :
    ∀ (nums : List Str) (s : Stacks), precLoop N token ops nums = .ok s →
    s.opStack <:+ ops ∧
      ∀ top rest, s.opStack = top :: rest → hasPrecedence top token = .ok false := by
  induction ops with
  | nil =>
    intro nums s h
    simp only [precLoop, pure_eq_ok, Except.ok.injEq] at h
    subst h
    exact ⟨List.suffix_refl _, fun top rest h => by cases h⟩
  | cons t ops ih =>
    intro nums s h
    rw [precLoop] at h
    obtain ⟨b, hb, h2⟩ := bind_eq_ok _ _ _ h
    cases b with
    | true =>
      simp only [if_true] at h2
      obtain ⟨nums2, _, h4⟩ := bind_eq_ok _ _ _ h2
      obtain ⟨h5, h6⟩ := ih nums2 s h4
      exact ⟨h5.trans (List.suffix_cons t ops), h6⟩
    | false =>
      simp only [Bool.false_eq_true, if_false, pure_eq_ok, Except.ok.injEq] at h2
      subst h2
      refine ⟨List.suffix_refl _, ?_⟩
      intro top rest heq
      simp only [List.cons.injEq] at heq
      rw [← heq.1]
      exact hb

/-- The final loop empties the operator stack. -/
theorem drainLoop_empties (N : Numeric) (ops : List Str) : ∀ (nums : List Str) (s : Stacks),
    drainLoop N ops nums = .ok s → s.opStack = [] := by
  induction ops with
  | nil =>
    intro nums s h
    simp only [drainLoop, pure_eq_ok, Except.ok.injEq] at h
    subst h
    rfl
  | cons t ops ih =>
    intro nums s h
    rw [drainLoop] at h
    obtain ⟨nums2, _, h3⟩ := bind_eq_ok _ _ _ h
    exact ih nums2 s h3

theorem opsOK_suffix (l1 l2 : List Str) (h : l1 <:+ l2) (h2 : OpsOK l2) : OpsOK l1 :=
  fun t ht => h2 t (h.subset ht)

/-- A token whose handling by `calculate` matches its kind: a number token, a
parenthesis or one of the six operators. -/
theorem sound_of_tokOK (t : Str) (ht : TokOK t) (hp : t ≠ ['.']) :
    isNumberToken t = true ∨ t = ['('] ∨ t = [')'] ∨ isOpToken t = true := by
  rcases ht with ⟨hne, hall⟩ | ⟨c, rfl, hc⟩
  · left
    match t, hne, hall, hp with
    | [c], _, hall, hp =>
      rcases hall c (by simp) with h | h
      · simpa [isNumberToken, at0] using h
      · exact absurd (by rw [h]) hp
    | c :: d :: rest, _, _, _ => simp [isNumberToken]
  · rcases hc with h | h | h
    · right; right; right; simpa [isOpToken] using h
    · right; left; rw [h]
    · right; right; left; rw [h]

theorem isNumberToken_not_paren (t : Str) (h : isNumberToken t = true) :
    t ≠ ['('] ∧ t ≠ [')'] := by
  constructor <;> (intro h2; rw [h2] at h; revert h; decide)

theorem isOpToken_not_number (t : Str) (h : isOpToken t = true) :
    isNumberToken t = false ∧ t ≠ ['('] ∧ t ≠ [')'] := by
  obtain ⟨c, rfl, hc⟩ := (isOpToken_iff t).mp h
  have h2 := isOperator_not_paren c hc
  exact ⟨isNumberToken_op c hc, by simpa using h2.1, by simpa using h2.2⟩

/-- One pass of the token loop keeps the operator stack made of operators and
opening parentheses when the token is a number, a parenthesis or an operator. -/
theorem stepToken_opsOK (N : Numeric) (t : Str) (s s2 : Stacks)
    (ht : isNumberToken t = true ∨ t = ['('] ∨ t = [')'] ∨ isOpToken t = true)
    (hok : OpsOK s.opStack) (h : stepToken N t s = .ok s2) : OpsOK s2.opStack := by
  unfold stepToken at h
  split_ifs at h with h1 h2 h3
  · simp only [pure_eq_ok, Except.ok.injEq] at h
    subst h
    exact hok
  · simp only [pure_eq_ok, Except.ok.injEq] at h
    subst h
    rw [h2]
    exact opsOK_open _ hok
  · obtain ⟨s3, h4, h5⟩ := bind_eq_ok _ _ _ h
    have hs3 := opsOK_suffix _ _ (closeLoop_suffix N _ _ s3 h4).1 hok
    split at h5
    · simp at h5
    · next top rest heq =>
      simp only [pure_eq_ok, Except.ok.injEq] at h5
      subst h5
      rw [heq] at hs3
      exact (opsOK_cons _ _ hs3).2
  · obtain ⟨s3, h4, h5⟩ := bind_eq_ok _ _ _ h
    have hs3 := opsOK_suffix _ _ (precLoop_suffix N t _ _ s3 h4).1 hok
    simp only [pure_eq_ok, Except.ok.injEq] at h5
    subst h5
    have hop : isOpToken t = true := by
      rcases ht with ht | ht | ht | ht
      · exact absurd ht h1
      · exact absurd ht h2
      · exact absurd ht h3
      · exact ht
    intro u hu
    rcases List.mem_cons.mp hu with h6 | h6
    · left; rw [h6]; exact hop
    · exact hs3 u h6

theorem tokenLoop_opsOK (N : Numeric) (tokens : List Str) : ∀ (s s2 : Stacks),
    (∀ t ∈ tokens, isNumberToken t = true ∨ t = ['('] ∨ t = [')'] ∨ isOpToken t = true) →
    OpsOK s.opStack → tokenLoop N tokens s = .ok s2 → OpsOK s2.opStack := by
  induction tokens with
  | nil =>
    intro s s2 _ hok h
    simp only [tokenLoop, pure_eq_ok, Except.ok.injEq] at h
    subst h
    exact hok
  | cons t ts ih =>
    intro s s2 ht hok h
    rw [tokenLoop_cons] at h
    obtain ⟨s1, h1, h2⟩ := bind_eq_ok _ _ _ h
    exact ih s1 s2 (fun u hu => ht u (by simp [hu]))
      (stepToken_opsOK N t s s1 (ht t (by simp)) hok h1) h2

/-- What holds of the operator stack: when the tokenizer emits no token that
is a lone period, the operator stack holds only operators and opening
parentheses after every token, and so does every lower part of it that an
inner loop passes through. -/
theorem opStack_entries (N : Numeric) (exp : Str) (k : Nat) (s : Stacks)
    (hp : ∀ tokens, tokenize exp = .ok tokens → ['.'] ∉ tokens)
    (h : stacksAfter N exp k = .ok s) : ∀ j, OpsOK (s.opStack.drop j) := by
  unfold stacksAfter at h
  obtain ⟨tokens, h1, h2⟩ := bind_eq_ok _ _ _ h
  have htok := tokenize_tokOK exp tokens h1
  have hnp := hp tokens h1
  have hsound : ∀ t ∈ tokens.take k,
      isNumberToken t = true ∨ t = ['('] ∨ t = [')'] ∨ isOpToken t = true := by
    intro t ht
    have hmem := List.mem_of_mem_take ht
    exact sound_of_tokOK t (htok t hmem) (fun heq => hnp (heq ▸ hmem))
  have := tokenLoop_opsOK N _ ⟨[], []⟩ s hsound opsOK_nil h2
  intro j
  exact opsOK_suffix _ _ (List.drop_suffix j _) this

/-- C15, the code at a failing input: on the string `.` the tokenizer emits the
lone period as a token, the number test of `calculate` does not recognise it,
and it is pushed on the operator stack, which then holds an entry that is
neither an operator nor `(`; the final loop fails with thrown code 21.  In
`.(1)` the period stays on the operator stack under the parenthesis. -/
theorem opStack_lone_period (N : Numeric) :
    tokenize ['.'] = .ok [['.']] ∧
      stacksAfter N ['.'] 1 = .ok ⟨[['.']], []⟩ ∧
      ¬ OpsOK [['.']] ∧
      calculate N ['.'] = .error (.thrown 21) ∧
      stacksAfter N ['.', '(', '1', ')'] 3 = .ok ⟨[['('], ['.']], [['1']]⟩ := by
  refine ⟨by decide, rfl, ?_, rfl, rfl⟩
  intro h
  have := h ['.'] (by simp)
  revert this
  decide

/-- C13, the code at failing inputs: a sign that is the first non-blank
character, or whose preceding token is `(`, gets no `"0"` in front of it when a
space precedes it; the `"0"` is injected only for a sign at index 0 and for a
sign that is the very next character after `(`. -/
theorem tokenize_sign_injection :
    tokenize [' ', '-', '3'] = .ok [['-'], ['3']] ∧
      tokenize ['-', '3'] = .ok [['0'], ['-'], ['3']] ∧
      tokenize ['(', ' ', '-', '3', ')'] = .ok [['('], ['-'], ['3'], [')']] ∧
      tokenize ['(', '-', '3', ')'] = .ok [['('], ['0'], ['-'], ['3'], [')']] ∧
      tokenize ['2', '*', '(', ' ', '+', '3', ')'] =
        .ok [['2'], ['*'], ['('], ['+'], ['3'], [')']] := by
  decide

theorem ranked_tail (t : Str) (l : List Str) (h : Ranked (t :: l)) : Ranked l := by
  cases l with
  | nil => trivial
  | cons u rest => exact h.2

theorem ranked_suffix (l1 l2 : List Str) (hs : l1 <:+ l2) (h : Ranked l2) : Ranked l1 := by
  induction l2 with
  | nil =>
    have := List.eq_nil_of_suffix_nil hs
    subst this
    trivial
  | cons t l ih =>
    rcases List.suffix_cons_iff.mp hs with h1 | h1
    · rw [h1]; exact h
    · exact ih h1 (ranked_tail t l h)

theorem ranked_push (t : Str) (l : List Str) (h : Ranked l)
    (hp : ∀ top rest, l = top :: rest → t = ['('] ∨ top = ['('] ∨ precOf top < precOf t) :
    Ranked (t :: l) := by
  cases l with
  | nil => trivial
  | cons u rest => exact ⟨hp u rest rfl, h⟩

theorem precOf_lt_of_hasPrecedence (top token : Str)
    (h : hasPrecedence top token = .ok false) : precOf top < precOf token := by
  unfold hasPrecedence at h
  obtain ⟨p1, h1, h2⟩ := bind_eq_ok _ _ _ h
  obtain ⟨p2, h3, h4⟩ := bind_eq_ok _ _ _ h2
  simp only [pure_eq_ok, Except.ok.injEq, decide_eq_false_iff_not, ge_iff_le, not_le] at h4
  simp only [precOf, h1, h3]
  exact h4

/-- One pass of the token loop keeps the precedence order of the operator
stack, for any token. -/
theorem stepToken_ranked (N : Numeric) (t : Str) (s s2 : Stacks)
    (hr : Ranked s.opStack) (h : stepToken N t s = .ok s2) : Ranked s2.opStack := by
  unfold stepToken at h
  split_ifs at h with h1 h2 h3
  · simp only [pure_eq_ok, Except.ok.injEq] at h
    subst h
    exact hr
  · simp only [pure_eq_ok, Except.ok.injEq] at h
    subst h
    exact ranked_push t _ hr (fun _ _ _ => Or.inl h2)
  · obtain ⟨s3, h4, h5⟩ := bind_eq_ok _ _ _ h
    have hs3 := ranked_suffix _ _ (closeLoop_suffix N _ _ s3 h4).1 hr
    split at h5
    · simp at h5
    · next top rest heq =>
      simp only [pure_eq_ok, Except.ok.injEq] at h5
      subst h5
      rw [heq] at hs3
      exact ranked_tail _ _ hs3
  · obtain ⟨s3, h4, h5⟩ := bind_eq_ok _ _ _ h
    obtain ⟨hsuf, htop⟩ := precLoop_suffix N t _ _ s3 h4
    simp only [pure_eq_ok, Except.ok.injEq] at h5
    subst h5
    refine ranked_push t _ (ranked_suffix _ _ hsuf hr) ?_
    intro top rest heq
    exact Or.inr (Or.inr (precOf_lt_of_hasPrecedence top t (htop top rest heq)))

theorem tokenLoop_ranked (N : Numeric) (tokens : List Str) : ∀ (s s2 : Stacks),
    Ranked s.opStack → tokenLoop N tokens s = .ok s2 → Ranked s2.opStack := by
  induction tokens with
  | nil =>
    intro s s2 hr h
    simp only [tokenLoop, pure_eq_ok, Except.ok.injEq] at h
    subst h
    exact hr
  | cons t ts ih =>
    intro s s2 hr h
    rw [tokenLoop_cons] at h
    obtain ⟨s1, h1, h2⟩ := bind_eq_ok _ _ _ h
    exact ih s1 s2 (stepToken_ranked N t s s1 hr h1) h2

/-- In a ranked stack, every entry of the current parenthesis level below the
top ranks strictly lower than the top. -/
theorem ranked_level_lt (t : Str) (l : List Str) (h : Ranked (t :: l)) (ht : t ≠ ['(']) :
    ∀ u ∈ pendingLevel l, precOf u < precOf t := by
  induction l generalizing t with
  | nil => intro u hu; simp [pendingLevel] at hu
  | cons v rest ih =>
    intro u hu
    by_cases hv : v = ['(']
    · simp [pendingLevel, hv] at hu
    · have hlt : precOf v < precOf t := by
        rcases h.1 with h1 | h1 | h1
        · exact absurd h1 ht
        · exact absurd h1 hv
        · exact h1
      simp only [pendingLevel, List.takeWhile_cons, ne_eq, hv, not_false_eq_true,
        decide_True, if_true, List.mem_cons] at hu
      rcases hu with h2 | h2
      · rw [h2]; exact hlt
      · have := ih v h.2 hv u (by simpa [pendingLevel] using h2)
        omega

theorem precOf_pos_of_isOpToken (t : Str) (h : isOpToken t = true) : 1 ≤ precOf t := by
  obtain ⟨c, rfl, hc⟩ := (isOpToken_iff t).mp h
  exact (getPrecedence_op c hc).2.1

/-- In a ranked stack, the operators of the current parenthesis level are at
most as many as the rank of the top entry. -/
theorem ranked_level_count (l : List Str) (h : Ranked l) :
    (pendingLevel l).countP isOpToken ≤ precOf (l.headD []) := by
  induction l with
  | nil => simp [pendingLevel]
  | cons t rest ih =>
    by_cases ht : t = ['(']
    · simp [pendingLevel, ht]
    · have hrest := ih (ranked_tail t rest h)
      have htw : pendingLevel (t :: rest) = t :: pendingLevel rest := by
        simp [pendingLevel, ht]
      rw [htw, List.countP_cons]
      simp only [List.headD_cons]
      cases rest with
      | nil =>
        simp only [pendingLevel, List.takeWhile_nil, List.countP_nil, zero_add]
        by_cases hop : isOpToken t = true
        · simp only [hop, if_true]; exact precOf_pos_of_isOpToken t hop
        · simp [hop]
      | cons u rest2 =>
        by_cases hu : u = ['(']
        · have : pendingLevel (u :: rest2) = [] := by simp [pendingLevel, hu]
          rw [this]
          simp only [List.countP_nil, zero_add]
          by_cases hop : isOpToken t = true
          · simp only [hop, if_true]; exact precOf_pos_of_isOpToken t hop
          · simp [hop]
        · have hlt : precOf u < precOf t := by
            rcases h.1 with h1 | h1 | h1
            · exact absurd h1 ht
            · exact absurd h1 hu
            · exact h1
          simp only [List.headD_cons] at hrest
          by_cases hop : isOpToken t = true
          · simp only [hop, if_true]; omega
          · simp only [hop, Bool.false_eq_true, if_false]; omega

/-- C16: after every token, at every level of parentheses, the operators on
the operator stack rank strictly higher from bottom to top (`Ranked`), and the
same holds of every lower part of the stack that an inner loop passes through;
so an entry on top of a level, such as an operator that was just pushed, has
every entry of its level under it ranking strictly lower (those of its rank
or more were reduced before), and no level holds more than three operators. -/
theorem opStack_ranked (N : Numeric) (exp : Str) (k : Nat) (s : Stacks)
    (h : stacksAfter N exp k = .ok s) :
    Ranked s.opStack ∧
      (∀ j, Ranked (s.opStack.drop j) ∧
        (pendingLevel (s.opStack.drop j)).countP isOpToken ≤ 3) ∧
      (∀ t rest, s.opStack = t :: rest → t ≠ ['('] →
        ∀ u ∈ pendingLevel rest, precOf u < precOf t) := by
  unfold stacksAfter at h
  obtain ⟨tokens, _, h2⟩ := bind_eq_ok _ _ _ h
  have hr : Ranked s.opStack := tokenLoop_ranked N _ ⟨[], []⟩ s trivial h2
  refine ⟨hr, ?_, ?_⟩
  · intro j
    have hj := ranked_suffix _ _ (List.drop_suffix j _) hr
    exact ⟨hj, le_trans (ranked_level_count _ hj) (precOf_le_three _)⟩
  · intro t rest heq ht
    rw [heq] at hr
    exact ranked_level_lt t rest hr ht

/-- The push of an operator token: the loop pops a top part of the operator
stack, then the token is pushed on what is left. -/
theorem stepToken_push (N : Numeric) (op : Char) (hop : isOperator [op] = true)
    (s s2 : Stacks) (h : stepToken N [op] s = .ok s2) :
    ∃ popped rest, s.opStack = popped ++ rest ∧ s2.opStack = [op] :: rest := by
  rw [stepToken_op N op hop] at h
  obtain ⟨s3, h1, h2⟩ := bind_eq_ok _ _ _ h
  simp only [Except.ok.injEq] at h2
  subst h2
  obtain ⟨popped, hp⟩ := (precLoop_suffix N [op] _ _ s3 h1).1
  exact ⟨popped, s3.opStack, hp.symm, rfl⟩

/-- The failures of a reduce step: the thrown codes 21, 22, 3, 52 and the two
exceptions of `std::stof`. -/
theorem operateWith_failure (N : Numeric) (op : Str) (nums : List Str) (e : Failure)
    (h : operateWith N op nums = .error e) :
    e = .thrown 21 ∨ e = .thrown 22 ∨ e = .thrown 3 ∨ e = .thrown 52 ∨
      e = .invalid_argument ∨ e = .out_of_range := by
  match nums, h with
  | [], h => simp [operateWith] at h; simp [← h]
  | [_], h => simp [operateWith] at h; simp [← h]
  | b :: a :: rest, h =>
    rw [operateWith_two] at h
    cases hr : applyOperator N a b op with
    | ok v => rw [hr] at h; simp at h
    | error x =>
      rw [hr] at h
      simp only [error_bind, Except.error.injEq] at h
      subst h
      rcases applyOperator_error N a b op x hr with h1 | h1 | h1 | h1 <;> simp [h1]

theorem checkLoop_parens (s : Str) : ∀ checker,
    checkLoop checker s = checkLoop checker (parens s) := by
  induction s with
  | nil => intro checker; rfl
  | cons c rest ih =>
    intro checker
    by_cases h1 : c = '('
    · subst h1
      have : parens ('(' :: rest) = '(' :: parens rest := by simp [parens]
      rw [this, checkLoop_open, checkLoop_open, ih]
    · by_cases h2 : c = ')'
      · subst h2
        have : parens (')' :: rest) = ')' :: parens rest := by simp [parens]
        rw [this]
        cases checker with
        | nil => simp [checkLoop]
        | cons x popped => rw [checkLoop_close, checkLoop_close, ih]
      · have : parens (c :: rest) = parens rest := by simp [parens, h1, h2]
        rw [this, checkLoop_other checker c rest h1 h2, ih]

theorem tokParens_cons_other (t : Str) (ts : List Str) (h1 : t ≠ ['(']) (h2 : t ≠ [')']) :
    tokParens (t :: ts) = tokParens ts := by
  simp [tokParens, List.filterMap_cons, h1, h2]

theorem tokParens_cons_open (ts : List Str) : tokParens (['('] :: ts) = '(' :: tokParens ts := by
  simp [tokParens, List.filterMap_cons]

theorem tokParens_cons_close (ts : List Str) :
    tokParens ([')'] :: ts) = ')' :: tokParens ts := by
  simp [tokParens, List.filterMap_cons]

theorem tokParens_append (ts us : List Str) :
    tokParens (ts ++ us) = tokParens ts ++ tokParens us := by
  simp [tokParens, List.filterMap_append]

theorem run_not_paren (t : Str) (h : ∀ c ∈ t, NumChar c) : t ≠ ['('] ∧ t ≠ [')'] := by
  constructor
  · intro heq
    have := numChar_not_paren '(' (h '(' (by simp [heq]))
    exact this.1 rfl
  · intro heq
    have := numChar_not_paren ')' (h ')' (by simp [heq]))
    exact this.2 rfl

theorem tokParens_run (number : Str) (h : ∀ c ∈ number, NumChar c) :
    tokParens (if number ≠ [] then [number] else []) = [] := by
  split_ifs
  · have := run_not_paren number h
    rw [tokParens_cons_other number [] this.1 this.2]
    rfl
  · rfl

theorem tokParens_emitted (i : Nat) (number : Str) (c next : Char)
    (hn : ∀ d ∈ number, NumChar d) :
    tokParens (emitted i number c next) = parens [c] := by
  have hz : tokParens [['0']] = [] := by decide
  have h0 : ∀ (p : Prop) [Decidable p], tokParens (if p then [['0']] else []) = [] := by
    intro p _
    split_ifs
    · exact hz
    · rfl
  unfold emitted
  rw [tokParens_append, tokParens_append, tokParens_append, h0, tokParens_run number hn, h0]
  by_cases h1 : c = '('
  · subst h1; decide
  · by_cases h2 : c = ')'
    · subst h2; decide
    · have : tokParens [[c]] = [] := by
        rw [tokParens_cons_other [c] [] (by simpa using h1) (by simpa using h2)]
        rfl
      simp [this, parens, h1, h2]

/-- The parentheses among the tokens are the parentheses of the string, in the
same order. -/
theorem scan_tokParens (s : Str) : ∀ (i : Nat) (number : Str) (tokens : List Str),
    (∀ d ∈ number, NumChar d) → scan i number s = .ok tokens → tokParens tokens = parens s := by
  induction s with
  | nil =>
    intro i number tokens hn h
    simp only [scan, pure_eq_ok, Except.ok.injEq] at h
    subst h
    exact tokParens_run number hn
  | cons c rest ih =>
    intro i number tokens hn h
    have hcons : parens (c :: rest) = parens [c] ++ parens rest := by
      simp only [parens, List.filter_cons, List.filter_nil]
      split_ifs <;> rfl
    by_cases hop : OpParen c
    · rw [scan_opParen i number c rest hop] at h
      obtain ⟨more, h1, h2⟩ := bind_eq_ok _ _ _ h
      simp only [pure_eq_ok, Except.ok.injEq] at h2
      subst h2
      rw [tokParens_append, tokParens_emitted i number c _ hn, ih (i + 1) [] more (by simp) h1,
        hcons]
    · have hnp : parens [c] = [] := by
        unfold OpParen at hop
        push_neg at hop
        simp [parens, hop.2.1, hop.2.2]
      rw [hcons, hnp, List.nil_append]
      by_cases hnum : NumChar c
      · rw [scan_numChar i number c rest hnum] at h
        refine ih (i + 1) (number ++ [c]) tokens ?_ h
        intro d hd
        rcases List.mem_append.mp hd with h4 | h4
        · exact hn d h4
        · simp only [List.mem_singleton] at h4; rw [h4]; exact hnum
      · unfold OpParen at hop
        unfold NumChar at hnum
        rw [scan] at h
        simp only [hop, hnum, if_false] at h
        by_cases h5 : c = ' '
        · simp only [h5, ne_eq, not_true_eq_false, if_false] at h
          exact ih (i + 1) number tokens hn h
        · simp [h5] at h

/-- The prescan accepts the parentheses of the tokens of a string that
tokenizes. -/
theorem tokenize_balanced (exp : Str) (tokens : List Str) (h : tokenize exp = .ok tokens) :
    checkLoop [] (tokParens tokens) = .ok () := by
  rcases checkParenthesis_cases exp with hc | hc
  · rw [tokenize_of_check_ok exp hc] at h
    rw [scan_tokParens exp 0 [] tokens (by simp) h, ← checkLoop_parens]
    exact hc
  · rw [tokenize_of_check_error exp _ hc] at h
    cases h

theorem opens_cons_open (ops : List Str) : opens (['('] :: ops) = '(' :: opens ops := by
  simp [opens, List.replicate_succ]

theorem opens_cons_other (t : Str) (ops : List Str) (h : t ≠ ['(']) :
    opens (t :: ops) = opens ops := by
  have : ¬ (t == ['(']) = true := by simpa using h
  simp [opens, List.count_cons, this]

theorem opens_nil : opens [] = [] := rfl

theorem closeLoop_opens (N : Numeric) (ops : List Str) : ∀ (nums : List Str) (s : Stacks),
    closeLoop N ops nums = .ok s → opens s.opStack = opens ops := by
  induction ops with
  | nil =>
    intro nums s h
    simp only [closeLoop, pure_eq_ok, Except.ok.injEq] at h
    subst h
    rfl
  | cons t ops ih =>
    intro nums s h
    rw [closeLoop] at h
    split_ifs at h with h1
    · obtain ⟨nums2, _, h3⟩ := bind_eq_ok _ _ _ h
      rw [ih nums2 s h3, opens_cons_other t ops h1]
    · simp only [pure_eq_ok, Except.ok.injEq] at h
      subst h
      rfl

/-- An opening parenthesis on top of the operator stack has no precedence over
a token that reaches the operator branch of `calculate`. -/
theorem hasPrecedence_open_ne (t : Str) (hn : isNumberToken t = false) (h1 : t ≠ ['('])
    (h2 : t ≠ [')']) : hasPrecedence ['('] t ≠ .ok true := by
  intro h
  unfold hasPrecedence at h
  rw [getPrecedence_open, ok_bind] at h
  obtain ⟨p, hp, h3⟩ := bind_eq_ok _ _ _ h
  simp only [pure_eq_ok, Except.ok.injEq, decide_eq_true_eq, ge_iff_le] at h3
  have hp0 : p = 0 := by omega
  subst hp0
  match t, hn, h1, h2, hp with
  | [], _, _, _, hp => revert hp; decide
  | [c], _, h1, h2, hp =>
    unfold getPrecedence at hp
    simp only [at0, List.headD_cons] at hp
    split_ifs at hp with h4 h5 h6 h7
    · simp at hp
    · simp at hp
    · simp at hp
    · rcases h7 with h7 | h7
      · exact h1 (by rw [h7])
      · exact h2 (by rw [h7])
  | c :: d :: rest, hn, _, _, _ => simp [isNumberToken] at hn

theorem precLoop_opens (N : Numeric) (t : Str) (hn : isNumberToken t = false)
    (h1 : t ≠ ['(']) (h2 : t ≠ [')']) (ops : List Str) : ∀ (nums : List Str) (s : Stacks),
    precLoop N t ops nums = .ok s → opens s.opStack = opens ops := by
  induction ops with
  | nil =>
    intro nums s h
    simp only [precLoop, pure_eq_ok, Except.ok.injEq] at h
    subst h
    rfl
  | cons top ops ih =>
    intro nums s h
    rw [precLoop] at h
    obtain ⟨b, hb, h3⟩ := bind_eq_ok _ _ _ h
    cases b with
    | true =>
      simp only [if_true] at h3
      obtain ⟨nums2, _, h5⟩ := bind_eq_ok _ _ _ h3
      have hne : top ≠ ['('] := by
        intro heq
        rw [heq] at hb
        exact hasPrecedence_open_ne t hn h1 h2 hb
      rw [ih nums2 s h5, opens_cons_other top ops hne]
    | false =>
      simp only [Bool.false_eq_true, if_false, pure_eq_ok, Except.ok.injEq] at h3
      subst h3
      rfl

theorem closeLoop_failure (N : Numeric) (ops : List Str) : ∀ (nums : List Str) (e : Failure),
    closeLoop N ops nums = .error e →
    e = .thrown 21 ∨ e = .thrown 22 ∨ e = .thrown 3 ∨ e = .thrown 52 ∨
      e = .invalid_argument ∨ e = .out_of_range := by
  induction ops with
  | nil => intro nums e h; simp [closeLoop] at h
  | cons top ops ih =>
    intro nums e h
    rw [closeLoop] at h
    split_ifs at h with h1
    · cases hr : operateWith N top nums with
      | ok v => rw [hr] at h; exact ih v e h
      | error x =>
        rw [hr] at h
        simp only [error_bind, Except.error.injEq] at h
        subst h
        exact operateWith_failure N top nums x hr
    · simp at h

theorem precLoop_failure (N : Numeric) (t : Str) (ops : List Str) :
    ∀ (nums : List Str) (e : Failure), precLoop N t ops nums = .error e →
    e = .thrown 53 ∨ e = .thrown 21 ∨ e = .thrown 22 ∨ e = .thrown 3 ∨ e = .thrown 52 ∨
      e = .invalid_argument ∨ e = .out_of_range := by
  induction ops with
  | nil => intro nums e h; simp [precLoop] at h
  | cons top ops ih =>
    intro nums e h
    rw [precLoop] at h
    cases hp : hasPrecedence top t with
    | error x =>
      rw [hp] at h
      simp only [error_bind, Except.error.injEq] at h
      subst h
      exact Or.inl (hasPrecedence_error top t x hp)
    | ok b =>
      rw [hp] at h
      simp only [ok_bind] at h
      cases b with
      | false => simp at h
      | true =>
        simp only [if_true] at h
        cases hr : operateWith N top nums with
        | ok v => rw [hr] at h; exact ih v e h
        | error x =>
          rw [hr] at h
          simp only [error_bind, Except.error.injEq] at h
          subst h
          exact Or.inr (operateWith_failure N top nums x hr)

theorem drainLoop_failure (N : Numeric) (ops : List Str) : ∀ (nums : List Str) (e : Failure),
    drainLoop N ops nums = .error e →
    e = .thrown 21 ∨ e = .thrown 22 ∨ e = .thrown 3 ∨ e = .thrown 52 ∨
      e = .invalid_argument ∨ e = .out_of_range := by
  induction ops with
  | nil => intro nums e h; simp [drainLoop] at h
  | cons top ops ih =>
    intro nums e h
    rw [drainLoop] at h
    cases hr : operateWith N top nums with
    | ok v => rw [hr] at h; exact ih v e h
    | error x =>
      rw [hr] at h
      simp only [error_bind, Except.error.injEq] at h
      subst h
      exact operateWith_failure N top nums x hr

theorem checkLoop_close_ok (checker ps : List Char)
    (h : checkLoop checker (')' :: ps) = .ok ()) :
    ∃ x popped, checker = x :: popped ∧ checkLoop popped ps = .ok () := by
  cases checker with
  | nil => simp [checkLoop] at h
  | cons x popped =>
    rw [checkLoop_close] at h
    exact ⟨x, popped, rfl, h⟩

theorem stepToken_other (N : Numeric) (t : Str) (s : Stacks) (hn : isNumberToken t = false)
    (h1 : t ≠ ['(']) (h2 : t ≠ [')']) :
    stepToken N t s = (precLoop N t s.opStack s.numStack >>= fun s2 =>
      .ok ⟨t :: s2.opStack, s2.numStack⟩) := by
  simp [stepToken, hn, h1, h2]

/-- One pass of the token loop keeps the opening parentheses on the operator
stack in step with the checker of the prescan, and does not throw code 1. -/
theorem stepToken_balance (N : Numeric) (t : Str) (rest : List Str) (s : Stacks)
    (hinv : checkLoop (opens s.opStack) (tokParens (t :: rest)) = .ok ()) :
    (∀ s2, stepToken N t s = .ok s2 → checkLoop (opens s2.opStack) (tokParens rest) = .ok ()) ∧
    (∀ e, stepToken N t s = .error e → e ≠ .thrown 1) := by
  by_cases h1 : isNumberToken t = true
  · have hp := isNumberToken_not_paren t h1
    rw [tokParens_cons_other t rest hp.1 hp.2] at hinv
    rw [stepToken_number N t s h1]
    exact ⟨fun s2 h => by cases h; exact hinv, fun e h => by cases h⟩
  · by_cases h2 : t = ['(']
    · subst h2
      rw [tokParens_cons_open, checkLoop_open] at hinv
      rw [stepToken_open]
      refine ⟨fun s2 h => ?_, fun e h => by cases h⟩
      cases h
      rw [opens_cons_open]
      exact hinv
    · by_cases h3 : t = [')']
      · subst h3
        rw [tokParens_cons_close] at hinv
        obtain ⟨x, popped, hch, hrest⟩ := checkLoop_close_ok _ _ hinv
        rw [stepToken_close]
        cases hcl : closeLoop N s.opStack s.numStack with
        | error x =>
          refine ⟨fun s2 h => (by cases h), fun e h => ?_⟩
          simp only [error_bind, Except.error.injEq] at h
          subst h
          rcases closeLoop_failure N _ _ _ hcl with h5 | h5 | h5 | h5 | h5 | h5 <;>
            rw [h5] <;> decide
        | ok s3 =>
          have hop := closeLoop_opens N _ _ s3 hcl
          have htop := (closeLoop_suffix N _ _ s3 hcl).2
          rw [hch] at hop
          simp only [ok_bind]
          cases hs3 : s3.opStack with
          | nil => rw [hs3, opens_nil] at hop; cases hop
          | cons top ops3 =>
            have htop2 := htop top ops3 hs3
            subst htop2
            rw [hs3, opens_cons_open] at hop
            simp only [List.cons.injEq] at hop
            refine ⟨fun s2 h => ?_, fun e h => by cases h⟩
            simp only [Except.ok.injEq] at h
            subst h
            simp only []
            rw [hop.2]
            exact hrest
      · have hn : isNumberToken t = false := by simpa using h1
        rw [tokParens_cons_other t rest h2 h3] at hinv
        rw [stepToken_other N t s hn h2 h3]
        cases hpl : precLoop N t s.opStack s.numStack with
        | error x =>
          refine ⟨fun s2 h => (by cases h), fun e h => ?_⟩
          simp only [error_bind, Except.error.injEq] at h
          subst h
          rcases precLoop_failure N t _ _ _ hpl with h5 | h5 | h5 | h5 | h5 | h5 | h5 <;>
            rw [h5] <;> decide
        | ok s3 =>
          have hop := precLoop_opens N t hn h2 h3 _ _ s3 hpl
          refine ⟨fun s2 h => ?_, fun e h => by cases h⟩
          simp only [ok_bind, pure_eq_ok, Except.ok.injEq] at h
          subst h
          simp only []
          rw [opens_cons_other t _ h2, hop]
          exact hinv

theorem tokenLoop_balance (N : Numeric) (tokens : List Str) : ∀ (s : Stacks),
    checkLoop (opens s.opStack) (tokParens tokens) = .ok () →
    (∀ s2, tokenLoop N tokens s = .ok s2 → opens s2.opStack = []) ∧
    (∀ e, tokenLoop N tokens s = .error e → e ≠ .thrown 1) := by
  induction tokens with
  | nil =>
    intro s hinv
    refine ⟨fun s2 h => ?_, fun e h => by cases h⟩
    simp only [tokenLoop, pure_eq_ok, Except.ok.injEq] at h
    subst h
    have : tokParens [] = [] := rfl
    rw [this] at hinv
    cases hops : opens s.opStack with
    | nil => rfl
    | cons x xs => rw [hops] at hinv; simp [checkLoop] at hinv
  | cons t ts ih =>
    intro s hinv
    obtain ⟨hok, herr⟩ := stepToken_balance N t ts s hinv
    rw [tokenLoop_cons]
    cases hst : stepToken N t s with
    | error x =>
      refine ⟨fun s2 h => (by cases h), fun e h => ?_⟩
      simp only [error_bind, Except.error.injEq] at h
      subst h
      exact herr x hst
    | ok s1 =>
      simp only [ok_bind]
      exact ih s1 (hok s1 hst)

/-- C17: the unmatched-parenthesis check of the evaluator is unreachable.  For
every input string and every numeric layer `calculate` does not fail with
thrown code 1: the prescan has rejected every unbalanced string, and no reduce
loop pops an opening parenthesis, so each `)` finds its `(` on the operator
stack. -/
theorem calculate_never_code_one (N : Numeric) (exp : Str) :
    calculate N exp ≠ .error (.thrown 1) := by
  intro h
  unfold calculate at h
  cases hf : finalStacks N exp with
  | ok s =>
    rw [hf] at h
    simp only [ok_bind] at h
    split at h <;> cases h
  | error e =>
    rw [hf] at h
    simp only [error_bind, Except.error.injEq] at h
    subst h
    unfold finalStacks at hf
    cases ht : tokenize exp with
    | error x =>
      rw [ht] at hf
      simp only [error_bind, Except.error.injEq] at hf
      subst hf
      rcases tokenize_error exp _ ht with h1 | h1 <;> exact absurd h1.1 (by decide)
    | ok tokens =>
      rw [ht] at hf
      simp only [ok_bind] at hf
      have hbal := tokenLoop_balance N tokens ⟨[], []⟩ (tokenize_balanced exp tokens ht)
      cases hl : tokenLoop N tokens ⟨[], []⟩ with
      | error x =>
        rw [hl] at hf
        simp only [error_bind, Except.error.injEq] at hf
        subst hf
        exact hbal.2 _ hl rfl
      | ok s1 =>
        rw [hl] at hf
        simp only [ok_bind] at hf
        rcases drainLoop_failure N _ _ _ hf with h5 | h5 | h5 | h5 | h5 | h5 <;>
          exact absurd h5 (by decide)

theorem applyOperator_op_failure (N : Numeric) (a b : Str) (c : Char)
    (hc : isOperator [c] = true) (e : Failure) (h : applyOperator N a b [c] = .error e) :
    e ≠ .thrown 52 ∧ e ≠ .thrown 53 := by
  unfold applyOperator at h
  cases ha : stofE N a with
  | error x =>
    rw [ha] at h
    simp only [error_bind, Except.error.injEq] at h
    subst h
    rcases stofE_error N a x ha with h1 | h1 <;> rw [h1] <;> decide
  | ok va =>
    cases hb : stofE N b with
    | error x =>
      rw [ha, hb] at h
      simp only [ok_bind, error_bind, Except.error.injEq] at h
      subst h
      rcases stofE_error N b x hb with h1 | h1 <;> rw [h1] <;> decide
    | ok vb =>
      rw [ha, hb] at h
      simp only [ok_bind, at0, List.headD_cons] at h
      rw [isOperator_iff] at hc
      rcases hc with h1 | h1 | h1 | h1 | h1 | h1 <;> subst h1 <;>
        simp at h <;> (try split_ifs at h) <;> (try simp at h) <;>
        (try (subst h; exact ⟨by decide, by decide⟩))

theorem operateWith_op_failure (N : Numeric) (op : Str) (hop : isOpToken op = true)
    (nums : List Str) (e : Failure) (h : operateWith N op nums = .error e) :
    e ≠ .thrown 52 ∧ e ≠ .thrown 53 := by
  obtain ⟨c, rfl, hc⟩ := (isOpToken_iff op).mp hop
  match nums, h with
  | [], h => simp [operateWith] at h; rw [← h]; decide
  | [_], h => simp [operateWith] at h; rw [← h]; decide
  | b :: a :: rest, h =>
    rw [operateWith_two] at h
    cases hr : applyOperator N a b [c] with
    | ok v => rw [hr] at h; simp at h
    | error x =>
      rw [hr] at h
      simp only [error_bind, Except.error.injEq] at h
      subst h
      exact applyOperator_op_failure N a b c hc x hr

theorem closeLoop_op_failure (N : Numeric) (ops : List Str) : ∀ (nums : List Str) (e : Failure),
    OpsOK ops → closeLoop N ops nums = .error e → e ≠ .thrown 52 ∧ e ≠ .thrown 53 := by
  induction ops with
  | nil => intro nums e _ h; simp [closeLoop] at h
  | cons top ops ih =>
    intro nums e hok h
    obtain ⟨htop, hok2⟩ := opsOK_cons top ops hok
    rw [closeLoop] at h
    split_ifs at h with h1
    · have hop : isOpToken top = true := by
        rcases htop with h2 | h2
        · exact h2
        · exact absurd h2 h1
      cases hr : operateWith N top nums with
      | ok v => rw [hr] at h; exact ih v e hok2 h
      | error x =>
        rw [hr] at h
        simp only [error_bind, Except.error.injEq] at h
        subst h
        exact operateWith_op_failure N top hop nums x hr
    · simp at h

theorem precLoop_op_failure (N : Numeric) (c : Char) (hc : isOperator [c] = true)
    (ops : List Str) : ∀ (nums : List Str) (e : Failure),
    OpsOK ops → precLoop N [c] ops nums = .error e → e ≠ .thrown 52 ∧ e ≠ .thrown 53 := by
  induction ops with
  | nil => intro nums e _ h; simp [precLoop] at h
  | cons top ops ih =>
    intro nums e hok h
    obtain ⟨htop, hok2⟩ := opsOK_cons top ops hok
    rw [precLoop, hasPrecedence_op top c htop hc] at h
    simp only [ok_bind] at h
    by_cases hcond : isOpToken top = true ∧ precOf [c] ≤ precOf top
    · simp only [hcond, and_self, decide_True, if_true] at h
      cases hr : operateWith N top nums with
      | ok v => rw [hr] at h; exact ih v e hok2 h
      | error x =>
        rw [hr] at h
        simp only [error_bind, Except.error.injEq] at h
        subst h
        exact operateWith_op_failure N top hcond.1 nums x hr
    · simp [hcond] at h

theorem drainLoop_op_failure (N : Numeric) (ops : List Str) : ∀ (nums : List Str) (e : Failure),
    (∀ t ∈ ops, isOpToken t = true) → drainLoop N ops nums = .error e →
    e ≠ .thrown 52 ∧ e ≠ .thrown 53 := by
  induction ops with
  | nil => intro nums e _ h; simp [drainLoop] at h
  | cons top ops ih =>
    intro nums e hall h
    rw [drainLoop] at h
    cases hr : operateWith N top nums with
    | ok v => rw [hr] at h; exact ih v e (fun t ht => hall t (by simp [ht])) h
    | error x =>
      rw [hr] at h
      simp only [error_bind, Except.error.injEq] at h
      subst h
      exact operateWith_op_failure N top (hall top (by simp)) nums x hr

theorem stepToken_op_failure (N : Numeric) (t : Str) (s : Stacks) (e : Failure)
    (ht : isNumberToken t = true ∨ t = ['('] ∨ t = [')'] ∨ isOpToken t = true)
    (hok : OpsOK s.opStack) (h : stepToken N t s = .error e) :
    e ≠ .thrown 52 ∧ e ≠ .thrown 53 := by
  by_cases h1 : isNumberToken t = true
  · rw [stepToken_number N t s h1] at h
    cases h
  · by_cases h2 : t = ['(']
    · subst h2
      rw [stepToken_open] at h
      cases h
    · by_cases h3 : t = [')']
      · subst h3
        rw [stepToken_close] at h
        cases hcl : closeLoop N s.opStack s.numStack with
        | error x =>
          rw [hcl] at h
          simp only [error_bind, Except.error.injEq] at h
          subst h
          exact closeLoop_op_failure N _ _ _ hok hcl
        | ok s3 =>
          rw [hcl] at h
          simp only [ok_bind] at h
          split at h
          · simp only [Except.error.injEq] at h
            rw [← h]
            decide
          · cases h
      · have hop : isOpToken t = true := by
          rcases ht with ht | ht | ht | ht
          · exact absurd ht h1
          · exact absurd ht h2
          · exact absurd ht h3
          · exact ht
        obtain ⟨c, rfl, hc⟩ := (isOpToken_iff t).mp hop
        rw [stepToken_op N c hc] at h
        cases hpl : precLoop N [c] s.opStack s.numStack with
        | error x =>
          rw [hpl] at h
          simp only [error_bind, Except.error.injEq] at h
          subst h
          exact precLoop_op_failure N c hc _ _ _ hok hpl
        | ok s3 =>
          rw [hpl] at h
          cases h

theorem tokenLoop_op_failure (N : Numeric) (tokens : List Str) : ∀ (s : Stacks) (e : Failure),
    (∀ t ∈ tokens, isNumberToken t = true ∨ t = ['('] ∨ t = [')'] ∨ isOpToken t = true) →
    OpsOK s.opStack → tokenLoop N tokens s = .error e → e ≠ .thrown 52 ∧ e ≠ .thrown 53 := by
  induction tokens with
  | nil => intro s e _ _ h; simp [tokenLoop] at h
  | cons t ts ih =>
    intro s e ht hok h
    rw [tokenLoop_cons] at h
    cases hst : stepToken N t s with
    | error x =>
      rw [hst] at h
      simp only [error_bind, Except.error.injEq] at h
      subst h
      exact stepToken_op_failure N t s x (ht t (by simp)) hok hst
    | ok s1 =>
      rw [hst] at h
      exact ih s1 e (fun u hu => ht u (by simp [hu]))
        (stepToken_opsOK N t s s1 (ht t (by simp)) hok hst) h

theorem sound_of_literal (t : Str) (ht : TokOK t)
    (hl : isNumberLexeme t = true → isLiteral t = true) :
    isNumberToken t = true ∨ t = ['('] ∨ t = [')'] ∨ isOpToken t = true := by
  apply sound_of_tokOK t ht
  intro heq
  subst heq
  have := hl (by decide)
  revert this
  decide

theorem opens_nil_iff (ops : List Str) (h : opens ops = []) : ['('] ∉ ops := by
  intro hmem
  have : 0 < ops.count ['('] := List.count_pos_iff.mpr hmem
  unfold opens at h
  have h2 : (List.replicate (ops.count ['(']) '(').length = 0 := by rw [h]; rfl
  simp at h2
  omega

/-- C18: when every number token the tokenizer produces matches
`[0-9]+(\.[0-9]+)?` (so that no token is a lone period), `calculate` fails
neither with thrown code 52 nor with thrown code 53: every operator the reduce
step applies and every lexeme whose precedence is asked is one of the six
operators or an opening parenthesis, and no opening parenthesis is left for
the final loop. -/
theorem calculate_never_unknown_operator (N : Numeric) (exp : Str)
    (hlit : ∀ tokens, tokenize exp = .ok tokens →
      ∀ t ∈ tokens, isNumberLexeme t = true → isLiteral t = true) :
    calculate N exp ≠ .error (.thrown 52) ∧ calculate N exp ≠ .error (.thrown 53) := by
  have key : ∀ e, calculate N exp = .error e → e ≠ .thrown 52 ∧ e ≠ .thrown 53 := by
    intro e h
    unfold calculate at h
    cases hf : finalStacks N exp with
    | ok s =>
      rw [hf] at h
      simp only [ok_bind] at h
      split at h
      · simp only [throw_eq_error, Except.error.injEq] at h
        rw [← h]
        decide
      · cases h
    | error x =>
      rw [hf] at h
      simp only [error_bind, Except.error.injEq] at h
      subst h
      unfold finalStacks at hf
      cases ht : tokenize exp with
      | error y =>
        rw [ht] at hf
        simp only [error_bind, Except.error.injEq] at hf
        subst hf
        rcases tokenize_error exp _ ht with h1 | h1 <;> rw [h1.1] <;> decide
      | ok tokens =>
        rw [ht] at hf
        simp only [ok_bind] at hf
        have htok := tokenize_tokOK exp tokens ht
        have hsound : ∀ t ∈ tokens,
            isNumberToken t = true ∨ t = ['('] ∨ t = [')'] ∨ isOpToken t = true :=
          fun t hmem => sound_of_literal t (htok t hmem) (hlit tokens ht t hmem)
        cases hl : tokenLoop N tokens ⟨[], []⟩ with
        | error y =>
          rw [hl] at hf
          simp only [error_bind, Except.error.injEq] at hf
          subst hf
          exact tokenLoop_op_failure N tokens _ _ hsound opsOK_nil hl
        | ok s1 =>
          rw [hl] at hf
          simp only [ok_bind] at hf
          have hok := tokenLoop_opsOK N tokens ⟨[], []⟩ s1 hsound opsOK_nil hl
          have hno := opens_nil_iff _
            ((tokenLoop_balance N tokens ⟨[], []⟩ (tokenize_balanced exp tokens ht)).1 s1 hl)
          refine drainLoop_op_failure N _ _ _ ?_ hf
          intro t hmem
          rcases hok t hmem with h1 | h1
          · exact h1
          · exact absurd (h1 ▸ hmem) hno
  exact ⟨fun h => (key _ h).1 rfl, fun h => (key _ h).2 rfl⟩

/-- A string that tokenizes to `x op y`, two number tokens around an operator,
evaluates to `applyOperator(x, y, op)`. -/
theorem calculate_three_tokens (N : Numeric) (exp x y : Str) (op : Char)
    (ht : tokenize exp = .ok [x, [op], y]) (hx : isNumberToken x = true)
    (hy : isNumberToken y = true) (hop : isOperator [op] = true) :
    calculate N exp = applyOperator N x y [op] := by
  unfold calculate finalStacks
  rw [ht, ok_bind, tokenLoop_cons, stepToken_number N x _ hx, ok_bind, tokenLoop_cons,
    stepToken_op N op hop]
  simp only [precLoop, pure_eq_ok, ok_bind]
  rw [tokenLoop_cons, stepToken_number N y _ hy]
  simp only [ok_bind, tokenLoop, pure_eq_ok, drainLoop, operateWith_two]
  cases applyOperator N x y [op] with
  | error e => rfl
  | ok v => rfl

/-- A string that tokenizes to a single number token is returned as it is. -/
theorem calculate_one_token (N : Numeric) (exp x : Str) (ht : tokenize exp = .ok [x])
    (hx : isNumberToken x = true) :
    finalStacks N exp = .ok ⟨[], [x]⟩ ∧ calculate N exp = .ok x := by
  have hf : finalStacks N exp = .ok ⟨[], [x]⟩ := by
    unfold finalStacks
    rw [ht, ok_bind, tokenLoop_cons, stepToken_number N x _ hx]
    rfl
  refine ⟨hf, ?_⟩
  unfold calculate
  rw [hf]
  rfl

theorem isMultiPoint_spec (r : Str) (h : isMultiPoint r = true) :
    (∀ c ∈ r, NumChar c) ∧ r ≠ [] ∧ isNumberToken r = true := by
  unfold isMultiPoint at h
  simp only [Bool.and_eq_true, List.all_eq_true, Bool.or_eq_true, beq_iff_eq,
    decide_eq_true_eq] at h
  obtain ⟨hall, hcount⟩ := h
  have hlen : 2 ≤ r.length := le_trans hcount (List.count_le_length _ _)
  refine ⟨fun c hc => hall c hc, ?_, ?_⟩
  · intro hnil
    rw [hnil] at hlen
    simp at hlen
  · have : 1 < r.length := by omega
    simp [isNumberToken, this]

/-- A run of digits and periods, alone, is one token. -/
theorem tokenize_run (r : Str) (hall : ∀ c ∈ r, NumChar c) (hne : r ≠ []) :
    tokenize r = .ok [r] := by
  have hc : checkParenthesis r = .ok () := by
    unfold checkParenthesis
    have := checkLoop_digits [] r [] hall
    rw [List.append_nil] at this
    rw [this]
    rfl
  have hs := scan_digits_pos 0 [] r [] hall hne
  rw [List.append_nil, List.nil_append] at hs
  rw [tokenize_of_check_ok r hc, hs, scan_end]
  simp [hne]

/-- The tokens of `x op y`, written with single spaces, for two runs of digits
and periods. -/
theorem tokenize_binary_runs (x y : Str) (op : Char) (hx : ∀ c ∈ x, NumChar c)
    (hxne : x ≠ []) (hy : ∀ c ∈ y, NumChar c) (hyne : y ≠ [])
    (hop : isOperator [op] = true) :
    tokenize (x ++ [' ', op, ' '] ++ y) = .ok [x, [op], y] := by
  have hs : x ++ [' ', op, ' '] ++ y = x ++ ' ' :: op :: ' ' :: (y ++ []) := by simp
  rw [hs]
  have hcheck : checkParenthesis (x ++ ' ' :: op :: ' ' :: (y ++ [])) = .ok () := by
    unfold checkParenthesis
    rw [checkLoop_digits _ x _ hx, checkLoop_space, checkLoop_op _ _ _ hop, checkLoop_space,
      checkLoop_digits _ y _ hy]
    rfl
  rw [tokenize_of_check_ok _ hcheck, scan_digits_pos 0 [] x _ hx hxne, List.nil_append,
    scan_space_one, scan_op_one 1 (by decide) x op _ hop, scan_space_one,
    scan_digits_pos 1 [] y _ hy hyne, List.nil_append, scan_end]
  simp [hxne, hyne]

/-- What `applyOperator` does with two operand strings and one of the six
operators, by what `std::stof` makes of the operands: the exception of `stof`
on the left operand, else the one on the right operand, else thrown code 3 for
`/` or `%` with a right operand that is zero, else a value rendered by
`to_string`. -/
theorem applyOperator_decided (N : Numeric) (x y : Str) (op : Char)
    (hop : isOperator [op] = true) :
    (∀ e, N.stof x = .error e → applyOperator N x y [op] = .error e.toFailure) ∧
      (∀ v e, N.stof x = .ok v → N.stof y = .error e →
        applyOperator N x y [op] = .error e.toFailure) ∧
      (∀ v w, N.stof x = .ok v → N.stof y = .ok w →
        ((op = '/' ∨ op = '%') → N.isZero w = true →
          applyOperator N x y [op] = .error (.thrown 3)) ∧
        (¬ ((op = '/' ∨ op = '%') ∧ N.isZero w = true) →
          ∃ z : N.Flt, applyOperator N x y [op] = .ok (N.to_string z))) := by
  refine ⟨?_, ?_, ?_⟩
  · intro e he
    simp [applyOperator, stofE, he]
  · intro v e hv he
    simp [applyOperator, stofE, hv, he]
  · intro v w hv hw
    have hcases := (isOperator_iff op).mp hop
    constructor
    · intro hdiv hz
      rcases hdiv with h | h <;> subst h <;> simp [applyOperator, stofE, hv, hw, at0, hz]
    · intro hnot
      rcases hcases with h | h | h | h | h | h <;> subst h
      · exact ⟨N.add v w, by simp [applyOperator, stofE, hv, hw, at0]⟩
      · exact ⟨N.sub v w, by simp [applyOperator, stofE, hv, hw, at0]⟩
      · exact ⟨N.mul v w, by simp [applyOperator, stofE, hv, hw, at0]⟩
      · have hz : N.isZero w = false := by
          cases hzw : N.isZero w with
          | false => rfl
          | true => exact absurd ⟨Or.inl rfl, hzw⟩ hnot
        exact ⟨N.div v w, by simp [applyOperator, stofE, hv, hw, at0, hz]⟩
      · exact ⟨N.pow v w, by simp [applyOperator, stofE, hv, hw, at0]⟩
      · have hz : N.isZero w = false := by
          cases hzw : N.isZero w with
          | false => rfl
          | true => exact absurd ⟨Or.inr rfl, hzw⟩ hnot
        exact ⟨N.fmod v w, by simp [applyOperator, stofE, hv, hw, at0, hz]⟩

/-- C19, as the code has it: a run `r` of digits and periods with two periods
or more is emitted by the tokenizer unchanged, as one number token and without
error; alone it is returned as it is; as the left or the right operand of a
binary operator it is handed unchanged to `applyOperator`.  Whether the
expression fails is decided by `std::stof` and the divisor test alone: with
left operand `x` and right operand `y`, it fails with the exception of `stof`
on `x` when `stof` rejects `x`, else with the exception of `stof` on `y` when
`stof` rejects `y`, else with thrown code 3 when the operator is `/` or `%`
and `y` converts to zero, and in every other case it produces a value
rendered by `to_string`. -/
theorem calculate_multi_point (N : Numeric) (r b : Str) (op : Char)
    (hr : isMultiPoint r = true) (hb : isLiteral b = true) (hop : isOperator [op] = true) :
    tokenize r = .ok [r] ∧ calculate N r = .ok r ∧
      calculate N (r ++ [' ', op, ' '] ++ b) = applyOperator N r b [op] ∧
      calculate N (b ++ [' ', op, ' '] ++ r) = applyOperator N b r [op] ∧
      ((∀ e, N.stof r = .error e →
          calculate N (r ++ [' ', op, ' '] ++ b) = .error e.toFailure) ∧
        (∀ v e, N.stof r = .ok v → N.stof b = .error e →
          calculate N (r ++ [' ', op, ' '] ++ b) = .error e.toFailure) ∧
        (∀ v w, N.stof r = .ok v → N.stof b = .ok w →
          ((op = '/' ∨ op = '%') → N.isZero w = true →
            calculate N (r ++ [' ', op, ' '] ++ b) = .error (.thrown 3)) ∧
          (¬ ((op = '/' ∨ op = '%') ∧ N.isZero w = true) →
            ∃ z : N.Flt, calculate N (r ++ [' ', op, ' '] ++ b) = .ok (N.to_string z)))) ∧
      ((∀ e, N.stof b = .error e →
          calculate N (b ++ [' ', op, ' '] ++ r) = .error e.toFailure) ∧
        (∀ v e, N.stof b = .ok v → N.stof r = .error e →
          calculate N (b ++ [' ', op, ' '] ++ r) = .error e.toFailure) ∧
        (∀ v w, N.stof b = .ok v → N.stof r = .ok w →
          ((op = '/' ∨ op = '%') → N.isZero w = true →
            calculate N (b ++ [' ', op, ' '] ++ r) = .error (.thrown 3)) ∧
          (¬ ((op = '/' ∨ op = '%') ∧ N.isZero w = true) →
            ∃ z : N.Flt, calculate N (b ++ [' ', op, ' '] ++ r) = .ok (N.to_string z)))) := by
  obtain ⟨hall, hne, hnum⟩ := isMultiPoint_spec r hr
  obtain ⟨hbne, _, hball⟩ := isLiteral_spec b hb
  have hbnum := isNumberToken_literal b hb
  have ht := tokenize_run r hall hne
  have hl : calculate N (r ++ [' ', op, ' '] ++ b) = applyOperator N r b [op] :=
    calculate_three_tokens N _ r b op
      (tokenize_binary_runs r b op hall hne hball hbne hop) hnum hbnum hop
  have hrt : calculate N (b ++ [' ', op, ' '] ++ r) = applyOperator N b r [op] :=
    calculate_three_tokens N _ b r op
      (tokenize_binary_runs b r op hball hbne hall hne hop) hbnum hnum hop
  refine ⟨ht, (calculate_one_token N r r ht hnum).2, hl, hrt, ?_, ?_⟩
  · rw [hl]
    exact applyOperator_decided N r b op hop
  · rw [hrt]
    exact applyOperator_decided N b r op hop

theorem unsignedDecimal_literal (n : Str) (hn : isLiteral n = true) :
    ∃ p, unsignedDecimal n = some p := by
  unfold isLiteral at hn
  unfold unsignedDecimal
  split at hn
  next heq =>
    have : (List.takeWhile isdigit n).isEmpty = false := by simpa using hn
    simp [this]
  next c fp heq =>
    simp only [hn, if_true]
    exact ⟨_, rfl⟩

theorem literal_unsigned (n : Str) (hn : isLiteral n = true) :
    decimalValue n = (unsignedDecimal n).map fun p => ((p.1 : Int), p.2) := by
  obtain ⟨hne, hd, _⟩ := isLiteral_spec n hn
  cases n with
  | nil => exact absurd rfl hne
  | cons c t =>
    simp only [at0, List.headD_cons] at hd
    have h1 : c ≠ '-' := by intro h; rw [h] at hd; revert hd; decide
    have h2 : c ≠ '+' := by intro h; rw [h] at hd; revert hd; decide
    unfold decimalValue
    split
    · next heq => simp only [List.cons.injEq] at heq; exact absurd heq.1 h1
    · next heq => simp only [List.cons.injEq] at heq; exact absurd heq.1 h2
    · rfl

theorem numEq_self_literal (n : Str) (hn : isLiteral n = true) : numEq n n = true := by
  obtain ⟨p, hp⟩ := unsignedDecimal_literal n hn
  unfold numEq
  rw [literal_unsigned n hn, hp]
  simp

/-- C12, as the code has it: for a number literal `n`, `calculate(n)` returns
the lexeme `n` itself, numerically equal to `n`, with no operator applied;
with a leading sign, `calculate("+n")` is `applyOperator("0", n, "+")` and
`calculate("-n")` is `applyOperator("0", n, "-")`, what the numeric layer
makes of `0 + n` and `0 - n` in `float` arithmetic, rendered by
`to_string`. -/
theorem calculate_literal (N : Numeric) (n : Str) (hn : isLiteral n = true) :
    calculate N n = .ok n ∧ finalStacks N n = .ok ⟨[], [n]⟩ ∧ numEq n n = true ∧
      calculate N ('+' :: n) = applyOperator N ['0'] n ['+'] ∧
      calculate N ('-' :: n) = applyOperator N ['0'] n ['-'] := by
  have h0 := calculate_tree N (num n) (by simpa [wf] using hn)
  have h1 := (calculate_tree N (unary '+' (num n)) (by simpa [wf, level] using hn)).2
  have h2 := (calculate_tree N (unary '-' (num n)) (by simpa [wf, level] using hn)).2
  refine ⟨?_, ?_, numEq_self_literal n hn, ?_, ?_⟩
  · simpa [render, eval] using h0.2
  · simpa [render, eval] using h0.1
  · simpa [render, eval] using h1
  · simpa [render, eval] using h2

theorem stripSpaces_space (rest : Str) : stripSpaces (' ' :: rest) = stripSpaces rest := by
  simp [stripSpaces]

theorem stripSpaces_cons (c : Char) (rest : Str) (h : c ≠ ' ') :
    stripSpaces (c :: rest) = c :: stripSpaces rest := by
  simp [stripSpaces, h]

theorem checkLoop_strip (s : Str) : ∀ checker,
    checkLoop checker s = checkLoop checker (stripSpaces s) := by
  induction s with
  | nil => intro checker; rfl
  | cons c rest ih =>
    intro checker
    by_cases hsp : c = ' '
    · subst hsp
      rw [stripSpaces_space, checkLoop_space, ih]
    · rw [stripSpaces_cons c rest hsp]
      by_cases h1 : c = '('
      · subst h1
        rw [checkLoop_open, checkLoop_open, ih]
      · by_cases h2 : c = ')'
        · subst h2
          cases checker with
          | nil => simp [checkLoop]
          | cons x popped => rw [checkLoop_close, checkLoop_close, ih]
        · rw [checkLoop_other checker c _ h1 h2, checkLoop_other checker c _ h1 h2, ih]

theorem at0_strip (s : Str) (h : at0 s ≠ ' ') : at0 (stripSpaces s) = at0 s := by
  cases s with
  | nil => rfl
  | cons d rest =>
    have hd : d ≠ ' ' := by simpa [at0] using h
    rw [stripSpaces_cons d rest hd]
    rfl

theorem noOpenSpace_cons (c : Char) (rest : Str) (h : noOpenSpace (c :: rest) = true) :
    (c = '(' → at0 rest ≠ ' ') ∧ noOpenSpace rest = true := by
  simp only [noOpenSpace, Bool.and_eq_true, Bool.not_eq_true', Bool.and_eq_false_imp,
    beq_iff_eq, beq_eq_false_iff_ne, ne_eq] at h
  exact ⟨h.1, h.2⟩

theorem emitted_strip (j : Nat) (number : Str) (c : Char) (rest : Str)
    (h : c = '(' → at0 rest ≠ ' ') :
    emitted j number c (at0 (stripSpaces rest)) = emitted j number c (at0 rest) := by
  by_cases hc : c = '('
  · rw [at0_strip rest (h hc)]
  · simp [emitted, hc]

/-- The scan of a string and of the string without its spaces agree, when no
`(` is directly followed by a space and, at index 0, the string does not begin
with a space. -/
theorem scan_strip (s : Str) : ∀ (j : Nat) (number : Str), noOpenSpace s = true →
    (j = 0 → at0 s ≠ ' ') → scan j number s = scan j number (stripSpaces s) := by
  induction s with
  | nil => intro j number _ _; rfl
  | cons c rest ih =>
    intro j number hno hj
    obtain ⟨hopen, hrest⟩ := noOpenSpace_cons c rest hno
    by_cases hsp : c = ' '
    · subst hsp
      have hj0 : j ≠ 0 := fun h => hj h (by simp [at0])
      rw [stripSpaces_space, scan_space, ih (j + 1) number hrest (fun h => by omega),
        scan_pos (j + 1) (by omega), scan_pos j hj0]
    · rw [stripSpaces_cons c rest hsp]
      by_cases hop : OpParen c
      · rw [scan_opParen j number c rest hop, scan_opParen j number c _ hop,
          ih (j + 1) [] hrest (fun h => by omega), emitted_strip j number c rest hopen]
      · by_cases hnum : NumChar c
        · rw [scan_numChar j number c rest hnum, scan_numChar j number c _ hnum,
            ih (j + 1) _ hrest (fun h => by omega)]
        · unfold OpParen at hop
          unfold NumChar at hnum
          rw [scan, scan]
          simp [hop, hnum, hsp]

/-- Digits separated only by spaces form one number token. -/
theorem tokenize_spaced_digits (x y : Str) (n : Nat) (hx : ∀ c ∈ x, NumChar c) (hxne : x ≠ [])
    (hy : ∀ c ∈ y, NumChar c) :
    tokenize (x ++ List.replicate n ' ' ++ y) = .ok [x ++ y] := by
  have hs : x ++ List.replicate n ' ' ++ y = x ++ (List.replicate n ' ' ++ (y ++ [])) := by simp
  rw [hs]
  have hspaces : ∀ (checker : List Char) (m : Nat) (rest : Str),
      checkLoop checker (List.replicate m ' ' ++ rest) = checkLoop checker rest := by
    intro checker m rest
    induction m with
    | zero => rfl
    | succ m ih => rw [List.replicate_succ, List.cons_append, checkLoop_space, ih]
  have hcheck : checkParenthesis (x ++ (List.replicate n ' ' ++ (y ++ []))) = .ok () := by
    unfold checkParenthesis
    rw [checkLoop_digits _ x _ hx, hspaces, checkLoop_digits _ y _ hy]
    rfl
  rw [tokenize_of_check_ok _ hcheck, scan_digits 0 [] x _ hx, List.nil_append, scan_spaces,
    scan_digits _ x y [] hy, scan_end]
  simp [hxne]

/-- C20: for a string that does not begin with a space and in which no `(` is
directly followed by a space, `tokenize` has the same outcome, tokens or
error, as on the string with every space removed; spaces do not end a number,
so digits separated only by spaces form one number token. -/
theorem tokenize_stripSpaces (e : Str) (h1 : at0 e ≠ ' ') (h2 : noOpenSpace e = true) :
    tokenize e = tokenize (stripSpaces e) ∧
      ∀ (x y : Str) (n : Nat), (∀ c ∈ x, NumChar c) → x ≠ [] → (∀ c ∈ y, NumChar c) →
        tokenize (x ++ List.replicate n ' ' ++ y) = .ok [x ++ y] := by
  refine ⟨?_, fun x y n hx hxne hy => tokenize_spaced_digits x y n hx hxne hy⟩
  have hc : checkParenthesis e = checkParenthesis (stripSpaces e) := by
    unfold checkParenthesis
    exact checkLoop_strip e []
  rcases checkParenthesis_cases e with h | h
  · rw [tokenize_of_check_ok e h, tokenize_of_check_ok _ (hc ▸ h)]
    exact scan_strip e 0 [] h2 (fun _ => h1)
  · rw [tokenize_of_check_error e _ h, tokenize_of_check_error _ _ (hc ▸ h)]

theorem takeWhile_digits (p rest : Str) (hp : ∀ c ∈ p, isdigit c = true) :
    (p ++ '.' :: rest).takeWhile isdigit = p := by
  induction p with
  | nil => simp [List.takeWhile, isdigit]
  | cons c cs ih =>
    simp only [List.cons_append, List.takeWhile_cons, hp c (by simp), if_true]
    rw [ih (fun d hd => hp d (by simp [hd]))]

theorem dropWhile_digits (p rest : Str) (hp : ∀ c ∈ p, isdigit c = true) :
    (p ++ '.' :: rest).dropWhile isdigit = '.' :: rest := by
  induction p with
  | nil => simp [List.dropWhile, isdigit]
  | cons c cs ih =>
    simp only [List.cons_append, List.dropWhile_cons, hp c (by simp), if_true]
    exact ih (fun d hd => hp d (by simp [hd]))

theorem takeWhile_all_digits (q : Str) (hq : ∀ c ∈ q, isdigit c = true) :
    q.takeWhile isdigit = q := by
  induction q with
  | nil => rfl
  | cons c cs ih =>
    simp only [List.takeWhile_cons, hq c (by simp), if_true]
    rw [ih (fun d hd => hq d (by simp [hd]))]

theorem lower_numChar (c : Char) (h : NumChar c) : F32.lower c = c ∧ c ≠ 'i' ∧ c ≠ 'n' ∧
    c ≠ '-' ∧ c ≠ '+' ∧ F32.isspace c = false := by
  unfold NumChar at h
  rcases h with h | h
  · simp only [isdigit, Bool.and_eq_true, decide_eq_true_eq] at h
    refine ⟨?_, ?_, ?_, ?_, ?_, ?_⟩
    · unfold F32.lower
      rw [if_neg (by omega)]
    · rintro rfl; revert h; decide
    · rintro rfl; revert h; decide
    · rintro rfl; revert h; decide
    · rintro rfl; revert h; decide
    · have h32 : c ≠ ' ' := by rintro rfl; revert h; decide
      simp only [F32.isspace, Bool.or_eq_false_iff, decide_eq_false_iff_not, Bool.and_eq_false_imp,
        decide_eq_true_eq]
      exact ⟨h32, fun _ => by omega⟩
  · subst h
    decide

theorem not_special (s : Str) (h : ∀ c ∈ s.head?, NumChar c) :
    (s.take 3).map F32.lower ≠ ['i', 'n', 'f'] ∧ (s.take 3).map F32.lower ≠ ['n', 'a', 'n'] := by
  cases s with
  | nil => simp
  | cons c t =>
    obtain ⟨h1, h2, h3, _⟩ := lower_numChar c (h c (by simp))
    constructor <;> intro hh <;> simp [h1] at hh <;> simp_all

/-- In the model of `std::stof`, after the sign, a run of digits, a period and
a run of digits are converted, and whatever follows a second period is
ignored. -/
theorem stofBody_second_point (neg : Bool) (p q rest : Str) (hp : ∀ c ∈ p, isdigit c = true)
    (hq : ∀ c ∈ q, isdigit c = true) :
    F32.stofBody neg (p ++ '.' :: (q ++ '.' :: rest)) = F32.stofBody neg (p ++ '.' :: q) := by
  have hhead : ∀ X : Str, ∀ c ∈ (p ++ '.' :: X).head?, NumChar c := by
    intro X c hc
    cases p with
    | nil =>
      simp at hc
      subst hc
      exact Or.inr rfl
    | cons d ds =>
      simp at hc
      subst hc
      exact Or.inl (hp _ (by simp))
  obtain ⟨a1, a2⟩ := not_special _ (hhead (q ++ '.' :: rest))
  obtain ⟨b1, b2⟩ := not_special _ (hhead q)
  unfold F32.stofBody
  rw [if_neg a1, if_neg a2, if_neg b1, if_neg b2]
  simp only [takeWhile_digits p _ hp, dropWhile_digits p _ hp, takeWhile_digits q _ hq,
    takeWhile_all_digits q hq]

/-- In the model of `std::stof`, a token made of digits, a period, digits, a
second period and anything more converts to the same value as its part before
the second period. -/
theorem stof_second_point (p q rest : Str) (hp : ∀ c ∈ p, isdigit c = true)
    (hq : ∀ c ∈ q, isdigit c = true) :
    binary32.stof (p ++ '.' :: (q ++ '.' :: rest)) = binary32.stof (p ++ '.' :: q) := by
  have key : ∀ X : Str, F32.stof (p ++ '.' :: X) = F32.stofBody false (p ++ '.' :: X) := by
    intro X
    unfold F32.stof
    cases p with
    | nil => rfl
    | cons d ds =>
      obtain ⟨_, _, _, h4, h5, h6⟩ := lower_numChar d (Or.inl (hp d (by simp)))
      simp only [List.cons_append, List.dropWhile_cons, h6]
      split
      · rename_i heq
        simp at heq
        exact absurd heq.1 h4
      · rename_i heq
        simp at heq
        exact absurd heq.1 h5
      · rfl
  show F32.stof _ = F32.stof _
  rw [key, key, stofBody_second_point false p q rest hp hq]

set_option maxRecDepth 100000 in
/-- C11 at concrete inputs: `3*-2`, `3 * -2` and `2 ^ -1` fail with thrown
code 22, also over the numeric layer that refuses every string. -/
theorem calculate_sign_after_op_witness :
    calculate binary32 "3*-2".toList = .error (.thrown 22) ∧
      calculate binary32 "3 * -2".toList = .error (.thrown 22) ∧
      calculate binary32 "2 ^ -1".toList = .error (.thrown 22) ∧
      calculate refusing "2 ^ -1".toList = .error (.thrown 22) :=
  ⟨(calculate_sign_after_op binary32 "3".toList "2".toList '*' '-' 0 0 0
      (by decide) (by decide) (by decide) (by decide)).1,
    (calculate_sign_after_op binary32 "3".toList "2".toList '*' '-' 1 1 0
      (by decide) (by decide) (by decide) (by decide)).1,
    (calculate_sign_after_op binary32 "2".toList "1".toList '^' '-' 1 1 0
      (by decide) (by decide) (by decide) (by decide)).1,
    (calculate_sign_after_op binary32 "2".toList "1".toList '^' '-' 1 1 0
      (by decide) (by decide) (by decide) (by decide)).2.1⟩

set_option maxRecDepth 100000 in
/-- C12 refuted as stated: with a leading sign the literal goes through
`float` and the six-digit rendering of `std::to_string`, and the result is not
numerically equal to it: `calculate("+16777217")` is `16777216.000000`, and
`calculate("-0.0000001")` is `-0.000000`. -/
theorem calculate_signed_literal_rounds :
    isLiteral "16777217".toList = true ∧
      calculate binary32 "+16777217".toList = .ok "16777216.000000".toList ∧
      numEq "16777216.000000".toList "16777217".toList = false ∧
      isLiteral "0.0000001".toList = true ∧
      calculate binary32 "-0.0000001".toList = .ok "-0.000000".toList ∧
      numEq "-0.000000".toList "-0.0000001".toList = false := by
  decide

set_option maxRecDepth 100000 in
/-- C12 (amended) at a concrete input: `calculate("2.5")` is the lexeme `2.5`,
and `calculate("+2.5")`, `calculate("-2.5")` are the renderings `2.500000`
and `-2.500000` of `0 + 2.5` and `0 - 2.5`, here equal in value to the
literal. -/
theorem calculate_literal_witness :
    calculate binary32 "2.5".toList = .ok "2.5".toList ∧
      calculate binary32 "+2.5".toList = .ok "2.500000".toList ∧
      numEq "2.500000".toList "2.5".toList = true ∧
      calculate binary32 "-2.5".toList = .ok "-2.500000".toList ∧
      numEq "-2.500000".toList "-2.5".toList = true :=
  have h := calculate_literal binary32 "2.5".toList (by decide)
  ⟨h.1, h.2.2.2.1.trans (by decide), by decide, h.2.2.2.2.trans (by decide), by decide⟩

set_option maxRecDepth 100000 in
/-- C16 at a concrete input: after the first six tokens of `1+2*3^4` the
operator stack holds `^`, `*`, `+` from the top, of ranks 3, 2, 1, three
pending operators. -/
theorem opStack_ranked_witness :
    stacksAfter binary32 "1+2*3^4".toList 6 =
        .ok ⟨["^".toList, "*".toList, "+".toList], ["3".toList, "2".toList, "1".toList]⟩ ∧
      Ranked ["^".toList, "*".toList, "+".toList] ∧
      (pendingLevel ["^".toList, "*".toList, "+".toList]).countP isOpToken ≤ 3 :=
  have h := opStack_ranked binary32 "1+2*3^4".toList 6
    ⟨["^".toList, "*".toList, "+".toList], ["3".toList, "2".toList, "1".toList]⟩ (by decide)
  ⟨by decide, h.1, (h.2.1 0).2⟩

set_option maxRecDepth 100000 in
/-- C18 at concrete inputs: every number token of `3 + 4 * 2` and of `3 + * 4`
is a literal; the first evaluates and the second fails with thrown code 22,
neither with thrown code 52 or 53. -/
theorem calculate_never_unknown_operator_witness :
    (calculate binary32 "3 + 4 * 2".toList ≠ .error (.thrown 52) ∧
      calculate binary32 "3 + 4 * 2".toList ≠ .error (.thrown 53)) ∧
      (calculate binary32 "3 + * 4".toList ≠ .error (.thrown 52) ∧
        calculate binary32 "3 + * 4".toList ≠ .error (.thrown 53)) ∧
      calculate binary32 "3 + * 4".toList = .error (.thrown 22) :=
  ⟨calculate_never_unknown_operator binary32 "3 + 4 * 2".toList (by
      intro tokens h
      have h2 : tokenize "3 + 4 * 2".toList =
          .ok ["3".toList, "+".toList, "4".toList, "*".toList, "2".toList] := by decide
      rw [h2] at h
      cases h
      decide),
    calculate_never_unknown_operator binary32 "3 + * 4".toList (by
      intro tokens h
      have h2 : tokenize "3 + * 4".toList =
          .ok ["3".toList, "+".toList, "*".toList, "4".toList] := by decide
      rw [h2] at h
      cases h
      decide),
    by decide⟩

set_option maxRecDepth 100000 in
/-- C19 refuted as stated: `1.2.3 + 1` and `1 + 1.2.3` do not fail; the numeric
parsing converts the leading `1.2` of the token `1.2.3` and both return
`2.200000`. -/
theorem calculate_multi_point_value :
    isMultiPoint "1.2.3".toList = true ∧
      tokenize "1.2.3 + 1".toList = .ok ["1.2.3".toList, "+".toList, "1".toList] ∧
      calculate binary32 "1.2.3 + 1".toList = .ok "2.200000".toList ∧
      calculate binary32 "1 + 1.2.3".toList = .ok "2.200000".toList ∧
      F32.stof "1.2.3".toList = F32.stof "1.2".toList := by
  decide

set_option maxRecDepth 100000 in
/-- C19 (amended) at concrete inputs: the run `1.2.3` is one number token,
`calculate("1.2.3")` returns it unchanged, and `1.2.3 + 1` is
`applyOperator("1.2.3", "1", "+")`; `..5 + 1` and `1 + ..5` fail with the
`std::invalid_argument` of `stof` on `..5`, a run beyond the range of `float`
fails with its `std::out_of_range`, `1.2.3 / 0` fails with thrown code 3, and
`7 % 1.2.3` produces a value. -/
theorem calculate_multi_point_witness :
    tokenize "1.2.3".toList = .ok ["1.2.3".toList] ∧
      calculate binary32 "1.2.3".toList = .ok "1.2.3".toList ∧
      calculate binary32 "1.2.3 + 1".toList =
        applyOperator binary32 "1.2.3".toList "1".toList "+".toList ∧
      calculate binary32 "..5 + 1".toList = .error .invalid_argument ∧
      calculate binary32 "1 + ..5".toList = .error .invalid_argument ∧
      calculate binary32 "1000000000000000000000000000000000000000.0.0 + 1".toList =
        .error .out_of_range ∧
      calculate binary32 "1.2.3 / 0".toList = .error (.thrown 3) ∧
      (∃ z : F32, calculate binary32 "7 % 1.2.3".toList = .ok (binary32.to_string z)) :=
  have h := calculate_multi_point binary32 "1.2.3".toList "1".toList '+'
    (by decide) (by decide) (by decide)
  have h2 := calculate_multi_point binary32 "..5".toList "1".toList '+'
    (by decide) (by decide) (by decide)
  have h3 := calculate_multi_point binary32
    "1000000000000000000000000000000000000000.0.0".toList "1".toList '+'
    (by decide) (by decide) (by decide)
  have h4 := calculate_multi_point binary32 "1.2.3".toList "0".toList '/'
    (by decide) (by decide) (by decide)
  have h5 := calculate_multi_point binary32 "1.2.3".toList "7".toList '%'
    (by decide) (by decide) (by decide)
  ⟨h.1, h.2.1, h.2.2.1,
    h2.2.2.2.2.1.1 .invalid_argument (by rfl),
    h2.2.2.2.2.2.2.1 (F32.finite false 8388608 (-23)) .invalid_argument (by rfl) (by rfl),
    h3.2.2.2.2.1.1 .out_of_range (by rfl),
    ((h4.2.2.2.2.1.2.2 (F32.finite false 10066330 (-23)) (F32.finite false 0 (-149))
      (by rfl) (by rfl)).1 (Or.inl rfl) (by rfl)),
    ((h5.2.2.2.2.2.2.2 (F32.finite false 14680064 (-21)) (F32.finite false 10066330 (-23))
      (by rfl) (by rfl)).2 (by decide))⟩

set_option maxRecDepth 100000 in
/-- C20 at concrete inputs: `3 + 4 * (2 - 1)` has the tokens of `3+4*(2-1)`,
`3 + 4 & 1` fails as `3+4&1` does, and `1 2` is the single token `12`. -/
theorem tokenize_stripSpaces_witness :
    tokenize "3 + 4 * (2 - 1)".toList = tokenize "3+4*(2-1)".toList ∧
      tokenize "3 + 4 & 1".toList = tokenize "3+4&1".toList ∧
      tokenize "3 + 4 & 1".toList = .error (.thrown 51) ∧
      tokenize "1 2".toList = .ok ["12".toList] :=
  ⟨(tokenize_stripSpaces "3 + 4 * (2 - 1)".toList (by decide) (by decide)).1,
    (tokenize_stripSpaces "3 + 4 & 1".toList (by decide) (by decide)).1,
    by decide,
    (tokenize_stripSpaces "1 2".toList (by decide) (by decide)).2 "1".toList "2".toList 1
      (by intro c hc; simp at hc; subst hc; exact Or.inl (by decide)) (by decide)
      (by intro c hc; simp at hc; subst hc; exact Or.inl (by decide))⟩

end Evaluator
